import Mathlib

/-!
# Boundary-tag allocator of `alloc.c`

A shallow embedding of `init_region`, `alloc_mem`, `free_size` and
`release_mem` over a byte-addressed memory, followed by theorems about them.

* Memory is a map from absolute addresses to bytes; the 1680 bytes starting at
  `region_base` are the only ones the program may touch: every load and store
  checks that its bytes lie inside the region and yields `none` otherwise.
* `struct tag_block { char tag; char sig[11]; unsigned int size; }` occupies
  16 bytes (tag at +0, sig at +1, size at +12, little endian).
* `struct free_block { struct free_block *back_link, *fwd_link; }` occupies
  16 bytes (back_link at +0, fwd_link at +8, 8-byte little-endian pointers).
* `unsigned int` is 32 bits, `int` is 32 bits two's complement, `size_t` and
  pointers are 64 bits.  `NULL` is address 0.
-/

set_option linter.unusedVariables false

namespace Alloc

/-! ## Memory -/

/-- Byte-addressed memory: the value stored at each absolute address. -/
abbrev Mem := Int → Int

/-- Read one byte. -/
def rd8 (m : Mem) (a : Int) : Int := m a % 256

/-- Write one byte. -/
def wr8 (m : Mem) (a v : Int) : Mem := fun i => if i = a then v % 256 else m i

/-- Read an `n`-byte little-endian unsigned integer at `a`. -/
def rdLE (m : Mem) : Nat → Int → Int
  | 0, _ => 0
  | n + 1, a => rd8 m a + 256 * rdLE m n (a + 1)

/-- Write the low `n` bytes of `v`, little endian, at `a`. -/
def wrLE (m : Mem) : Nat → Int → Int → Mem
  | 0, _, _ => m
  | n + 1, a, v => wrLE (wr8 m a v) n (a + 1) (v / 256)

/-- Write the bytes of a string literal followed by the terminating NUL. -/
def wrStr (m : Mem) : Int → List Int → Mem
  | a, [] => wr8 m a 0
  | a, c :: cs => wrStr (wr8 m a c) (a + 1) cs

/-- Conversion to `unsigned int`. -/
def toU32 (x : Int) : Int := x % 4294967296

/-- Conversion to `int` (two's complement wrap-around). -/
def toI32 (x : Int) : Int := (x + 2147483648) % 4294967296 - 2147483648

/-- The bytes of "end_region". -/
def sig_end_region : List Int := [101, 110, 100, 95, 114, 101, 103, 105, 111, 110]
/-- The bytes of "top_region". -/
def sig_top_region : List Int := [116, 111, 112, 95, 114, 101, 103, 105, 111, 110]
/-- The bytes of "top_memblk". -/
def sig_top_memblk : List Int := [116, 111, 112, 95, 109, 101, 109, 98, 108, 107]
/-- The bytes of "end_memblk". -/
def sig_end_memblk : List Int := [101, 110, 100, 95, 109, 101, 109, 98, 108, 107]

/-! ## Program state -/

/-- The globals of `alloc.c` together with the memory they point into. -/
structure State where
  mem : Mem
  region_base : Int
  free_list : Int

/-- The `w` bytes at `a` lie inside the 1680-byte region obtained from `malloc`. -/
def State.inRegion (s : State) (a w : Int) : Prop :=
  s.region_base ≤ a ∧ a + w ≤ s.region_base + 1680

instance (s : State) (a w : Int) : Decidable (s.inRegion a w) := by
  unfold State.inRegion; infer_instance

/-- Sequencing of steps that may fault: a fault (`none`) ends the run. -/
def bindOpt {α β : Type} (x : Option α) (k : α → Option β) : Option β :=
  match x with
  | none => none
  | some a => k a

/-- Load a `char`. -/
def load8 (s : State) (a : Int) : Option Int :=
  if s.inRegion a 1 then some (rd8 s.mem a) else none

/-- Store a `char`. -/
def store8 (s : State) (a v : Int) : Option State :=
  if s.inRegion a 1 then some { s with mem := wr8 s.mem a v } else none

/-- Load an `unsigned int`. -/
def load32 (s : State) (a : Int) : Option Int :=
  if s.inRegion a 4 then some (rdLE s.mem 4 a) else none

/-- Store an `unsigned int`. -/
def store32 (s : State) (a v : Int) : Option State :=
  if s.inRegion a 4 then some { s with mem := wrLE s.mem 4 a v } else none

/-- Load a pointer. -/
def loadPtr (s : State) (a : Int) : Option Int :=
  if s.inRegion a 8 then some (rdLE s.mem 8 a) else none

/-- Store a pointer. -/
def storePtr (s : State) (a v : Int) : Option State :=
  if s.inRegion a 8 then some { s with mem := wrLE s.mem 8 a v } else none

/-- Read `tb->tag` of a `struct tag_block *tb`. -/
def get_tag (s : State) (tb : Int) : Option Int := load8 s tb
/-- Assign `tb->tag`. -/
def set_tag (s : State) (tb v : Int) : Option State := store8 s tb v
/-- Read `tb->size`. -/
def get_size (s : State) (tb : Int) : Option Int := load32 s (tb + 12)
/-- Assign `tb->size`. -/
def set_size (s : State) (tb v : Int) : Option State := store32 s (tb + 12) v
/-- Read `fb->back_link` of a `struct free_block *fb`. -/
def get_back (s : State) (fb : Int) : Option Int := loadPtr s fb
/-- Assign `fb->back_link`. -/
def set_back (s : State) (fb v : Int) : Option State := storePtr s fb v
/-- Read `fb->fwd_link`. -/
def get_fwd (s : State) (fb : Int) : Option Int := loadPtr s (fb + 8)
/-- Assign `fb->fwd_link`. -/
def set_fwd (s : State) (fb v : Int) : Option State := storePtr s (fb + 8) v

/-- The library call `strcpy(dst, src)` with both strings inside the region: bytes are
copied up to and including the first NUL.  Each step reads a fresh source address, so
1681 steps of fuel are never used up inside a 1680-byte region. -/
def strcpy (s : State) : Nat → Int → Int → Option State
  | 0, _, _ => none
  | fuel + 1, dst, src =>
    bindOpt (load8 s src) fun c =>
    bindOpt (store8 s dst c) fun s1 =>
    if c = 0 then some s1 else strcpy s1 fuel (dst + 1) (src + 1)

/-! ## `init_region` -/

/-- The function `init_region`: `base` is the address returned by `malloc(1680)` and `m0`
the memory content at that time.  A NULL result of `malloc` ends the program. -/
def init_region (m0 : Mem) (base : Int) : Option State :=
  if base = 0 then none else
  -- ptr = region_base
  let m := wr8 m0 base 1
  let m := wrStr m (base + 1) sig_end_region
  let m := wrLE m 4 (base + 12) 0
  -- ptr = region_base + 16
  let m := wr8 m (base + 16) 0
  let m := wrStr m (base + 16 + 1) sig_top_memblk
  let m := wrLE m 4 (base + 16 + 12) 1600
  -- ptr = region_base + 1632
  let m := wr8 m (base + 1632) 0
  let m := wrStr m (base + 1632 + 1) sig_end_memblk
  let m := wrLE m 4 (base + 1632 + 12) 1600
  -- ptr = region_base + 1648
  let m := wr8 m (base + 1648) 1
  let m := wrStr m (base + 1648 + 1) sig_top_region
  let m := wrLE m 4 (base + 1648 + 12) 0
  let links1 := base + 32
  let links2 := base + 1664
  let m := wrLE m 8 links1 links2
  let m := wrLE m 8 (links1 + 8) links2
  let m := wrLE m 8 links2 links1
  let m := wrLE m 8 (links2 + 8) links1
  some { mem := m, region_base := base, free_list := links2 }

/-! ## `alloc_mem` -/

/-- The value of `req_amt`:
`int req_amt = (amount % 16 == 0) ? amount : ((amount / 16) + 1) * 16;`
computed in `unsigned int` and converted to `int`. -/
def req_amt (amount : Int) : Int :=
  toI32 (if amount % 16 = 0 then amount else toU32 ((amount / 16 + 1) * 16))

/-- The search loop of `alloc_mem`
(`while(ptr != NULL && ptr != free_list && mem_ptr == NULL)`); `tag_ptr` is always
`ptr - 1` tag block.  The result is the final `(ptr, mem_ptr)`.  The loop does not write,
so a run that ends visits each address at most once and 1680 steps of fuel suffice. -/
def alloc_search (s : State) (req : Int) : Nat → Int → Int → Option (Int × Int)
  | 0, _, _ => none
  | fuel + 1, ptr, mem_ptr =>
    if ptr ≠ 0 ∧ ptr ≠ s.free_list ∧ mem_ptr = 0 then
      bindOpt (get_size s (ptr - 16)) fun sz =>
      if toU32 req ≤ sz then alloc_search s req fuel ptr ptr
      else bindOpt (get_fwd s ptr) fun nxt => alloc_search s req fuel nxt mem_ptr
    else some (ptr, mem_ptr)

/-- The branch `if(tag_ptr->size >= req_amt + 48)` of `alloc_mem`: split the block. -/
def alloc_split (s : State) (req tag_ptr : Int) : Option (State × Int) :=
  bindOpt (set_tag s tag_ptr 0) fun s =>
  bindOpt (get_size s tag_ptr) fun sz =>
  let end_ptr := tag_ptr + 16 * (sz / 16) + 16
  bindOpt (set_tag s end_ptr 1) fun s =>
  -- tag_ptr->size = tag_ptr->size - req_amt - 2 * sizeof(struct tag_block)
  bindOpt (get_size s tag_ptr) fun sz =>
  bindOpt (set_size s tag_ptr (toU32 (sz - toU32 req - 32))) fun s =>
  bindOpt (get_size s tag_ptr) fun sz =>
  let tag_ptr_f := tag_ptr + 16 * (sz / 16) + 16
  bindOpt (set_tag s tag_ptr_f 0) fun s =>
  bindOpt (strcpy s 1681 (tag_ptr_f + 1) (tag_ptr + 1)) fun s =>
  bindOpt (get_size s tag_ptr) fun sz =>
  bindOpt (set_size s tag_ptr_f sz) fun s =>
  -- end_ptr->size = req_amt
  bindOpt (set_size s end_ptr (toU32 req)) fun s =>
  let tag_ptr_a := end_ptr - 16 * (Int.tdiv req 16) - 16
  bindOpt (set_tag s tag_ptr_a 1) fun s =>
  bindOpt (strcpy s 1681 (tag_ptr_a + 1) (end_ptr + 1)) fun s =>
  bindOpt (get_size s end_ptr) fun sz =>
  bindOpt (set_size s tag_ptr_a sz) fun s =>
  some (s, end_ptr - 16 * (Int.tdiv req 16))

/-- The `else` branch of `alloc_mem`: hand out the whole block and unlink it. -/
def alloc_whole (s : State) (ptr tag_ptr mem_ptr : Int) : Option (State × Int) :=
  bindOpt (set_tag s tag_ptr 1) fun s =>
  bindOpt (get_size s tag_ptr) fun sz =>
  let end_ptr := tag_ptr + 16 * (sz / 16) + 16
  bindOpt (get_size s tag_ptr) fun sz =>
  bindOpt (set_size s end_ptr sz) fun s =>
  bindOpt (set_tag s end_ptr 1) fun s =>
  bindOpt (get_back s ptr) fun prev =>
  bindOpt (get_fwd s ptr) fun nxt =>
  bindOpt (set_fwd s prev nxt) fun s =>
  bindOpt (get_fwd s ptr) fun nxt =>
  bindOpt (set_back s nxt prev) fun s =>
  some (s, mem_ptr)

/-- The function `alloc_mem`; the result is the new state and the returned pointer
(0 for NULL).  The argument is converted to `unsigned int` as at a C call. -/
def alloc_mem (s : State) (amount : Int) : Option (State × Int) :=
  let amount := toU32 amount
  if amount = 0 then some (s, 0) else
  let req := req_amt amount
  bindOpt (get_fwd s s.free_list) fun ptr0 =>
  bindOpt (alloc_search s req 1680 ptr0 0) fun r =>
  let ptr := r.1
  let mem_ptr := r.2
  if ptr = 0 ∨ ptr = s.free_list then some (s, 0) else
  let tag_ptr := ptr - 16
  bindOpt (get_size s tag_ptr) fun sz =>
  if toU32 (toI32 (req + 48)) ≤ sz then alloc_split s req tag_ptr
  else alloc_whole s ptr tag_ptr mem_ptr

/-! ## `free_size` -/

/-- The loop of `free_size` (`while(!(ptr == NULL) && !(ptr == free_list))`), with the
running `int size`. -/
def free_size_loop (s : State) : Nat → Int → Int → Option Int
  | 0, _, _ => none
  | fuel + 1, ptr, size =>
    if ptr ≠ 0 ∧ ptr ≠ s.free_list then
      bindOpt (get_size s (ptr - 16)) fun sz =>
      bindOpt (get_fwd s ptr) fun nxt =>
      free_size_loop s fuel nxt (toI32 (toU32 size + sz))
    else some size

/-- The function `free_size`. -/
def free_size (s : State) : Option Int :=
  if s.free_list = 0 then some 0 else
  bindOpt (get_fwd s s.free_list) fun f =>
  if s.free_list = f then some 0 else
  bindOpt (get_fwd s s.free_list) fun ptr =>
  bindOpt (get_size s (ptr - 16)) fun sz =>
  bindOpt (get_fwd s ptr) fun nxt =>
  free_size_loop s 1680 nxt (toI32 sz)

/-! ## `release_mem` -/

/-- Case 1 of `release_mem` (`!coalesce_lower && !coalesce_upper`). -/
def release_case1 (s : State) (f_ptr tag_ptr end_ptr : Int) : Option State :=
  bindOpt (set_tag s tag_ptr 0) fun s =>
  bindOpt (set_tag s end_ptr 0) fun s =>
  bindOpt (get_fwd s s.free_list) fun temp_ptr =>
  bindOpt (set_fwd s s.free_list f_ptr) fun s =>
  bindOpt (set_back s f_ptr s.free_list) fun s =>
  bindOpt (set_fwd s f_ptr temp_ptr) fun s =>
  bindOpt (get_fwd s f_ptr) fun n =>
  set_back s n f_ptr

/-- Case 2 of `release_mem` (`!coalesce_lower && coalesce_upper`). -/
def release_case2 (s : State) (tag_ptr end_ptr : Int) : Option State :=
  let upper_lower_tag := tag_ptr - 16
  bindOpt (get_size s upper_lower_tag) fun usz =>
  let top_tag := upper_lower_tag - 16 * (usz / 16) - 16
  bindOpt (set_tag s top_tag 0) fun s =>
  bindOpt (set_tag s end_ptr 0) fun s =>
  -- top_tag->size += tag_ptr->size + 2 * sizeof(struct tag_block)
  bindOpt (get_size s top_tag) fun a =>
  bindOpt (get_size s tag_ptr) fun b =>
  bindOpt (set_size s top_tag (toU32 (a + (b + 32)))) fun s =>
  bindOpt (get_size s top_tag) fun c =>
  set_size s end_ptr c

/-- Case 3 of `release_mem` (`coalesce_lower && !coalesce_upper`). -/
def release_case3 (s : State) (f_ptr tag_ptr : Int) : Option State :=
  let lower_upper_tag := tag_ptr - 16
  bindOpt (get_size s lower_upper_tag) fun lsz =>
  let bottom_tag := lower_upper_tag - 16 * (lsz / 16) - 16
  let bottom_block := bottom_tag + 16
  bindOpt (set_tag s bottom_tag 0) fun s =>
  bindOpt (set_tag s tag_ptr 0) fun s =>
  -- bottom_tag->size += tag_ptr->size + 2 * sizeof(struct tag_block)
  bindOpt (get_size s bottom_tag) fun a =>
  bindOpt (get_size s tag_ptr) fun b =>
  bindOpt (set_size s bottom_tag (toU32 (a + (b + 32)))) fun s =>
  bindOpt (get_size s bottom_tag) fun c =>
  bindOpt (set_size s tag_ptr c) fun s =>
  bindOpt (get_fwd s bottom_block) fun f =>
  bindOpt (set_fwd s f_ptr f) fun s =>
  bindOpt (get_fwd s f_ptr) fun f =>
  bindOpt (set_back s f f_ptr) fun s =>
  bindOpt (get_back s bottom_block) fun b =>
  bindOpt (set_back s f_ptr b) fun s =>
  bindOpt (get_back s f_ptr) fun b =>
  set_fwd s b f_ptr

/-- Case 4 of `release_mem` (the final `else`). -/
def release_case4 (s : State) (tag_ptr : Int) : Option State :=
  let upper_lower_tag := tag_ptr - 16
  bindOpt (get_size s upper_lower_tag) fun usz =>
  let top_tag := upper_lower_tag - 16 * (usz / 16) - 16
  let top_block := top_tag + 16
  let lower_upper_tag := tag_ptr - 16
  bindOpt (get_size s lower_upper_tag) fun lsz =>
  let bottom_tag := lower_upper_tag - 16 * (lsz / 16) - 16
  let bottom_block := bottom_tag + 16
  -- top_tag->size += bottom_tag->size + 4 * sizeof(struct tag_block)
  bindOpt (get_size s top_tag) fun a =>
  bindOpt (get_size s bottom_tag) fun b =>
  bindOpt (set_size s top_tag (toU32 (a + (b + 64)))) fun s =>
  bindOpt (get_size s top_tag) fun c =>
  bindOpt (set_size s bottom_tag c) fun s =>
  bindOpt (get_fwd s bottom_block) fun f =>
  bindOpt (set_fwd s top_block f) fun s =>
  bindOpt (get_fwd s top_block) fun f =>
  set_back s f top_block

/-- The function `release_mem`; the result is the new state and the return code. -/
def release_mem (s : State) (ptr : Int) : Option (State × Int) :=
  if ptr = 0 then some (s, 1) else
  let f_ptr := ptr
  let tag_ptr := ptr - 16
  bindOpt (get_size s tag_ptr) fun sz0 =>
  let end_ptr := tag_ptr + 16 + 16 * (sz0 / 16)
  if tag_ptr = s.free_list then some (s, 1) else
  -- if(tag_ptr->tag != 1 || end_ptr->tag != 1) return 1;
  bindOpt (get_tag s tag_ptr) fun t1 =>
  if t1 ≠ 1 then some (s, 1) else
  bindOpt (get_tag s end_ptr) fun t2 =>
  if t2 ≠ 1 then some (s, 1) else
  -- if(tag_ptr->size == 0 || end_ptr->size == 0) return 1;
  bindOpt (get_size s tag_ptr) fun sz1 =>
  if sz1 = 0 then some (s, 1) else
  bindOpt (get_size s end_ptr) fun sz2 =>
  if sz2 = 0 then some (s, 1) else
  bindOpt (get_tag s (end_ptr + 16)) fun tl =>
  let coalesce_lower : Bool := tl = 0
  bindOpt (get_tag s (tag_ptr - 16)) fun tu =>
  let coalesce_upper : Bool := tu = 0
  if !coalesce_lower && !coalesce_upper then
    (release_case1 s f_ptr tag_ptr end_ptr).map fun s => (s, 0)
  else if !coalesce_lower && coalesce_upper then
    (release_case2 s tag_ptr end_ptr).map fun s => (s, 0)
  else if coalesce_lower && !coalesce_upper then
    (release_case3 s f_ptr tag_ptr).map fun s => (s, 0)
  else
    (release_case4 s tag_ptr).map fun s => (s, 0)

/-! ## Well-formed states -/

/-- A block between the sentinels: payload address, payload size, status. -/
structure Block where
  addr : Int
  size : Int
  free : Bool
deriving DecidableEq

/-- The tag byte of a status: 0 for free, 1 for allocated. -/
def tagByte (free : Bool) : Int := if free then 0 else 1

/-- The tag block at address `t` records the given status and size. -/
def TagIs (m : Mem) (t : Int) (free : Bool) (size : Int) : Prop :=
  rd8 m t = tagByte free ∧ rdLE m 4 (t + 12) = size

instance (m : Mem) (t : Int) (free : Bool) (size : Int) : Decidable (TagIs m t free size) := by
  unfold TagIs; infer_instance

/-- The blocks `bl`, in address order, tile the addresses from `lo` up to `hi`: each
block is a 16-byte start tag, a payload of `size` bytes (a positive multiple of 16) and
a 16-byte end tag, both tags recording the block's status and size. -/
def Tiles (m : Mem) : Int → List Block → Int → Prop
  | lo, [], hi => lo = hi
  | lo, b :: bs, hi =>
    b.addr = lo + 16 ∧ 16 ≤ b.size ∧ b.size % 16 = 0 ∧
    TagIs m lo b.free b.size ∧ TagIs m (b.addr + b.size) b.free b.size ∧
    Tiles m (b.addr + b.size + 16) bs hi

/-- Decision procedure for `Tiles`. -/
def Tiles.dec (m : Mem) : (lo : Int) → (bl : List Block) → (hi : Int) → Decidable (Tiles m lo bl hi)
  | lo, [], hi => inferInstanceAs (Decidable (lo = hi))
  | lo, b :: bs, hi =>
    have := Tiles.dec m (b.addr + b.size + 16) bs hi
    inferInstanceAs (Decidable (b.addr = lo + 16 ∧ 16 ≤ b.size ∧ b.size % 16 = 0 ∧
      TagIs m lo b.free b.size ∧ TagIs m (b.addr + b.size) b.free b.size ∧
      Tiles m (b.addr + b.size + 16) bs hi))

instance (m : Mem) (lo : Int) (bl : List Block) (hi : Int) : Decidable (Tiles m lo bl hi) :=
  Tiles.dec m lo bl hi

/-- The nodes `xs` form a doubly linked segment from `a` to `c`: following `fwd_link`
from `a` visits `xs` in order and then reaches `c`, and each `back_link` along the way
points to the node before. -/
def Seg (m : Mem) : Int → List Int → Int → Prop
  | a, [], c => rdLE m 8 (a + 8) = c ∧ rdLE m 8 c = a
  | a, x :: xs, c => rdLE m 8 (a + 8) = x ∧ rdLE m 8 x = a ∧ Seg m x xs c

/-- Decision procedure for `Seg`. -/
def Seg.dec (m : Mem) : (a : Int) → (xs : List Int) → (c : Int) → Decidable (Seg m a xs c)
  | a, [], c => inferInstanceAs (Decidable (rdLE m 8 (a + 8) = c ∧ rdLE m 8 c = a))
  | a, x :: xs, c =>
    have := Seg.dec m x xs c
    inferInstanceAs (Decidable (rdLE m 8 (a + 8) = x ∧ rdLE m 8 x = a ∧ Seg m x xs c))

instance (m : Mem) (a : Int) (xs : List Int) (c : Int) : Decidable (Seg m a xs c) :=
  Seg.dec m a xs c

/-- The circular free list of state `s`, in forward order from the header, is `ns`. -/
def FreeList (s : State) (ns : List Int) : Prop := Seg s.mem s.free_list ns s.free_list

instance (s : State) (ns : List Int) : Decidable (FreeList s ns) := by
  unfold FreeList; infer_instance

/-- Payload addresses of the free blocks of a tiling. -/
def freeAddrs (bl : List Block) : List Int := (bl.filter (fun b => b.free)).map (fun b => b.addr)

/-- Well-formed state: the region lies in the 64-bit address space, `free_list` is the
header at offset 1664, both sentinel tags show allocated, the blocks `bl` tile offsets
16..1648 with matching start and end tags, and the circular free list `ns` holds exactly
the free blocks. -/
def WellFormed (s : State) (bl : List Block) (ns : List Int) : Prop :=
  0 < s.region_base ∧ s.region_base + 1680 ≤ 18446744073709551616 ∧
  s.free_list = s.region_base + 1664 ∧
  rd8 s.mem s.region_base = 1 ∧ rd8 s.mem (s.region_base + 1648) = 1 ∧
  Tiles s.mem (s.region_base + 16) bl (s.region_base + 1648) ∧
  FreeList s ns ∧
  ns.Perm (freeAddrs bl)

instance (s : State) (bl : List Block) (ns : List Int) : Decidable (WellFormed s bl ns) := by
  unfold WellFormed; infer_instance

/-- The request rounded up to a multiple of 16, as the specification words it. -/
def roundUp16 (amount : Int) : Int := (amount + 15) / 16 * 16

/-! ## Concrete runs -/

/-- Memory holding zero everywhere, standing for the content `malloc` hands out. -/
def zero_mem : Mem := fun _ => 0

/-- The region base printed in the expected output of `main` (0x215e420). -/
def base0 : Int := 35120160

/-- The state on which a run continues; a fault leaves a state with no region. -/
def stateOf (r : Option (State × Int)) : State :=
  match r with
  | some x => x.1
  | none => ⟨zero_mem, 0, 0⟩

/-- The value a call returned; -1 stands for a fault. -/
def valueOf (r : Option (State × Int)) : Int :=
  match r with
  | some x => x.2
  | none => -1

/-- The state right after `init_region()`. -/
def state_init : State :=
  match init_region zero_mem base0 with
  | some s => s
  | none => ⟨zero_mem, 0, 0⟩

/-- The size recorded in the start tag of the block whose payload starts at `x`
(`((struct tag_block *) x - 1)->size`). -/
def recSize (s : State) (x : Int) : Int := rdLE s.mem 4 (x - 16 + 12)

/-- A call made by a driver such as `main`: `alloc_mem(amount)`, or `release_mem` of the
value returned by an earlier call (calls are numbered from 0). -/
inductive Call where
  | alloc (amount : Int)
  | release (i : Nat)

/-- Run a sequence of calls from state `s`; `rets` collects the value each call returned. -/
def runCalls (s : State) (rets : List Int) : List Call → Option (State × List Int)
  | [] => some (s, rets)
  | Call.alloc amount :: cs =>
    bindOpt (alloc_mem s amount) fun r => runCalls r.1 (rets ++ [r.2]) cs
  | Call.release i :: cs =>
    bindOpt (release_mem s (rets.getD i 0)) fun r => runCalls r.1 (rets ++ [r.2]) cs

/-- The state after `init_region()` followed by the given calls. -/
def stateAfter (cs : List Call) : State :=
  match runCalls state_init [] cs with
  | some r => r.1
  | none => ⟨zero_mem, 0, 0⟩

/-- The values returned by the given calls made after `init_region()`; a fault gives `[]`. -/
def retsAfter (cs : List Call) : List Int :=
  match runCalls state_init [] cs with
  | some r => r.2
  | none => []

/-- Two allocations of 16 bytes, then the release of the first (case 1). -/
def calls_two : List Call := [Call.alloc 16, Call.alloc 16, Call.release 0]

/-- The calls of `main` up to and including `release_mem(ptr[3])` (the test of case 2):
call 0 is `ptr[0]`, calls 2..8 are `ptr[1]`..`ptr[7]`. -/
def calls_main : List Call :=
  [Call.alloc 1600, Call.release 0,
   Call.alloc 256, Call.alloc 256, Call.alloc 256, Call.alloc 256, Call.alloc 256,
   Call.alloc 160, Call.alloc 160,
   Call.release 2, Call.release 5, Call.release 4]

/-- The state after a single `alloc_mem(16)`: a free remainder below one allocated block. -/
def calls_one : List Call := [Call.alloc 16]

/-- The state after `alloc_mem(1600)`: the whole region is one allocated block. -/
def calls_full : List Call := [Call.alloc 1600]

/-- Two allocations of 16 bytes, each then released once, the first returned first. -/
def calls_release_all : List Call :=
  [Call.alloc 16, Call.alloc 16, Call.release 0, Call.release 1]

/-- Four allocations of 16 bytes, the release of the first, third and second of them, and
one more allocation of 16 bytes. -/
def calls_overlap : List Call :=
  [Call.alloc 16, Call.alloc 16, Call.alloc 16, Call.alloc 16,
   Call.release 0, Call.release 2, Call.release 1, Call.alloc 16]

/-- The end tag that `release_mem(p)` locates through the size recorded in the tag just
before `p` (`end_ptr = tag_ptr + 1 + (tag_ptr->size / 16)`). -/
def endTagOf (s : State) (p : Int) : Int := p - 16 + 16 + 16 * (recSize s p / 16)

/-- An allocation of 16 bytes, its release (case 2), and an allocation of 1600 bytes that
takes the whole region; the tag written at offset 1600 by the first call is still there. -/
def calls_stale : List Call := [Call.alloc 16, Call.release 0, Call.alloc 1600]

/-- Following `fwd_link` from `a` visits the nodes `xs` in order and then reaches `c`. -/
def FwdSeg (m : Mem) : Int → List Int → Int → Prop
  | a, [], c => rdLE m 8 (a + 8) = c
  | a, x :: xs, c => rdLE m 8 (a + 8) = x ∧ FwdSeg m x xs c

/-- Decision procedure for `FwdSeg`. -/
def FwdSeg.dec (m : Mem) : (a : Int) → (xs : List Int) → (c : Int) → Decidable (FwdSeg m a xs c)
  | a, [], c => inferInstanceAs (Decidable (rdLE m 8 (a + 8) = c))
  | a, x :: xs, c =>
    have := FwdSeg.dec m x xs c
    inferInstanceAs (Decidable (rdLE m 8 (a + 8) = x ∧ FwdSeg m x xs c))

instance (m : Mem) (a : Int) (xs : List Int) (c : Int) : Decidable (FwdSeg m a xs c) :=
  FwdSeg.dec m a xs c

/-- The sum of the sizes recorded in the start tags of the nodes `ns`. -/
def sumSizes (s : State) (ns : List Int) : Int := (ns.map (recSize s)).sum

/-- The initial state with the size in the start tag at offset 16 replaced by 2^31. -/
def state_big : State :=
  ⟨wrLE state_init.mem 4 (base0 + 16 + 12) 2147483648, base0, base0 + 1664⟩

/-- The `n` bytes stored from address `a` on. -/
def rdBytes (m : Mem) (a : Int) : Nat → List Int
  | 0 => []
  | n + 1 => rd8 m a :: rdBytes m (a + 1) n

/-- The bytes of "top_", the prefix `TOPSIGCHK` looks for. -/
def sig_top : List Int := [116, 111, 112, 95]

/-- The bytes of "end_", the prefix `ENDSIGCHK` looks for. -/
def sig_end : List Int := [101, 110, 100, 95]

/-- The test `strncmp(a, x, n) != 0` for a string constant `x` of `n` characters: the
bytes at `a` are compared with `x` one by one, up to a difference or a NUL. -/
def strncmp_ne (s : State) : Int → List Int → Option Bool
  | _, [] => some false
  | a, c :: cs =>
    bindOpt (load8 s a) fun d =>
    if d ≠ c then some true else if d = 0 then some false else strncmp_ne s (a + 1) cs

/-- The macro `SIGCHK(w, x, y, z)`: the result is `true` when the check prints
"sigchk fail". -/
def SIGCHK (s : State) (w : Int) (x : List Int) : Option Bool := strncmp_ne s (w + 1) x

/-- The macro `TOPSIGCHK(a, b)`. -/
def TOPSIGCHK (s : State) (a : Int) : Option Bool := SIGCHK s a sig_top

/-- The macro `ENDSIGCHK(a, b)`. -/
def ENDSIGCHK (s : State) (a : Int) : Option Bool := SIGCHK s a sig_end

/-- The two signature checks of `prt_free_block(fb)`: whether the check of the start tag
fails and whether the check of the end tag fails. -/
def prt_free_block (s : State) (fb : Int) : Option (Bool × Bool) :=
  let tb := fb - 16
  bindOpt (get_size s tb) fun sz =>
  bindOpt (TOPSIGCHK s tb) fun t =>
  bindOpt (get_size s tb) fun sz =>
  bindOpt (ENDSIGCHK s (tb + sz + 16)) fun e =>
  some (t, e)

/-- Two allocations of 16 bytes and the release of the second, which merges with the
free block below it (case 2). -/
def calls_lower_merge : List Call := [Call.alloc 16, Call.alloc 16, Call.release 1]

/-- An allocation of 16 bytes, an allocation of the remaining 1552 bytes as a whole block
and the release of the first: the lowest block is allocated and its higher neighbour is
free. -/
def calls_low : List Call := [Call.alloc 16, Call.alloc 1552, Call.release 0]

/-- The states a program can reach: `init_region()` followed by any calls of `alloc_mem`
and `release_mem` that run to completion. -/
inductive Reachable : State → Prop
  | init (m0 : Mem) (base : Int) (s : State) : init_region m0 base = some s → Reachable s
  | alloc (s : State) (amount : Int) (s' : State) (p : Int) :
      Reachable s → alloc_mem s amount = some (s', p) → Reachable s'
  | release (s : State) (ptr : Int) (s' : State) (r : Int) :
      Reachable s → release_mem s ptr = some (s', r) → Reachable s'

/-- The simple allocator of `simple_alloc.c` and `simple_macros.c`.
Load `area[i]`: the array `area` has `BYTE_COUNT` = 256 bytes, addressed by their
index; an index outside the array is a fault. -/
def areaLoad (a : Mem) (i : Int) : Option Int :=
  if 0 ≤ i ∧ i < 256 then some (rd8 a i) else none

/-- Store `area[i] = v`, with `v` converted to `unsigned char`. -/
def areaStore (a : Mem) (i v : Int) : Option Mem :=
  if 0 ≤ i ∧ i < 256 then some (wr8 a i v) else none

/-- The function `simple_init` of `simple_alloc.c`. -/
def SimpleAlloc.simple_init (a : Mem) : Mem :=
  let a := wr8 a 0 0
  let a := wr8 a 1 (256 - 4)
  let a := wr8 a (256 - 2) (256 - 4)
  wr8 a (256 - 1) 0

/-- The branch of `simple_allocate` (`simple_alloc.c`) that allocates the complete free
block at `block_ptr`. -/
def SimpleAlloc.take_whole (a : Mem) (block_ptr : Int) : Option (Mem × Option Int) :=
  bindOpt (areaStore a block_ptr 1) fun a =>
  bindOpt (areaLoad a (block_ptr + 1)) fun sz =>
  bindOpt (areaStore a (block_ptr + (sz + 3)) 1) fun a =>
  some (a, some (block_ptr + 2))

/-- The branch of `simple_allocate` (`simple_alloc.c`) that splits the free block at
`block_ptr`. -/
def SimpleAlloc.take_split (a : Mem) (block_ptr req_size : Int) : Option (Mem × Option Int) :=
  bindOpt (areaLoad a (block_ptr + 1)) fun original_payload_size =>
  bindOpt (areaLoad a (block_ptr + 1)) fun sz =>
  let remaining_payload_size := toU32 (sz - req_size - 4)
  bindOpt (areaStore a block_ptr 1) fun a =>
  bindOpt (areaStore a (block_ptr + 1) req_size) fun a =>
  bindOpt (areaStore a (block_ptr + req_size + 2) req_size) fun a =>
  bindOpt (areaStore a (block_ptr + req_size + 3) 1) fun a =>
  bindOpt (areaStore a (block_ptr + req_size + 4) 0) fun a =>
  bindOpt (areaStore a (block_ptr + req_size + 5) remaining_payload_size) fun a =>
  bindOpt (areaStore a (block_ptr + original_payload_size + 2) remaining_payload_size) fun a =>
  some (a, some (block_ptr + 2))

/-- The loop `while( block_ptr < ( area + BYTE_COUNT ) )` of `simple_allocate`
(`simple_alloc.c`); the result is the new content of `area` and the returned pointer
(`none` for NULL).  Each step moves `block_ptr` forward by at least 4, so from offset 0
the end of the array is passed within 64 steps. -/
def SimpleAlloc.search (req_size : Int) : Nat → Mem → Int → Option (Mem × Option Int)
  | 0, _, _ => none
  | fuel + 1, a, block_ptr =>
    if block_ptr < 256 then
      bindOpt (areaLoad a block_ptr) fun st =>
      if st = 0 then
        bindOpt (areaLoad a (block_ptr + 1)) fun sz =>
        if req_size ≤ sz then
          bindOpt (areaLoad a (block_ptr + 1)) fun sz =>
          if toU32 (sz - req_size) < 6 then SimpleAlloc.take_whole a block_ptr
          else SimpleAlloc.take_split a block_ptr req_size
        else
          bindOpt (areaLoad a (block_ptr + 1)) fun sz =>
          SimpleAlloc.search req_size fuel a (block_ptr + (sz + 4))
      else
        bindOpt (areaLoad a (block_ptr + 1)) fun sz =>
        SimpleAlloc.search req_size fuel a (block_ptr + (sz + 4))
    else some (a, none)

/-- The function `simple_allocate` of `simple_alloc.c`. -/
def SimpleAlloc.simple_allocate (a : Mem) (req_size : Int) : Option (Mem × Option Int) :=
  let req_size := toU32 req_size
  if req_size > 256 - 4 then some (a, none) else SimpleAlloc.search req_size 65 a 0

/-- The function `simple_release` of `simple_alloc.c`. -/
def SimpleAlloc.simple_release (a : Mem) (usr_ptr : Int) : Option Mem :=
  bindOpt (areaStore a (usr_ptr - 2) 0) fun a =>
  bindOpt (areaLoad a (usr_ptr - 1)) fun sz =>
  areaStore a (usr_ptr + sz + 1) 0

/-- The function `simple_init` of `simple_macros.c`. -/
def SimpleMacros.simple_init (a : Mem) : Mem :=
  let a := wr8 a 0 0
  let a := wr8 a 1 (256 - 4)
  let a := wr8 a (256 - 2) (256 - 4)
  wr8 a (256 - 1) 0

/-- The macro `TOP_SIZE` (`*(block_ptr+1)`), also used as `PAYLOAD_SIZE`, read. -/
def SimpleMacros.TOP_SIZE (a : Mem) (block_ptr : Int) : Option Int := areaLoad a (block_ptr + 1)

/-- Assignment to the macro `TOP_STATUS` (`*(block_ptr)`). -/
def SimpleMacros.set_TOP_STATUS (a : Mem) (block_ptr v : Int) : Option Mem :=
  areaStore a block_ptr v

/-- Assignment to the macro `TOP_SIZE`. -/
def SimpleMacros.set_TOP_SIZE (a : Mem) (block_ptr v : Int) : Option Mem :=
  areaStore a (block_ptr + 1) v

/-- Assignment to the macro `BOTTOM_SIZE` (`*(block_ptr+PAYLOAD_SIZE+2)`): the payload
size is read from the top size field at the time of the assignment. -/
def SimpleMacros.set_BOTTOM_SIZE (a : Mem) (block_ptr v : Int) : Option Mem :=
  bindOpt (SimpleMacros.TOP_SIZE a block_ptr) fun ps => areaStore a (block_ptr + ps + 2) v

/-- Assignment to the macro `BOTTOM_STATUS` (`*(block_ptr+PAYLOAD_SIZE+3)`). -/
def SimpleMacros.set_BOTTOM_STATUS (a : Mem) (block_ptr v : Int) : Option Mem :=
  bindOpt (SimpleMacros.TOP_SIZE a block_ptr) fun ps => areaStore a (block_ptr + ps + 3) v

/-- Assignment to the macro `TOP_STATUS_OF_NEXT_BLOCK` (`*(block_ptr+PAYLOAD_SIZE+4)`). -/
def SimpleMacros.set_TOP_STATUS_OF_NEXT_BLOCK (a : Mem) (block_ptr v : Int) : Option Mem :=
  bindOpt (SimpleMacros.TOP_SIZE a block_ptr) fun ps => areaStore a (block_ptr + ps + 4) v

/-- Assignment to the macro `TOP_SIZE_OF_NEXT_BLOCK` (`*(block_ptr+PAYLOAD_SIZE+5)`). -/
def SimpleMacros.set_TOP_SIZE_OF_NEXT_BLOCK (a : Mem) (block_ptr v : Int) : Option Mem :=
  bindOpt (SimpleMacros.TOP_SIZE a block_ptr) fun ps => areaStore a (block_ptr + ps + 5) v

/-- The branch of `simple_allocate` (`simple_macros.c`) that allocates the complete free
block at `block_ptr`. -/
def SimpleMacros.take_whole (a : Mem) (block_ptr : Int) : Option (Mem × Option Int) :=
  bindOpt (SimpleMacros.set_TOP_STATUS a block_ptr 1) fun a =>
  bindOpt (SimpleMacros.set_BOTTOM_STATUS a block_ptr 1) fun a =>
  some (a, some (block_ptr + 2))

/-- The branch of `simple_allocate` (`simple_macros.c`) that splits the free block at
`block_ptr`. -/
def SimpleMacros.take_split (a : Mem) (block_ptr req_size : Int) : Option (Mem × Option Int) :=
  bindOpt (SimpleMacros.TOP_SIZE a block_ptr) fun ps =>
  let remaining_payload_size := toU32 (ps - req_size - 4)
  bindOpt (SimpleMacros.set_BOTTOM_SIZE a block_ptr remaining_payload_size) fun a =>
  bindOpt (SimpleMacros.set_TOP_STATUS a block_ptr 1) fun a =>
  bindOpt (SimpleMacros.set_TOP_SIZE a block_ptr req_size) fun a =>
  bindOpt (SimpleMacros.set_BOTTOM_SIZE a block_ptr req_size) fun a =>
  bindOpt (SimpleMacros.set_BOTTOM_STATUS a block_ptr 1) fun a =>
  bindOpt (SimpleMacros.set_TOP_STATUS_OF_NEXT_BLOCK a block_ptr 0) fun a =>
  bindOpt (SimpleMacros.set_TOP_SIZE_OF_NEXT_BLOCK a block_ptr remaining_payload_size) fun a =>
  some (a, some (block_ptr + 2))

/-- The loop of `simple_allocate` (`simple_macros.c`), with the same bound on its steps
as in `simple_alloc.c`. -/
def SimpleMacros.search (req_size : Int) : Nat → Mem → Int → Option (Mem × Option Int)
  | 0, _, _ => none
  | fuel + 1, a, block_ptr =>
    if block_ptr < 256 then
      bindOpt (areaLoad a block_ptr) fun st =>
      if st = 0 then
        bindOpt (SimpleMacros.TOP_SIZE a block_ptr) fun ps =>
        if req_size ≤ ps then
          bindOpt (SimpleMacros.TOP_SIZE a block_ptr) fun ps =>
          if toU32 (ps - req_size) < 6 then SimpleMacros.take_whole a block_ptr
          else SimpleMacros.take_split a block_ptr req_size
        else
          bindOpt (SimpleMacros.TOP_SIZE a block_ptr) fun ts =>
          SimpleMacros.search req_size fuel a (block_ptr + (ts + 4))
      else
        bindOpt (SimpleMacros.TOP_SIZE a block_ptr) fun ts =>
        SimpleMacros.search req_size fuel a (block_ptr + (ts + 4))
    else some (a, none)

/-- The function `simple_allocate` of `simple_macros.c`. -/
def SimpleMacros.simple_allocate (a : Mem) (req_size : Int) : Option (Mem × Option Int) :=
  let req_size := toU32 req_size
  if req_size > 256 - 4 then some (a, none) else SimpleMacros.search req_size 65 a 0

/-- The function `simple_release` of `simple_macros.c`. -/
def SimpleMacros.simple_release (a : Mem) (user_ptr : Int) : Option Mem :=
  let block_ptr := user_ptr - 2
  bindOpt (SimpleMacros.set_TOP_STATUS a block_ptr 0) fun a =>
  SimpleMacros.set_BOTTOM_STATUS a block_ptr 0

/-- A block of the simple allocator: offset of its top status byte, payload size and
status byte. -/
structure SBlock where
  off : Int
  size : Int
  status : Int
deriving DecidableEq

/-- The blocks `bl`, in address order, tile the bytes of `area` from offset `lo` up to
`hi`: each block has its status and size at the top (`lo`, `lo + 1`), the same size and
status at the bottom (`lo + size + 2`, `lo + size + 3`), and the next block starts at
`lo + size + 4`. -/
def STiles (a : Mem) : Int → List SBlock → Int → Prop
  | lo, [], hi => lo = hi
  | lo, B :: bs, hi =>
    B.off = lo ∧ rd8 a lo = B.status ∧ rd8 a (lo + 1) = B.size ∧
    rd8 a (lo + B.size + 2) = B.size ∧ rd8 a (lo + B.size + 3) = B.status ∧
    STiles a (lo + B.size + 4) bs hi

/-- Decision procedure for `STiles`. -/
def STiles.dec (a : Mem) : (lo : Int) → (bl : List SBlock) → (hi : Int) →
    Decidable (STiles a lo bl hi)
  | lo, [], hi => inferInstanceAs (Decidable (lo = hi))
  | lo, B :: bs, hi =>
    have := STiles.dec a (lo + B.size + 4) bs hi
    inferInstanceAs (Decidable (B.off = lo ∧ rd8 a lo = B.status ∧ rd8 a (lo + 1) = B.size ∧
      rd8 a (lo + B.size + 2) = B.size ∧ rd8 a (lo + B.size + 3) = B.status ∧
      STiles a (lo + B.size + 4) bs hi))

instance (a : Mem) (lo : Int) (bl : List SBlock) (hi : Int) : Decidable (STiles a lo bl hi) :=
  STiles.dec a lo bl hi

/-- The block `B` does not satisfy a request of `req` bytes: it is not free or too small. -/
def SBlock.unfit (req : Int) (B : SBlock) : Prop := ¬ (B.status = 0 ∧ req ≤ B.size)

instance (req : Int) (B : SBlock) : Decidable (B.unfit req) := by
  unfold SBlock.unfit; infer_instance

/-- The contents of `area` a program of `simple_alloc.c` can reach, with the addresses
`simple_allocate` has returned so far: `simple_init()`, then calls of `simple_allocate`
and calls of `simple_release` on addresses returned before. -/
inductive SReach : Mem → List Int → Prop
  | init (a : Mem) : SReach (SimpleAlloc.simple_init a) []
  | alloc (a : Mem) (ps : List Int) (req_size : Int) (a' : Mem) (p : Int) :
      SReach a ps → SimpleAlloc.simple_allocate a req_size = some (a', some p) →
      SReach a' (p :: ps)
  | alloc_null (a : Mem) (ps : List Int) (req_size : Int) (a' : Mem) :
      SReach a ps → SimpleAlloc.simple_allocate a req_size = some (a', none) → SReach a' ps
  | release (a : Mem) (ps : List Int) (p : Int) (a' : Mem) :
      SReach a ps → p ∈ ps → SimpleAlloc.simple_release a p = some a' → SReach a' ps

/-! ## Memory lemmas -/

theorem wr8_apply (m : Mem) (a v i : Int) :
    wr8 m a v i = if i = a then v % 256 else m i := rfl

theorem wrLE_apply_out (m : Mem) (n : Nat) (a v i : Int) (h : i < a ∨ a + n ≤ i) :
    wrLE m n a v i = m i := by
  induction n generalizing m a v with
  | zero => rfl
  | succ n ih =>
    simp only [wrLE]
    rw [ih]
    · rw [wr8_apply, if_neg]
      push_cast at h
      omega
    · push_cast at h
      omega

theorem rd8_congr {m m' : Mem} {a : Int} (h : m' a = m a) : rd8 m' a = rd8 m a := by
  simp only [rd8, h]

theorem rdLE_congr {m m' : Mem} (n : Nat) (a : Int)
    (h : ∀ i, a ≤ i → i < a + n → m' i = m i) : rdLE m' n a = rdLE m n a := by
  induction n generalizing a with
  | zero => rfl
  | succ n ih =>
    simp only [rdLE]
    rw [ih (a + 1), rd8_congr (h a (le_refl _) (by push_cast; omega))]
    intro i h1 h2
    exact h i (by omega) (by push_cast; omega)

theorem rd8_nonneg (m : Mem) (a : Int) : 0 ≤ rd8 m a := by
  unfold rd8; omega

theorem rd8_lt (m : Mem) (a : Int) : rd8 m a < 256 := by
  unfold rd8; omega

theorem rd8_wr8_same (m : Mem) (a v : Int) : rd8 (wr8 m a v) a = v % 256 := by
  simp [rd8, wr8]

theorem rd8_wr8_ne (m : Mem) (a v b : Int) (h : b ≠ a) : rd8 (wr8 m a v) b = rd8 m b := by
  simp [rd8, wr8, h]

theorem rd8_wrLE (m : Mem) (n : Nat) (a v b : Int) (h : b < a ∨ a + n ≤ b) :
    rd8 (wrLE m n a v) b = rd8 m b :=
  rd8_congr (wrLE_apply_out m n a v b h)

theorem rdLE_wr8 (m : Mem) (n : Nat) (a v b : Int) (h : a < b ∨ b + n ≤ a) :
    rdLE (wr8 m a v) n b = rdLE m n b := by
  apply rdLE_congr
  intro i h1 h2
  rw [wr8_apply, if_neg]
  omega

theorem rdLE_wrLE (m : Mem) (n k : Nat) (a v b : Int) (h : b + k ≤ a ∨ a + n ≤ b) :
    rdLE (wrLE m n a v) k b = rdLE m k b := by
  apply rdLE_congr
  intro i h1 h2
  apply wrLE_apply_out
  omega

theorem rdLE4_wrLE4_same (m : Mem) (a v : Int) :
    rdLE (wrLE m 4 a v) 4 a = v % 4294967296 := by
  have e : ∀ (m : Mem) (x y b : Int), b ≠ x → wr8 m x y b = m b := by
    intro m x y b h; rw [wr8_apply, if_neg h]
  have e2 : ∀ (m : Mem) (x y : Int), wr8 m x y x = y % 256 := by
    intro m x y; rw [wr8_apply, if_pos rfl]
  simp only [rdLE, wrLE, rd8]
  rw [e _ _ _ a (by omega), e _ _ _ a (by omega), e _ _ _ a (by omega), e2,
    e _ _ _ (a + 1) (by omega), e _ _ _ (a + 1) (by omega), e2,
    e _ _ _ (a + 1 + 1) (by omega), e2, e2]
  omega

theorem rdLE8_wrLE8_same (m : Mem) (a v : Int) :
    rdLE (wrLE m 8 a v) 8 a = v % 18446744073709551616 := by
  have e : ∀ (m : Mem) (x y b : Int), b ≠ x → wr8 m x y b = m b := by
    intro m x y b h; rw [wr8_apply, if_neg h]
  have e2 : ∀ (m : Mem) (x y : Int), wr8 m x y x = y % 256 := by
    intro m x y; rw [wr8_apply, if_pos rfl]
  simp only [rdLE, wrLE, rd8]
  repeat (first | rw [e2] | rw [e _ _ _ _ (by omega)])
  omega


/-! ## Loads and stores on an explicit state -/

theorem bindOpt_some {α β : Type} (x : α) (k : α → Option β) : bindOpt (some x) k = k x := rfl

theorem get_tag_mk {m : Mem} {b f a : Int} (h : b ≤ a ∧ a + 1 ≤ b + 1680) :
    get_tag ⟨m, b, f⟩ a = some (rd8 m a) := by
  simp only [get_tag, load8, State.inRegion, h, and_self, if_true]

theorem set_tag_mk {m : Mem} {b f a : Int} (v : Int) (h : b ≤ a ∧ a + 1 ≤ b + 1680) :
    set_tag ⟨m, b, f⟩ a v = some ⟨wr8 m a v, b, f⟩ := by
  simp only [set_tag, store8, State.inRegion, h, and_self, if_true]

theorem get_size_mk {m : Mem} {b f a : Int} (h : b ≤ a + 12 ∧ a + 12 + 4 ≤ b + 1680) :
    get_size ⟨m, b, f⟩ a = some (rdLE m 4 (a + 12)) := by
  simp only [get_size, load32, State.inRegion, h, and_self, if_true]

theorem set_size_mk {m : Mem} {b f a : Int} (v : Int) (h : b ≤ a + 12 ∧ a + 12 + 4 ≤ b + 1680) :
    set_size ⟨m, b, f⟩ a v = some ⟨wrLE m 4 (a + 12) v, b, f⟩ := by
  simp only [set_size, store32, State.inRegion, h, and_self, if_true]

theorem get_back_mk {m : Mem} {b f a : Int} (h : b ≤ a ∧ a + 8 ≤ b + 1680) :
    get_back ⟨m, b, f⟩ a = some (rdLE m 8 a) := by
  simp only [get_back, loadPtr, State.inRegion, h, and_self, if_true]

theorem set_back_mk {m : Mem} {b f a : Int} (v : Int) (h : b ≤ a ∧ a + 8 ≤ b + 1680) :
    set_back ⟨m, b, f⟩ a v = some ⟨wrLE m 8 a v, b, f⟩ := by
  simp only [set_back, storePtr, State.inRegion, h, and_self, if_true]

theorem get_fwd_mk {m : Mem} {b f a : Int} (h : b ≤ a + 8 ∧ a + 8 + 8 ≤ b + 1680) :
    get_fwd ⟨m, b, f⟩ a = some (rdLE m 8 (a + 8)) := by
  simp only [get_fwd, loadPtr, State.inRegion, h, and_self, if_true]

theorem set_fwd_mk {m : Mem} {b f a : Int} (v : Int) (h : b ≤ a + 8 ∧ a + 8 + 8 ≤ b + 1680) :
    set_fwd ⟨m, b, f⟩ a v = some ⟨wrLE m 8 (a + 8) v, b, f⟩ := by
  simp only [set_fwd, storePtr, State.inRegion, h, and_self, if_true]

theorem release_case2_core (m : Mem) (b f p s L t : Int)
    (hL : b + 32 ≤ L) (hp : p = L + t + 32) (hend : p + s + 32 ≤ b + 1664)
    (ht : 16 ≤ t) (ht16 : t % 16 = 0) (hs : 16 ≤ s)
    (h2 : rdLE m 4 (p - 16 + 12) = s)
    (h7 : rdLE m 4 (p - 16 - 16 + 12) = t)
    (h8 : rdLE m 4 (L - 16 + 12) = t) :
    release_case2 ⟨m, b, f⟩ (p - 16) (p + s) =
      some ⟨wrLE (wrLE (wr8 (wr8 m (L - 16) 0) (p + s) 0) 4 (L - 16 + 12) (t + s + 32))
        4 (p + s + 12) (t + s + 32), b, f⟩ := by
  have e1 : p - 16 - 16 - 16 * (t / 16) - 16 = L - 16 := by omega
  unfold release_case2
  simp only []
  rw [get_size_mk (by omega), bindOpt_some, h7, e1]
  rw [set_tag_mk _ (by omega), bindOpt_some, set_tag_mk _ (by omega), bindOpt_some]
  rw [get_size_mk (by omega), bindOpt_some, get_size_mk (by omega), bindOpt_some]
  rw [rdLE_wr8 _ _ _ _ _ (by omega), rdLE_wr8 _ _ _ _ _ (by omega), h8]
  rw [rdLE_wr8 _ _ _ _ _ (by omega), rdLE_wr8 _ _ _ _ _ (by omega), h2]
  rw [set_size_mk _ (by omega), bindOpt_some, get_size_mk (by omega), bindOpt_some]
  rw [rdLE4_wrLE4_same, set_size_mk _ (by omega)]
  have e2 : toU32 (t + (s + 32)) = t + s + 32 := by unfold toU32; omega
  have e3 : (t + s + 32) % 4294967296 = t + s + 32 := by omega
  rw [e2, e3]


/-! ## Consequences of a tiling -/

theorem Tiles.le {m : Mem} {lo hi : Int} {bl : List Block} (h : Tiles m lo bl hi) :
    lo + 48 * bl.length ≤ hi := by
  induction bl generalizing lo with
  | nil => simp only [Tiles] at h; simp [h]
  | cons b bs ih =>
    obtain ⟨h1, h2, -, -, -, h6⟩ := h
    have := ih h6
    simp only [List.length_cons]
    push_cast
    omega

theorem Tiles.mem {m : Mem} {lo hi : Int} {bl : List Block} (h : Tiles m lo bl hi)
    {b : Block} (hb : b ∈ bl) :
    lo + 16 ≤ b.addr ∧ b.addr + b.size + 16 ≤ hi ∧ 16 ≤ b.size ∧ b.size % 16 = 0 ∧
    TagIs m (b.addr - 16) b.free b.size ∧ TagIs m (b.addr + b.size) b.free b.size := by
  induction bl generalizing lo with
  | nil => cases hb
  | cons c cs ih =>
    obtain ⟨h1, h2, h3, h4, h5, h6⟩ := h
    rcases List.mem_cons.1 hb with rfl | hb
    · have := h6.le
      have e : b.addr - 16 = lo := by omega
      refine ⟨by omega, by omega, h2, h3, ?_, h5⟩
      rw [e]; exact h4
    · have := ih h6 hb
      refine ⟨by omega, this.2⟩

theorem Tiles.sorted {m : Mem} {lo hi : Int} {bl : List Block} (h : Tiles m lo bl hi) :
    bl.Pairwise (fun x y => x.addr + x.size + 32 ≤ y.addr) := by
  induction bl generalizing lo with
  | nil => exact List.Pairwise.nil
  | cons c cs ih =>
    obtain ⟨h1, h2, h3, h4, h5, h6⟩ := h
    refine List.pairwise_cons.2 ⟨?_, ih h6⟩
    intro d hd
    have := h6.mem hd
    omega

/-- Two blocks of a tiling are equal or their extents (tags included) are disjoint. -/
theorem Tiles.apart {m : Mem} {lo hi : Int} {bl : List Block} (h : Tiles m lo bl hi)
    {x y : Block} (hx : x ∈ bl) (hy : y ∈ bl) :
    x = y ∨ x.addr + x.size + 32 ≤ y.addr ∨ y.addr + y.size + 32 ≤ x.addr := by
  by_cases e : x = y
  · exact Or.inl e
  · right
    have hs : bl.Pairwise (fun x y : Block =>
        x.addr + x.size + 32 ≤ y.addr ∨ y.addr + y.size + 32 ≤ x.addr) :=
      h.sorted.imp (fun h => Or.inl h)
    exact List.Pairwise.forall (fun a b hab => hab.symm) hs hx hy e

theorem mem_freeAddrs {bl : List Block} {x : Int} :
    x ∈ freeAddrs bl ↔ ∃ b ∈ bl, b.free = true ∧ b.addr = x := by
  simp only [freeAddrs, List.mem_map, List.mem_filter]
  constructor
  · rintro ⟨b, ⟨h1, h2⟩, h3⟩; exact ⟨b, h1, h2, h3⟩
  · rintro ⟨b, h1, h2, h3⟩; exact ⟨b, ⟨h1, h2⟩, h3⟩

theorem Tiles.sorted_addr {m : Mem} {lo hi : Int} {bl : List Block} (h : Tiles m lo bl hi) :
    bl.Pairwise (fun x y => x.addr + 48 ≤ y.addr) := by
  induction bl generalizing lo with
  | nil => exact List.Pairwise.nil
  | cons c cs ih =>
    obtain ⟨h1, h2, h3, h4, h5, h6⟩ := h
    refine List.pairwise_cons.2 ⟨?_, ih h6⟩
    intro d hd
    have := h6.mem hd
    omega

theorem freeAddrs_nodup {m : Mem} {lo hi : Int} {bl : List Block} (h : Tiles m lo bl hi) :
    (freeAddrs bl).Nodup := by
  unfold freeAddrs
  rw [List.Nodup, List.pairwise_map]
  refine (h.sorted_addr.filter _).imp ?_
  intro a b hab
  omega

/-- Facts about the free-list nodes of a well-formed state. -/
theorem WellFormed.node {s : State} {bl : List Block} {ns : List Int}
    (h : WellFormed s bl ns) {x : Int} (hx : x ∈ ns) :
    ∃ b ∈ bl, b.free = true ∧ b.addr = x :=
  mem_freeAddrs.1 ((h.2.2.2.2.2.2.2).mem_iff.1 hx)

theorem WellFormed.nodup {s : State} {bl : List Block} {ns : List Int}
    (h : WellFormed s bl ns) : ns.Nodup :=
  (h.2.2.2.2.2.2.2).nodup_iff.2 (freeAddrs_nodup h.2.2.2.2.2.1)

theorem WellFormed.length_le {s : State} {bl : List Block} {ns : List Int}
    (h : WellFormed s bl ns) : ns.length ≤ 34 := by
  have h1 := (h.2.2.2.2.2.2.2).length_eq
  have h2 : (freeAddrs bl).length ≤ bl.length := by
    unfold freeAddrs
    rw [List.length_map]
    exact List.length_filter_le _ _
  have h3 := h.2.2.2.2.2.1.le
  omega

/-- Distinct free-list nodes lie at least 48 bytes apart. -/
theorem WellFormed.node_apart {s : State} {bl : List Block} {ns : List Int}
    (h : WellFormed s bl ns) {x y : Int} (hx : x ∈ ns) (hy : y ∈ ns) :
    x = y ∨ x + 48 ≤ y ∨ y + 48 ≤ x := by
  obtain ⟨bx, hbx, -, rfl⟩ := h.node hx
  obtain ⟨b', hby, -, rfl⟩ := h.node hy
  have ht := h.2.2.2.2.2.1
  have h1 := ht.mem hbx
  have h2 := ht.mem hby
  rcases ht.apart hbx hby with e | e | e
  · left; rw [e]
  · right; left; omega
  · right; right; omega

/-! ## Doubly linked segments -/

theorem Seg.append {m : Mem} {a y c : Int} {xs ys : List Int} :
    Seg m a (xs ++ y :: ys) c ↔ Seg m a xs y ∧ Seg m y ys c := by
  induction xs generalizing a with
  | nil => simp only [List.nil_append, Seg, and_assoc]
  | cons x xs ih =>
    rw [List.cons_append]
    constructor
    · rintro ⟨h1, h2, h3⟩
      exact ⟨⟨h1, h2, (ih.1 h3).1⟩, (ih.1 h3).2⟩
    · rintro ⟨⟨h1, h2, h3⟩, h4⟩
      exact ⟨h1, h2, ih.2 ⟨h3, h4⟩⟩

/-- A segment only depends on the link fields of its nodes. -/
theorem Seg.congr {m m' : Mem} {a c : Int} {xs : List Int} (h : Seg m a xs c)
    (hF : ∀ u ∈ a :: xs, rdLE m' 8 (u + 8) = rdLE m 8 (u + 8))
    (hB : ∀ v ∈ xs ++ [c], rdLE m' 8 v = rdLE m 8 v) : Seg m' a xs c := by
  induction xs generalizing a with
  | nil =>
    obtain ⟨h1, h2⟩ := h
    exact ⟨by rw [hF a (by simp), h1], by rw [hB c (by simp), h2]⟩
  | cons x xs ih =>
    obtain ⟨h1, h2, h3⟩ := h
    refine ⟨by rw [hF a (by simp), h1], by rw [hB x (by simp), h2], ih h3 ?_ ?_⟩
    · intro u hu; exact hF u (List.mem_cons_of_mem _ hu)
    · intro v hv; exact hB v (by simp only [List.cons_append]; exact List.mem_cons_of_mem _ hv)

/-- The forward link of the first node of a segment points into the segment. -/
theorem Seg.fwd_mem {m : Mem} {a c : Int} {xs : List Int} (h : Seg m a xs c) :
    rdLE m 8 (a + 8) ∈ xs ++ [c] := by
  cases xs with
  | nil => simp [h.1]
  | cons x xs => simp [h.1]

/-- The backward link of the end of a segment points into the segment. -/
theorem Seg.back_mem {m : Mem} {a c : Int} {xs : List Int} (h : Seg m a xs c) :
    rdLE m 8 c ∈ a :: xs := by
  induction xs generalizing a with
  | nil => simp [h.2]
  | cons x xs ih => exact List.mem_cons_of_mem _ (ih h.2.2)

/-- Unlinking the node `n` between the segments `xs` and `ys`. -/
theorem Seg.unlink {m m' : Mem} {a n c : Int} {xs ys : List Int}
    (h1 : Seg m a xs n) (h2 : Seg m n ys c)
    (hnd : (a :: xs ++ n :: ys).Nodup) (hc : c ∉ xs ++ n :: ys)
    (hF : ∀ u ∈ a :: xs ++ ys, u ≠ rdLE m 8 n → rdLE m' 8 (u + 8) = rdLE m 8 (u + 8))
    (hB : ∀ v ∈ xs ++ ys ++ [c], v ≠ rdLE m 8 (n + 8) → rdLE m' 8 v = rdLE m 8 v)
    (hP : rdLE m' 8 (rdLE m 8 n + 8) = rdLE m 8 (n + 8))
    (hN : rdLE m' 8 (rdLE m 8 (n + 8)) = rdLE m 8 n) :
    Seg m' a (xs ++ ys) c := by
  induction xs generalizing a with
  | nil =>
    obtain ⟨h1a, h1b⟩ := h1
    simp only [List.nil_append] at hnd hc hF hB ⊢
    rw [h1b] at hP hN hF
    have hnd' := List.nodup_cons.1 hnd
    have hnd'' := List.nodup_cons.1 hnd'.2
    cases ys with
    | nil =>
      obtain ⟨h2a, h2b⟩ := h2
      rw [h2a] at hP hN
      exact ⟨hP, hN⟩
    | cons y ys =>
      obtain ⟨h2a, h2b, h2c⟩ := h2
      rw [h2a] at hP hN hB
      refine ⟨hP, hN, h2c.congr ?_ ?_⟩
      · intro u hu
        refine hF u (List.mem_cons_of_mem _ hu) ?_
        rintro rfl
        exact hnd'.1 (List.mem_cons_of_mem _ hu)
      · intro v hv
        refine hB v (by simp only [List.cons_append]; exact List.mem_cons_of_mem _ hv) ?_
        rintro rfl
        rcases List.mem_append.1 hv with hv | hv
        · exact (List.nodup_cons.1 hnd''.2).1 hv
        · simp only [List.mem_singleton] at hv
          exact hc (by rw [← hv]; simp)
  | cons x xs ih =>
    obtain ⟨h1a, h1b, h1c⟩ := h1
    have hnd' := List.nodup_cons.1 hnd
    have hprev : rdLE m 8 n ∈ x :: xs := h1c.back_mem
    have hnxt : rdLE m 8 (n + 8) ∈ ys ++ [c] := h2.fwd_mem
    refine ⟨?_, ?_, ih h1c hnd'.2 ?_ ?_ ?_⟩
    · rw [hF a (by simp), h1a]
      rintro rfl
      exact hnd'.1 (List.mem_append_left _ hprev)
    · rw [hB x (by simp), h1b]
      rintro rfl
      rcases List.mem_append.1 hnxt with hv | hv
      · have := List.nodup_cons.1 hnd'.2
        exact this.1 (List.mem_append_right _ (List.mem_cons_of_mem _ hv))
      · simp only [List.mem_singleton] at hv
        exact hc (by rw [← hv]; simp)
    · intro hcm
      exact hc (by simp only [List.cons_append]; exact List.mem_cons_of_mem _ hcm)
    · intro u hu
      exact hF u (by simp only [List.cons_append] at hu ⊢; exact List.mem_cons_of_mem _ hu)
    · intro v hv
      exact hB v (by simp only [List.cons_append] at hv ⊢; exact List.mem_cons_of_mem _ hv)

/-- Inserting the node `p` right after the start of a circular segment. -/
theorem Seg.insert_head {m m' : Mem} {a p : Int} {ns : List Int}
    (h : Seg m a ns a) (hnd : ns.Nodup) (ha : a ∉ ns)
    (h1 : rdLE m' 8 (a + 8) = p) (h2 : rdLE m' 8 p = a)
    (h3 : rdLE m' 8 (p + 8) = rdLE m 8 (a + 8))
    (h4 : rdLE m' 8 (rdLE m 8 (a + 8)) = p)
    (hF : ∀ u ∈ ns, rdLE m' 8 (u + 8) = rdLE m 8 (u + 8))
    (hB : ∀ v ∈ ns ++ [a], v ≠ rdLE m 8 (a + 8) → rdLE m' 8 v = rdLE m 8 v) :
    Seg m' a (p :: ns) a := by
  refine ⟨h1, h2, ?_⟩
  cases ns with
  | nil =>
    obtain ⟨ha1, ha2⟩ := h
    rw [ha1] at h3 h4
    exact ⟨h3, h4⟩
  | cons x xs =>
    obtain ⟨ha1, ha2, ha3⟩ := h
    rw [ha1] at h3 h4 hB
    refine ⟨h3, h4, ha3.congr hF ?_⟩
    intro v hv
    refine hB v (by simp only [List.cons_append]; exact List.mem_cons_of_mem _ hv) ?_
    rintro rfl
    rcases List.mem_append.1 hv with hv | hv
    · exact (List.nodup_cons.1 hnd).1 hv
    · simp only [List.mem_singleton] at hv
      exact ha (by rw [← hv]; simp)

/-! ## Arithmetic of the request size -/

theorem roundUp16_spec (amount : Int) :
    roundUp16 amount % 16 = 0 ∧ amount ≤ roundUp16 amount ∧ roundUp16 amount < amount + 16 := by
  unfold roundUp16; omega

theorem req_amt_eq (amount : Int) (h0 : 0 ≤ amount) (h1 : amount ≤ 2147483632) :
    req_amt amount = roundUp16 amount := by
  unfold req_amt roundUp16 toI32 toU32
  split <;> omega

theorem toU32_eq (x : Int) (h0 : 0 ≤ x) (h1 : x < 4294967296) : toU32 x = x := by
  unfold toU32; omega

theorem toI32_eq (x : Int) (h0 : -2147483648 ≤ x) (h1 : x < 2147483648) : toI32 x = x := by
  unfold toI32; omega

theorem rdLE4_nonneg (m : Mem) (a : Int) : 0 ≤ rdLE m 4 a := by
  simp only [rdLE, rd8]; omega

theorem rdLE4_lt (m : Mem) (a : Int) : rdLE m 4 a < 4294967296 := by
  simp only [rdLE, rd8]; omega

theorem rdLE8_nonneg (m : Mem) (a : Int) : 0 ≤ rdLE m 8 a := by
  simp only [rdLE, rd8]; omega

theorem rdLE8_lt (m : Mem) (a : Int) : rdLE m 8 a < 18446744073709551616 := by
  simp only [rdLE, rd8]; omega

/-- The third byte of a size below 65536 is zero. -/
theorem rdLE4_third_byte (m : Mem) (a : Int) (h : rdLE m 4 a < 65536) : rd8 m (a + 2) = 0 := by
  have e : a + 1 + 1 = a + 2 := by omega
  simp only [rdLE, e] at h
  have h0 := rd8_nonneg m a
  have h1 := rd8_nonneg m (a + 1)
  have h2 := rd8_nonneg m (a + 2)
  have h3 := rd8_nonneg m (a + 2 + 1)
  omega

/-- Reads outside a modified range are unchanged. -/
theorem rd8_of_agree {m m' : Mem} {lo hi a : Int}
    (h : ∀ i, i < lo ∨ hi ≤ i → m' i = m i) (ha : a < lo ∨ hi ≤ a) : rd8 m' a = rd8 m a :=
  rd8_congr (h a ha)

theorem rdLE_of_agree {m m' : Mem} {lo hi : Int} (n : Nat) {a : Int}
    (h : ∀ i, i < lo ∨ hi ≤ i → m' i = m i) (ha : a + n ≤ lo ∨ hi ≤ a) :
    rdLE m' n a = rdLE m n a := by
  apply rdLE_congr
  intro i h1 h2
  exact h i (by omega)

/-! ## `strcpy` -/

theorem strcpy_spec (n : Nat) : ∀ (fuel : Nat) (m : Mem) (b f dst src : Int),
    n < fuel → (∀ i : Nat, i < n → rd8 m (src + i) ≠ 0) → rd8 m (src + n) = 0 →
    b ≤ src → src + n + 1 ≤ b + 1680 → b ≤ dst → dst + n + 1 ≤ b + 1680 →
    (dst + n + 1 ≤ src ∨ src + n + 1 ≤ dst) →
    ∃ m', strcpy ⟨m, b, f⟩ fuel dst src = some ⟨m', b, f⟩ ∧
      ∀ i, i < dst ∨ dst + n + 1 ≤ i → m' i = m i := by
  induction n with
  | zero =>
    intro fuel m b f dst src hfuel _ hz h1 h2 h3 h4 _
    obtain ⟨k, rfl⟩ : ∃ k, fuel = k + 1 := ⟨fuel - 1, by omega⟩
    simp only [Nat.cast_zero, add_zero] at hz h2 h4
    refine ⟨wr8 m dst (rd8 m src), ?_, ?_⟩
    · simp only [strcpy, load8, store8, State.inRegion]
      rw [if_pos (by omega), bindOpt_some, if_pos (by omega), bindOpt_some, if_pos hz]
    · intro i hi
      rw [wr8_apply, if_neg (by omega)]
  | succ n ih =>
    intro fuel m b f dst src hfuel hnz hz h1 h2 h3 h4 hd
    obtain ⟨k, rfl⟩ : ∃ k, fuel = k + 1 := ⟨fuel - 1, by omega⟩
    push_cast at hz h2 h4 hd
    have hc : rd8 m src ≠ 0 := by
      have := hnz 0 (by omega)
      simpa using this
    obtain ⟨m', hm', hfr⟩ := ih k (wr8 m dst (rd8 m src)) b f (dst + 1) (src + 1) (by omega)
      (by
        intro i hi
        rw [rd8_wr8_ne _ _ _ _ (by omega)]
        have := hnz (i + 1) (by omega)
        push_cast at this
        rwa [show src + 1 + (i : Int) = src + (i + 1) by omega])
      (by
        rw [rd8_wr8_ne _ _ _ _ (by omega)]
        rwa [show src + 1 + (n : Int) = src + (n + 1) by omega])
      (by omega) (by omega) (by omega) (by omega) (by omega)
    refine ⟨m', ?_, ?_⟩
    · simp only [strcpy, load8, store8, State.inRegion]
      rw [if_pos (by omega), bindOpt_some, if_pos (by omega), bindOpt_some, if_neg hc]
      exact hm'
    · intro i hi
      rw [hfr i (by push_cast at hi; omega), wr8_apply, if_neg (by push_cast at hi; omega)]

/-- Copying the signature of the tag block at `src` into the tag block at `dst`, when the
size recorded at `src` is below 65536: only bytes 1..14 of the destination change. -/
theorem strcpy_sig (m : Mem) (b f dst src : Int)
    (hz : rdLE m 4 (src + 12) < 65536)
    (h1 : b ≤ src) (h2 : src + 16 ≤ b + 1680) (h3 : b ≤ dst) (h4 : dst + 16 ≤ b + 1680)
    (hd : dst + 16 ≤ src ∨ src + 16 ≤ dst) :
    ∃ m', strcpy ⟨m, b, f⟩ 1681 (dst + 1) (src + 1) = some ⟨m', b, f⟩ ∧
      ∀ i, i < dst + 1 ∨ dst + 15 ≤ i → m' i = m i := by
  have hz' : rd8 m (src + 1 + (13 : Nat)) = 0 := by
    have := rdLE4_third_byte m (src + 12) hz
    rwa [show src + 1 + ((13 : Nat) : Int) = src + 12 + 2 by push_cast; omega]
  have hex : ∃ k : Nat, rd8 m (src + 1 + k) = 0 := ⟨13, hz'⟩
  have hle : Nat.find hex ≤ 13 := Nat.find_min' hex hz'
  have hle' : ((Nat.find hex : Nat) : Int) ≤ 13 := by exact_mod_cast hle
  obtain ⟨m', hm', hfr⟩ := strcpy_spec (Nat.find hex) 1681 m b f (dst + 1) (src + 1)
    (by omega) (fun i hi => Nat.find_min hex hi) (Nat.find_spec hex)
    (by omega) (by omega) (by omega) (by omega) (by omega)
  exact ⟨m', hm', fun i hi => hfr i (by omega)⟩

/-! ## The search loop of `alloc_mem` -/

/-- The search walks over the nodes that are too small. -/
theorem alloc_search_skip (m : Mem) (b f req n : Int) (pre : List Int) :
    ∀ (a : Int), Seg m a pre n →
    (∀ x ∈ pre, x ≠ 0 ∧ x ≠ f ∧ b + 16 ≤ x ∧ x + 16 ≤ b + 1680 ∧
      rdLE m 4 (x - 16 + 12) < toU32 req) →
    ∀ k, alloc_search ⟨m, b, f⟩ req (pre.length + k) (rdLE m 8 (a + 8)) 0 =
      alloc_search ⟨m, b, f⟩ req k n 0 := by
  induction pre with
  | nil =>
    intro a h _ k
    simp only [List.length_nil, Nat.zero_add, h.1]
  | cons x xs ih =>
    intro a h hx k
    obtain ⟨h1, h2, h3⟩ := h
    obtain ⟨hx0, hxf, hxl, hxh, hxs⟩ := hx x (by simp)
    rw [h1, show (x :: xs).length + k = (xs.length + k) + 1 by simp only [List.length_cons]; omega]
    rw [alloc_search, if_pos ⟨hx0, hxf, rfl⟩, get_size_mk (by omega), bindOpt_some,
      if_neg (by omega), get_fwd_mk (by omega), bindOpt_some]
    exact ih x h3 (fun y hy => hx y (List.mem_cons_of_mem _ hy)) k

/-- The search stops at the first node that is large enough. -/
theorem alloc_search_found (m : Mem) (b f req n : Int) (k : Nat)
    (h0 : n ≠ 0) (hf : n ≠ f) (hl : b + 16 ≤ n) (hh : n + 16 ≤ b + 1680)
    (hs : toU32 req ≤ rdLE m 4 (n - 16 + 12)) :
    alloc_search ⟨m, b, f⟩ req (k + 2) n 0 = some (n, n) := by
  rw [alloc_search, if_pos ⟨h0, hf, rfl⟩, get_size_mk (by omega), bindOpt_some, if_pos hs,
    alloc_search, if_neg (by simp only [not_and]; intro _ _; exact h0)]

/-- The search ends at the header when it comes back to it. -/
theorem alloc_search_header (m : Mem) (b f req : Int) (k : Nat) :
    alloc_search ⟨m, b, f⟩ req (k + 1) f 0 = some (f, 0) := by
  rw [alloc_search, if_neg (by simp)]

/-! ## The two branches of `alloc_mem` -/

/-- The split branch on a block of size `S` whose payload starts at `n`, for a request of
`R` bytes: the result, the four tags written, and the bytes left untouched. -/
theorem alloc_split_core (m : Mem) (b f n S R : Int)
    (hn : b + 32 ≤ n) (hE : n + S + 16 ≤ b + 1648)
    (hS16 : S % 16 = 0) (hR : 16 ≤ R) (hR16 : R % 16 = 0) (hfit : R + 48 ≤ S)
    (hsz : rdLE m 4 (n - 16 + 12) = S) :
    ∃ m', alloc_split ⟨m, b, f⟩ R (n - 16) = some (⟨m', b, f⟩, n + S - R) ∧
      rd8 m' (n - 16) = 0 ∧ rdLE m' 4 (n - 16 + 12) = S - R - 32 ∧
      rd8 m' (n + (S - R - 32)) = 0 ∧ rdLE m' 4 (n + (S - R - 32) + 12) = S - R - 32 ∧
      rd8 m' (n + S - R - 16) = 1 ∧ rdLE m' 4 (n + S - R - 16 + 12) = R ∧
      rd8 m' (n + S) = 1 ∧ rdLE m' 4 (n + S + 12) = R ∧
      (∀ i, (i < n - 16 ∨ n ≤ i) → (i < n + (S - R - 32) ∨ n + S - R ≤ i) →
        (i < n + S ∨ n + S + 16 ≤ i) → m' i = m i) := by
  have e1 : n - 16 + 16 * (S / 16) + 16 = n + S := by omega
  have e2 : toU32 (S - toU32 R - 32) = S - R - 32 := by unfold toU32; omega
  have e3 : (S - R - 32) % 4294967296 = S - R - 32 := by omega
  have e4 : n - 16 + 16 * ((S - R - 32) / 16) + 16 = n + (S - R - 32) := by omega
  have e5 : toU32 R = R := by unfold toU32; omega
  have e6 : Int.tdiv R 16 = R / 16 := Int.tdiv_eq_ediv (by omega) (by omega)
  have e7 : n + S - 16 * (R / 16) - 16 = n + S - R - 16 := by omega
  have e8 : n + S - 16 * (R / 16) = n + S - R := by omega
  have e9 : R % 4294967296 = R := by omega
  have s4 : rdLE (wr8 (wrLE (wr8 (wr8 m (n - 16) 0) (n + S) 1) 4 (n - 16 + 12) (S - R - 32))
      (n + (S - R - 32)) 0) 4 (n - 16 + 12) = S - R - 32 := by
    rw [rdLE_wr8 _ _ _ _ _ (by omega), rdLE4_wrLE4_same, e3]
  obtain ⟨m5, hc5, hm5⟩ := strcpy_sig (wr8 (wrLE (wr8 (wr8 m (n - 16) 0) (n + S) 1) 4
    (n - 16 + 12) (S - R - 32)) (n + (S - R - 32)) 0) b f (n + (S - R - 32)) (n - 16)
    (by rw [s4]; omega) (by omega) (by omega) (by omega) (by omega) (by omega)
  have s5 : rdLE m5 4 (n - 16 + 12) = S - R - 32 := by
    rw [rdLE_of_agree 4 hm5 (by omega), s4]
  have s8 : rdLE (wr8 (wrLE (wrLE m5 4 (n + (S - R - 32) + 12) (S - R - 32)) 4 (n + S + 12) R)
      (n + S - R - 16) 1) 4 (n + S + 12) = R := by
    rw [rdLE_wr8 _ _ _ _ _ (by omega), rdLE4_wrLE4_same, e9]
  obtain ⟨m9, hc9, hm9⟩ := strcpy_sig (wr8 (wrLE (wrLE m5 4 (n + (S - R - 32) + 12)
    (S - R - 32)) 4 (n + S + 12) R) (n + S - R - 16) 1) b f (n + S - R - 16) (n + S)
    (by rw [s8]; omega) (by omega) (by omega) (by omega) (by omega) (by omega)
  have s9 : rdLE m9 4 (n + S + 12) = R := by rw [rdLE_of_agree 4 hm9 (by omega), s8]
  have hrun : alloc_split ⟨m, b, f⟩ R (n - 16) =
      some (⟨wrLE m9 4 (n + S - R - 16 + 12) R, b, f⟩, n + S - R) := by
    unfold alloc_split
    simp only []
    rw [set_tag_mk _ (by omega), bindOpt_some, get_size_mk (by omega), bindOpt_some,
      rdLE_wr8 _ _ _ _ _ (by omega), hsz, e1, set_tag_mk _ (by omega), bindOpt_some,
      get_size_mk (by omega), bindOpt_some, rdLE_wr8 _ _ _ _ _ (by omega),
      rdLE_wr8 _ _ _ _ _ (by omega), hsz, e2, set_size_mk _ (by omega), bindOpt_some,
      get_size_mk (by omega), bindOpt_some, rdLE4_wrLE4_same, e3, e4,
      set_tag_mk _ (by omega), bindOpt_some, hc5, bindOpt_some,
      get_size_mk (by omega), bindOpt_some, s5, set_size_mk _ (by omega), bindOpt_some,
      e5, set_size_mk _ (by omega), bindOpt_some, e6, e7,
      set_tag_mk _ (by omega), bindOpt_some, hc9, bindOpt_some,
      get_size_mk (by omega), bindOpt_some, s9, set_size_mk _ (by omega), bindOpt_some, e8]
  clear hc5 hc9 e1 e2 e4 e5 e6 e7 e8 s4 s8 hsz
  refine ⟨wrLE m9 4 (n + S - R - 16 + 12) R, hrun, ?_, ?_, ?_, ?_, ?_, ?_, ?_, ?_, ?_⟩
  · rw [rd8_wrLE _ _ _ _ _ (by omega), rd8_of_agree hm9 (by omega),
      rd8_wr8_ne _ _ _ _ (by omega), rd8_wrLE _ _ _ _ _ (by omega),
      rd8_wrLE _ _ _ _ _ (by omega), rd8_of_agree hm5 (by omega),
      rd8_wr8_ne _ _ _ _ (by omega), rd8_wrLE _ _ _ _ _ (by omega),
      rd8_wr8_ne _ _ _ _ (by omega), rd8_wr8_same]
    rfl
  · rw [rdLE_wrLE _ _ _ _ _ _ (by omega), rdLE_of_agree 4 hm9 (by omega),
      rdLE_wr8 _ _ _ _ _ (by omega), rdLE_wrLE _ _ _ _ _ _ (by omega),
      rdLE_wrLE _ _ _ _ _ _ (by omega), s5]
  · rw [rd8_wrLE _ _ _ _ _ (by omega), rd8_of_agree hm9 (by omega),
      rd8_wr8_ne _ _ _ _ (by omega), rd8_wrLE _ _ _ _ _ (by omega),
      rd8_wrLE _ _ _ _ _ (by omega), rd8_of_agree hm5 (by omega), rd8_wr8_same]
    rfl
  · rw [rdLE_wrLE _ _ _ _ _ _ (by omega), rdLE_of_agree 4 hm9 (by omega),
      rdLE_wr8 _ _ _ _ _ (by omega), rdLE_wrLE _ _ _ _ _ _ (by omega),
      rdLE4_wrLE4_same, e3]
  · rw [rd8_wrLE _ _ _ _ _ (by omega), rd8_of_agree hm9 (by omega), rd8_wr8_same]
    rfl
  · rw [rdLE4_wrLE4_same, e9]
  · rw [rd8_wrLE _ _ _ _ _ (by omega), rd8_of_agree hm9 (by omega),
      rd8_wr8_ne _ _ _ _ (by omega), rd8_wrLE _ _ _ _ _ (by omega),
      rd8_wrLE _ _ _ _ _ (by omega), rd8_of_agree hm5 (by omega),
      rd8_wr8_ne _ _ _ _ (by omega), rd8_wrLE _ _ _ _ _ (by omega), rd8_wr8_same]
    rfl
  · rw [rdLE_wrLE _ _ _ _ _ _ (by omega), s9]
  · intro i h1 h2 h3
    rw [wrLE_apply_out _ _ _ _ _ (by omega), hm9 i (by omega), wr8_apply,
      if_neg (by omega), wrLE_apply_out _ _ _ _ _ (by omega),
      wrLE_apply_out _ _ _ _ _ (by omega), hm5 i (by omega), wr8_apply,
      if_neg (by omega), wrLE_apply_out _ _ _ _ _ (by omega), wr8_apply,
      if_neg (by omega), wr8_apply, if_neg (by omega)]

/-- The whole-block branch on a block of size `S` whose payload starts at `n`, with
`back_link` `P` and `fwd_link` `N`. -/
theorem alloc_whole_core (m : Mem) (b f n S P N : Int)
    (hn : b + 32 ≤ n) (hE : n + S + 16 ≤ b + 1648) (hS : 16 ≤ S) (hS16 : S % 16 = 0)
    (hsz : rdLE m 4 (n - 16 + 12) = S)
    (hP : rdLE m 8 n = P) (hN : rdLE m 8 (n + 8) = N)
    (hPr : b ≤ P ∧ P + 16 ≤ b + 1680) (hNr : b ≤ N ∧ N + 16 ≤ b + 1680)
    (hPn : P + 16 ≤ n - 16 ∨ n + S + 16 ≤ P) :
    alloc_whole ⟨m, b, f⟩ n (n - 16) n =
      some (⟨wrLE (wrLE (wr8 (wrLE (wr8 m (n - 16) 1) 4 (n + S + 12) S) (n + S) 1)
        8 (P + 8) N) 8 N P, b, f⟩, n) := by
  have e1 : n - 16 + 16 * (S / 16) + 16 = n + S := by omega
  unfold alloc_whole
  simp only []
  rw [set_tag_mk _ (by omega), bindOpt_some, get_size_mk (by omega), bindOpt_some,
    rdLE_wr8 _ _ _ _ _ (by omega), hsz, e1, bindOpt_some, set_size_mk _ (by omega),
    bindOpt_some, set_tag_mk _ (by omega), bindOpt_some, get_back_mk (by omega), bindOpt_some,
    rdLE_wr8 _ _ _ _ _ (by omega), rdLE_wrLE _ _ _ _ _ _ (by omega),
    rdLE_wr8 _ _ _ _ _ (by omega), hP, get_fwd_mk (by omega), bindOpt_some,
    rdLE_wr8 _ _ _ _ _ (by omega), rdLE_wrLE _ _ _ _ _ _ (by omega),
    rdLE_wr8 _ _ _ _ _ (by omega), hN, set_fwd_mk _ (by omega), bindOpt_some,
    get_fwd_mk (by omega), bindOpt_some, rdLE_wrLE _ _ _ _ _ _ (by omega),
    rdLE_wr8 _ _ _ _ _ (by omega), rdLE_wrLE _ _ _ _ _ _ (by omega),
    rdLE_wr8 _ _ _ _ _ (by omega), hN, set_back_mk _ (by omega), bindOpt_some]

/-! ## `release_mem` -/

/-- After the validity checks have passed, `release_mem` selects one of its four cases
from the tags of the two physical neighbours. -/
theorem release_mem_dispatch (m : Mem) (b f p s : Int)
    (hp0 : p ≠ 0) (hpf : p - 16 ≠ f) (hlo : b + 16 ≤ p - 16) (hE : p + s + 32 ≤ b + 1680)
    (hs : 0 < s) (hs16 : s % 16 = 0)
    (h1 : rd8 m (p - 16) = 1) (h2 : rdLE m 4 (p - 16 + 12) = s)
    (h3 : rd8 m (p + s) = 1) (h4 : rdLE m 4 (p + s + 12) ≠ 0) :
    release_mem ⟨m, b, f⟩ p =
      if rd8 m (p + s + 16) ≠ 0 ∧ rd8 m (p - 16 - 16) ≠ 0 then
        (release_case1 ⟨m, b, f⟩ p (p - 16) (p + s)).map fun s => (s, 0)
      else if rd8 m (p + s + 16) ≠ 0 ∧ rd8 m (p - 16 - 16) = 0 then
        (release_case2 ⟨m, b, f⟩ (p - 16) (p + s)).map fun s => (s, 0)
      else if rd8 m (p + s + 16) = 0 ∧ rd8 m (p - 16 - 16) ≠ 0 then
        (release_case3 ⟨m, b, f⟩ p (p - 16)).map fun s => (s, 0)
      else
        (release_case4 ⟨m, b, f⟩ (p - 16)).map fun s => (s, 0) := by
  have e1 : p - 16 + 16 + 16 * (s / 16) = p + s := by omega
  unfold release_mem
  simp only []
  rw [if_neg hp0, get_size_mk (by omega), bindOpt_some, h2, e1, if_neg hpf,
    get_tag_mk (by omega), bindOpt_some, h1, if_neg (by simp), get_tag_mk (by omega),
    bindOpt_some, h3, if_neg (by simp), bindOpt_some,
    if_neg (by omega), get_size_mk (by omega), bindOpt_some, if_neg h4,
    get_tag_mk (by omega), bindOpt_some, get_tag_mk (by omega), bindOpt_some]
  by_cases c1 : rd8 m (p + s + 16) = 0 <;> by_cases c2 : rd8 m (p - 16 - 16) = 0 <;>
    simp [c1, c2]

/-- Case 1 on an explicit state: the tags are cleared and the block is linked in right
after the header, whose old successor is `F`. -/
theorem release_case1_core (m : Mem) (b f p s F : Int)
    (hb : 0 < b) (hb2 : b + 1680 ≤ 18446744073709551616) (hf : f = b + 1664)
    (hp : b + 32 ≤ p) (hE : p + s + 16 ≤ b + 1648) (hs : 16 ≤ s)
    (hF : rdLE m 8 (f + 8) = F)
    (hFr : F = f ∨ (b ≤ F ∧ (F + 16 ≤ p ∨ p + 16 ≤ F) ∧ F + 16 ≤ b + 1648)) :
    release_case1 ⟨m, b, f⟩ p (p - 16) (p + s) =
      some ⟨wrLE (wrLE (wrLE (wrLE (wr8 (wr8 m (p - 16) 0) (p + s) 0) 8 (f + 8) p) 8 p f)
        8 (p + 8) F) 8 F p, b, f⟩ := by
  have e1 : F % 18446744073709551616 = F := by omega
  unfold release_case1
  rw [set_tag_mk _ (by omega), bindOpt_some, set_tag_mk _ (by omega), bindOpt_some]
  dsimp only
  rw [get_fwd_mk (by omega), bindOpt_some, rdLE_wr8 _ _ _ _ _ (by omega),
    rdLE_wr8 _ _ _ _ _ (by omega), hF, set_fwd_mk _ (by omega), bindOpt_some]
  dsimp only
  rw [set_back_mk _ (by omega), bindOpt_some, set_fwd_mk _ (by omega), bindOpt_some,
    get_fwd_mk (by omega), bindOpt_some, rdLE8_wrLE8_same, e1, set_back_mk _ (by omega)]

/-- Bounds of a free-list node of a well-formed state. -/
theorem wf_node_block {m : Mem} {b f : Int} {bl : List Block} {ns : List Int}
    (h : WellFormed ⟨m, b, f⟩ bl ns) {x : Int} (hx : x ∈ ns) :
    ∃ B ∈ bl, B.free = true ∧ B.addr = x ∧ b + 32 ≤ x ∧ x + B.size + 16 ≤ b + 1648 ∧
      16 ≤ B.size ∧ B.size % 16 = 0 ∧ rdLE m 4 (x - 16 + 12) = B.size := by
  obtain ⟨B, hB, hBf, rfl⟩ := h.node hx
  have ht : Tiles m (b + 16) bl (b + 1648) := h.2.2.2.2.2.1
  have := ht.mem hB
  exact ⟨B, hB, hBf, rfl, by omega, by omega, this.2.2.1, this.2.2.2.1, this.2.2.2.2.1.2⟩

/-- A node other than the payload address of a block lies outside that block's extent. -/
theorem wf_node_vs_block {m : Mem} {b f : Int} {bl : List Block} {ns : List Int}
    (h : WellFormed ⟨m, b, f⟩ bl ns) {x : Int} (hx : x ∈ ns) {B : Block} (hB : B ∈ bl)
    (hne : x ≠ B.addr) : x + 48 ≤ B.addr ∨ B.addr + B.size + 32 ≤ x := by
  obtain ⟨X, hX, -, rfl⟩ := h.node hx
  have ht : Tiles m (b + 16) bl (b + 1648) := h.2.2.2.2.2.1
  have h1 := ht.mem hX
  rcases ht.apart hX hB with e | e | e
  · exact absurd (by rw [e]) hne
  · left; omega
  · right; omega

/-- In a well-formed state the search of `alloc_mem` stops at the first node `n` that is
large enough, and the function continues with one of its two branches. -/
theorem alloc_mem_found (m : Mem) (b f : Int) (bl : List Block) (pre post : List Int)
    (n amount S : Int)
    (hwf : WellFormed ⟨m, b, f⟩ bl (pre ++ n :: post))
    (hamt : 0 < amount) (hamt2 : amount < 4294967296)
    (hS : rdLE m 4 (n - 16 + 12) = S)
    (hpre : ∀ x ∈ pre, rdLE m 4 (x - 16 + 12) < roundUp16 amount)
    (hfit : roundUp16 amount ≤ S) :
    alloc_mem ⟨m, b, f⟩ amount =
      if roundUp16 amount + 48 ≤ S then alloc_split ⟨m, b, f⟩ (roundUp16 amount) (n - 16)
      else alloc_whole ⟨m, b, f⟩ n (n - 16) n := by
  have hfl : f = b + 1664 := hwf.2.2.1
  have hseg : Seg m f (pre ++ n :: post) f := hwf.2.2.2.2.2.2.1
  obtain ⟨hsegp, hsegn⟩ := Seg.append.1 hseg
  have hlen := hwf.length_le
  have hnmem : n ∈ pre ++ n :: post := by simp
  obtain ⟨B, hB, hBf, hBa, hn1, hn2, hn3, hn4, hn5⟩ := wf_node_block hwf hnmem
  have hb0 : 0 < b := hwf.1
  have hSB : S = B.size := by rw [← hS, hn5]
  have hR := roundUp16_spec amount
  have e0 : toU32 amount = amount := toU32_eq _ (by omega) hamt2
  have e1 : req_amt amount = roundUp16 amount := req_amt_eq _ (by omega) (by omega)
  have e2 : toU32 (roundUp16 amount) = roundUp16 amount := toU32_eq _ (by omega) (by omega)
  have e3 : toU32 (toI32 (roundUp16 amount + 48)) = roundUp16 amount + 48 := by
    rw [toI32_eq _ (by omega) (by omega), toU32_eq _ (by omega) (by omega)]
  have hk : 1680 = pre.length + ((1678 - pre.length) + 2) := by
    simp only [List.length_append, List.length_cons] at hlen
    omega
  unfold alloc_mem
  simp only []
  rw [e0, if_neg (by omega), e1, get_fwd_mk (by omega), bindOpt_some]
  rw [hk, alloc_search_skip m b f _ n pre f hsegp ?_ _,
    alloc_search_found m b f _ n _ (by omega) (by omega) (by omega) (by omega)
      (by rw [e2, hS]; exact hfit), bindOpt_some]
  · dsimp only
    rw [if_neg (by omega), get_size_mk (by omega), bindOpt_some, hS, e3]
  · intro x hx
    have hxm : x ∈ pre ++ n :: post := List.mem_append_left _ hx
    obtain ⟨X, -, -, -, hx1, hx2, hx3, -, -⟩ := wf_node_block hwf hxm
    refine ⟨by omega, by omega, by omega, by omega, ?_⟩
    rw [e2]
    exact hpre x hx

/-- C2 (split policy): in a well-formed state whose free list is `pre ++ n :: post`, where
every node of `pre` records a size below the rounded request `R` and `n` records
`S ≥ R` with end tag at `E = n + S`: if `S - R - 32 ≥ 16` then `alloc_mem` returns
`E - R`, the block at `n` is free with start and end tag recording `S - R - 32`, and the
block at the returned address is allocated with start tag at `E - R - 16` and end tag at
`E`, both recording `R`. -/
theorem alloc_mem_split_policy (s : State) (bl : List Block) (pre post : List Int)
    (n amount R S E : Int)
    (hwf : WellFormed s bl (pre ++ n :: post))
    (hamt : 0 < amount) (hamt2 : amount < 4294967296)
    (hR : R = roundUp16 amount)
    (hpre : ∀ x ∈ pre, recSize s x < R)
    (hS : recSize s n = S) (hfit : R ≤ S) (hE : E = n + S)
    (hslack : 16 ≤ S - R - 32) :
    ∃ s', alloc_mem s amount = some (s', E - R) ∧
      TagIs s'.mem (n - 16) true (S - R - 32) ∧
      TagIs s'.mem (n + (S - R - 32)) true (S - R - 32) ∧
      TagIs s'.mem (E - R - 16) false R ∧
      TagIs s'.mem E false R := by
  obtain ⟨m, b, f⟩ := s
  subst hR hE
  simp only [recSize] at hpre hS
  have hnmem : n ∈ pre ++ n :: post := by simp
  obtain ⟨B, hB, hBf, hBa, hn1, hn2, hn3, hn4, hn5⟩ := wf_node_block hwf hnmem
  have hSB : S = B.size := by rw [← hS, hn5]
  have hRs := roundUp16_spec amount
  rw [alloc_mem_found m b f bl pre post n amount S hwf hamt hamt2 hS hpre hfit,
    if_pos (by omega)]
  obtain ⟨m', h0, h1, h2, h3, h4, h5, h6, h7, h8, -⟩ :=
    alloc_split_core m b f n S (roundUp16 amount) hn1 (by omega) (by omega) (by omega)
      hRs.1 (by omega) hS
  exact ⟨⟨m', b, f⟩, h0, ⟨h1, h2⟩, ⟨h3, h4⟩, ⟨h5, h6⟩, ⟨h7, h8⟩⟩

/-- The header and the nodes of a well-formed state are pairwise equal or 16 bytes
apart, so their link fields do not overlap. -/
theorem wf_link_apart {m : Mem} {b f : Int} {bl : List Block} {ns : List Int}
    (h : WellFormed ⟨m, b, f⟩ bl ns) {u v : Int} (hu : u ∈ f :: ns) (hv : v ∈ f :: ns) :
    u = v ∨ u + 16 ≤ v ∨ v + 16 ≤ u := by
  have hfl : f = b + 1664 := h.2.2.1
  rcases List.mem_cons.1 hu with eu | hu <;> rcases List.mem_cons.1 hv with ev | hv
  · exact Or.inl (by rw [eu, ev])
  · obtain ⟨_, -, -, -, h1, h2, h3, -, -⟩ := wf_node_block h hv
    right; right; omega
  · obtain ⟨_, -, -, -, h1, h2, h3, -, -⟩ := wf_node_block h hu
    right; left; omega
  · rcases h.node_apart hu hv with e | e | e
    · exact Or.inl e
    · right; left; omega
    · right; right; omega

/-- The header and the nodes other than `B.addr` lie outside the extent of block `B`. -/
theorem wf_link_vs_block {m : Mem} {b f : Int} {bl : List Block} {ns : List Int}
    (h : WellFormed ⟨m, b, f⟩ bl ns) {u : Int} (hu : u ∈ f :: ns) {B : Block} (hB : B ∈ bl)
    (hne : u ≠ B.addr) : u + 16 ≤ B.addr - 16 ∨ B.addr + B.size + 16 ≤ u := by
  have hfl : f = b + 1664 := h.2.2.1
  have ht : Tiles m (b + 16) bl (b + 1648) := h.2.2.2.2.2.1
  have hb := ht.mem hB
  rcases List.mem_cons.1 hu with eu | hu
  · right; omega
  · rcases wf_node_vs_block h hu hB hne with e | e
    · left; omega
    · right; omega

/-- The header is not a node of a well-formed state, and the nodes are distinct. -/
theorem wf_nodup_cons {m : Mem} {b f : Int} {bl : List Block} {ns : List Int}
    (h : WellFormed ⟨m, b, f⟩ bl ns) : (f :: ns).Nodup := by
  have hfl : f = b + 1664 := h.2.2.1
  refine List.nodup_cons.2 ⟨?_, h.nodup⟩
  intro hf
  obtain ⟨_, -, -, -, h1, h2, h3, -, -⟩ := wf_node_block h hf
  omega

/-- The memory left by the whole-block branch of `alloc_mem`: the tags of the block, the
two link fields written, and the link fields that keep their value. -/
theorem alloc_whole_mem (m : Mem) (n S P N : Int)
    (hS : 16 ≤ S) (hS32 : S < 4294967296)
    (hPB : P + 16 ≤ n - 16 ∨ n + S + 16 ≤ P) (hNB : N + 16 ≤ n - 16 ∨ n + S + 16 ≤ N)
    (hPN : P = N ∨ P + 16 ≤ N ∨ N + 16 ≤ P)
    (hP0 : 0 ≤ P) (hP64 : P < 18446744073709551616)
    (hN0 : 0 ≤ N) (hN64 : N < 18446744073709551616) :
    rd8 (wrLE (wrLE (wr8 (wrLE (wr8 m (n - 16) 1) 4 (n + S + 12) S) (n + S) 1)
      8 (P + 8) N) 8 N P) (n - 16) = 1 ∧
    rdLE (wrLE (wrLE (wr8 (wrLE (wr8 m (n - 16) 1) 4 (n + S + 12) S) (n + S) 1)
      8 (P + 8) N) 8 N P) 4 (n - 16 + 12) = rdLE m 4 (n - 16 + 12) ∧
    rd8 (wrLE (wrLE (wr8 (wrLE (wr8 m (n - 16) 1) 4 (n + S + 12) S) (n + S) 1)
      8 (P + 8) N) 8 N P) (n + S) = 1 ∧
    rdLE (wrLE (wrLE (wr8 (wrLE (wr8 m (n - 16) 1) 4 (n + S + 12) S) (n + S) 1)
      8 (P + 8) N) 8 N P) 4 (n + S + 12) = S ∧
    rdLE (wrLE (wrLE (wr8 (wrLE (wr8 m (n - 16) 1) 4 (n + S + 12) S) (n + S) 1)
      8 (P + 8) N) 8 N P) 8 (P + 8) = N ∧
    rdLE (wrLE (wrLE (wr8 (wrLE (wr8 m (n - 16) 1) 4 (n + S + 12) S) (n + S) 1)
      8 (P + 8) N) 8 N P) 8 N = P ∧
    ∀ u, (u + 16 ≤ n - 16 ∨ n + S + 16 ≤ u) → (u = P ∨ u + 16 ≤ P ∨ P + 16 ≤ u) →
      (u = N ∨ u + 16 ≤ N ∨ N + 16 ≤ u) →
      (u ≠ P → rdLE (wrLE (wrLE (wr8 (wrLE (wr8 m (n - 16) 1) 4 (n + S + 12) S) (n + S) 1)
        8 (P + 8) N) 8 N P) 8 (u + 8) = rdLE m 8 (u + 8)) ∧
      (u ≠ N → rdLE (wrLE (wrLE (wr8 (wrLE (wr8 m (n - 16) 1) 4 (n + S + 12) S) (n + S) 1)
        8 (P + 8) N) 8 N P) 8 u = rdLE m 8 u) := by
  have e64P : P % 18446744073709551616 = P := by omega
  have e64N : N % 18446744073709551616 = N := by omega
  have e32 : S % 4294967296 = S := by omega
  refine ⟨?_, ?_, ?_, ?_, ?_, ?_, ?_⟩
  · rw [rd8_wrLE _ _ _ _ _ (by omega), rd8_wrLE _ _ _ _ _ (by omega),
      rd8_wr8_ne _ _ _ _ (by omega), rd8_wrLE _ _ _ _ _ (by omega), rd8_wr8_same]
    rfl
  · rw [rdLE_wrLE _ _ _ _ _ _ (by omega), rdLE_wrLE _ _ _ _ _ _ (by omega),
      rdLE_wr8 _ _ _ _ _ (by omega), rdLE_wrLE _ _ _ _ _ _ (by omega),
      rdLE_wr8 _ _ _ _ _ (by omega)]
  · rw [rd8_wrLE _ _ _ _ _ (by omega), rd8_wrLE _ _ _ _ _ (by omega), rd8_wr8_same]
    rfl
  · rw [rdLE_wrLE _ _ _ _ _ _ (by omega), rdLE_wrLE _ _ _ _ _ _ (by omega),
      rdLE_wr8 _ _ _ _ _ (by omega), rdLE4_wrLE4_same, e32]
  · rw [rdLE_wrLE _ _ _ _ _ _ (by omega), rdLE8_wrLE8_same, e64N]
  · rw [rdLE8_wrLE8_same, e64P]
  · intro u h1 h2 h3
    constructor
    · intro hne
      rw [rdLE_wrLE _ _ _ _ _ _ (by omega), rdLE_wrLE _ _ _ _ _ _ (by omega),
        rdLE_wr8 _ _ _ _ _ (by omega), rdLE_wrLE _ _ _ _ _ _ (by omega),
        rdLE_wr8 _ _ _ _ _ (by omega)]
    · intro hne
      rw [rdLE_wrLE _ _ _ _ _ _ (by omega), rdLE_wrLE _ _ _ _ _ _ (by omega),
        rdLE_wr8 _ _ _ _ _ (by omega), rdLE_wrLE _ _ _ _ _ _ (by omega),
        rdLE_wr8 _ _ _ _ _ (by omega)]

/-- Facts about the header or a node of a well-formed state, relative to a free block
`B` whose payload address is another node. -/
theorem wf_link_facts {m : Mem} {b f : Int} {bl : List Block} {ns : List Int} {B : Block}
    (hwf : WellFormed ⟨m, b, f⟩ bl ns) (hB : B ∈ bl) {x : Int} (hx : x ∈ f :: ns)
    (hne : x ≠ B.addr) :
    (x + 16 ≤ B.addr - 16 ∨ B.addr + B.size + 16 ≤ x) ∧ b ≤ x ∧ x + 16 ≤ b + 1680 := by
  have hfl : f = b + 1664 := hwf.2.2.1
  refine ⟨wf_link_vs_block hwf hx hB hne, ?_, ?_⟩
  · rcases List.mem_cons.1 hx with e | e
    · omega
    · obtain ⟨_, -, -, -, h1, h2, h3, -, -⟩ := wf_node_block hwf e
      omega
  · rcases List.mem_cons.1 hx with e | e
    · omega
    · obtain ⟨_, -, -, -, h1, h2, h3, -, -⟩ := wf_node_block hwf e
      omega

/-- The whole-block branch in a well-formed state: the block at `n` becomes allocated
with its size unchanged and the node is unlinked. -/
theorem alloc_whole_wf (m : Mem) (b f : Int) (bl : List Block) (pre post : List Int)
    (n S : Int)
    (hwf : WellFormed ⟨m, b, f⟩ bl (pre ++ n :: post))
    (hS : rdLE m 4 (n - 16 + 12) = S) :
    ∃ m', alloc_whole ⟨m, b, f⟩ n (n - 16) n = some (⟨m', b, f⟩, n) ∧
      TagIs m' (n - 16) false S ∧ TagIs m' (n + S) false S ∧
      Seg m' f (pre ++ post) f := by
  have hfl : f = b + 1664 := hwf.2.2.1
  have hb0 : 0 < b := hwf.1
  have hb1 : b + 1680 ≤ 18446744073709551616 := hwf.2.1
  have hseg : Seg m f (pre ++ n :: post) f := hwf.2.2.2.2.2.2.1
  obtain ⟨hsegp, hsegn⟩ := Seg.append.1 hseg
  have hnmem : n ∈ pre ++ n :: post := by simp
  obtain ⟨B, hB, hBf, hBa, hn1, hn2, hn3, hn4, hn5⟩ := wf_node_block hwf hnmem
  have hSB : B.size = S := by rw [← hS, hn5]
  have hnd := wf_nodup_cons hwf
  have hnd' : (f :: pre ++ n :: post).Nodup := by simpa using hnd
  have hn_pre : n ∉ f :: pre := fun hc =>
    (List.nodup_append.1 hnd').2.2 hc (List.mem_cons_self _ _)
  have hn_post : n ∉ post := (List.nodup_cons.1 (List.nodup_append.1 hnd').2.1).1
  -- the neighbours in the list
  have hPm : rdLE m 8 n ∈ f :: (pre ++ n :: post) := by
    rcases List.mem_cons.1 hsegp.back_mem with e | e
    · rw [e]; exact List.mem_cons_self _ _
    · exact List.mem_cons_of_mem _ (List.mem_append_left _ e)
  have hNm : rdLE m 8 (n + 8) ∈ f :: (pre ++ n :: post) := by
    rcases List.mem_append.1 hsegn.fwd_mem with e | e
    · exact List.mem_cons_of_mem _ (List.mem_append_right _ (List.mem_cons_of_mem _ e))
    · rw [List.mem_singleton.1 e]; exact List.mem_cons_self _ _
  have hPne : rdLE m 8 n ≠ B.addr := by
    rw [hBa]
    intro e
    have := hsegp.back_mem
    rw [e] at this
    exact hn_pre this
  have hNne : rdLE m 8 (n + 8) ≠ B.addr := by
    rw [hBa]
    intro e
    have := hsegn.fwd_mem
    rw [e] at this
    rcases List.mem_append.1 this with e | e
    · exact hn_post e
    · exact hn_pre (by rw [List.mem_singleton.1 e]; exact List.mem_cons_self _ _)
  have hPf := wf_link_facts hwf hB hPm hPne
  have hNf := wf_link_facts hwf hB hNm hNne
  have hPN := wf_link_apart hwf hPm hNm
  rw [hBa, hSB] at hPf hNf
  have hrun := alloc_whole_core m b f n S _ _ hn1 (by omega) (by omega) (by omega) hS rfl rfl
    ⟨hPf.2.1, hPf.2.2⟩ ⟨hNf.2.1, hNf.2.2⟩ hPf.1
  obtain ⟨r1, r2, r3, r4, r5, r6, r7⟩ := alloc_whole_mem m n S (rdLE m 8 n) (rdLE m 8 (n + 8))
    (by omega) (by omega) hPf.1 hNf.1 hPN (by omega) (by omega) (by omega) (by omega)
  refine ⟨_, hrun, ⟨r1, r2.trans hS⟩, ⟨r3, r4⟩, ?_⟩
  refine Seg.unlink hsegp hsegn hnd' (fun hc => (List.nodup_cons.1 hnd).1 hc) ?_ ?_ r5 r6
  · intro u hu hne
    have hum : u ∈ f :: (pre ++ n :: post) := by
      rcases List.mem_append.1 hu with hu | hu
      · rcases List.mem_cons.1 hu with hu | hu
        · rw [hu]; exact List.mem_cons_self _ _
        · exact List.mem_cons_of_mem _ (List.mem_append_left _ hu)
      · exact List.mem_cons_of_mem _ (List.mem_append_right _ (List.mem_cons_of_mem _ hu))
    have hun : u ≠ B.addr := by
      rw [hBa]
      intro e
      rw [e] at hu
      rcases List.mem_append.1 hu with hu | hu
      · exact hn_pre hu
      · exact hn_post hu
    have a1 := (wf_link_facts hwf hB hum hun).1
    rw [hBa, hSB] at a1
    exact (r7 u a1 (wf_link_apart hwf hum hPm) (wf_link_apart hwf hum hNm)).1 hne
  · intro v hv hne
    have hvm : v ∈ f :: (pre ++ n :: post) := by
      rcases List.mem_append.1 hv with hv | hv
      · rcases List.mem_append.1 hv with hv | hv
        · exact List.mem_cons_of_mem _ (List.mem_append_left _ hv)
        · exact List.mem_cons_of_mem _ (List.mem_append_right _ (List.mem_cons_of_mem _ hv))
      · rw [List.mem_singleton.1 hv]; exact List.mem_cons_self _ _
    have hvn : v ≠ B.addr := by
      rw [hBa]
      intro e
      rw [e] at hv
      rcases List.mem_append.1 hv with hv | hv
      · rcases List.mem_append.1 hv with hv | hv
        · exact hn_pre (List.mem_cons_of_mem _ hv)
        · exact hn_post hv
      · exact hn_pre (by rw [List.mem_singleton.1 hv]; exact List.mem_cons_self _ _)
    have a1 := (wf_link_facts hwf hB hvm hvn).1
    rw [hBa, hSB] at a1
    exact (r7 v a1 (wf_link_apart hwf hvm hPm) (wf_link_apart hwf hvm hNm)).2 hne

/-- C3 (whole-block policy): in a well-formed state whose free list is
`pre ++ n :: post`, where every node of `pre` records a size below the rounded request
`R` and `n` records `S ≥ R`: if `S - R - 32 < 16` then `alloc_mem` returns `n` itself,
both tags of the block show allocated with size `S`, and the free list becomes
`pre ++ post` (same order, the neighbours of `n` linked to each other). -/
theorem alloc_mem_whole_block_policy (s : State) (bl : List Block) (pre post : List Int)
    (n amount R S : Int)
    (hwf : WellFormed s bl (pre ++ n :: post))
    (hamt : 0 < amount) (hamt2 : amount < 4294967296)
    (hR : R = roundUp16 amount)
    (hpre : ∀ x ∈ pre, recSize s x < R)
    (hS : recSize s n = S) (hfit : R ≤ S)
    (hslack : S - R - 32 < 16) :
    ∃ s', alloc_mem s amount = some (s', n) ∧
      TagIs s'.mem (n - 16) false S ∧ TagIs s'.mem (n + S) false S ∧
      FreeList s' (pre ++ post) := by
  obtain ⟨m, b, f⟩ := s
  subst hR
  simp only [recSize] at hpre hS
  rw [alloc_mem_found m b f bl pre post n amount S hwf hamt hamt2 hS hpre hfit,
    if_neg (by omega)]
  obtain ⟨m', h0, h1, h2, h3⟩ := alloc_whole_wf m b f bl pre post n S hwf hS
  exact ⟨⟨m', b, f⟩, h0, h1, h2, h3⟩

/-- C4 (first fit): in a well-formed state whose free list in forward order is
`pre ++ n :: post`, where `n` is the first node whose recorded size `S` reaches the
rounded request, `alloc_mem` succeeds and the returned address lies inside the payload
`[n, n + S)` of that node, whatever the later nodes are. -/
theorem alloc_mem_first_fit (s : State) (bl : List Block) (pre post : List Int)
    (n amount S : Int)
    (hwf : WellFormed s bl (pre ++ n :: post))
    (hamt : 0 < amount) (hamt2 : amount < 4294967296)
    (hpre : ∀ x ∈ pre, recSize s x < roundUp16 amount)
    (hS : recSize s n = S) (hfit : roundUp16 amount ≤ S) :
    ∃ s' p, alloc_mem s amount = some (s', p) ∧ n ≤ p ∧ p < n + S := by
  obtain ⟨m, b, f⟩ := s
  simp only [recSize] at hpre hS
  have hnmem : n ∈ pre ++ n :: post := by simp
  obtain ⟨B, hB, hBf, hBa, hn1, hn2, hn3, hn4, hn5⟩ := wf_node_block hwf hnmem
  have hSB : S = B.size := by rw [← hS, hn5]
  have hRs := roundUp16_spec amount
  rw [alloc_mem_found m b f bl pre post n amount S hwf hamt hamt2 hS hpre hfit]
  by_cases hc : roundUp16 amount + 48 ≤ S
  · rw [if_pos hc]
    obtain ⟨m', h0, -⟩ :=
      alloc_split_core m b f n S (roundUp16 amount) hn1 (by omega) (by omega) (by omega)
        hRs.1 hc hS
    exact ⟨⟨m', b, f⟩, _, h0, by omega, by omega⟩
  · rw [if_neg hc]
    obtain ⟨m', h0, -⟩ := alloc_whole_wf m b f bl pre post n S hwf hS
    exact ⟨⟨m', b, f⟩, _, h0, by omega, by omega⟩

/-- The payload address of an allocated block is not a free-list node. -/
theorem wf_alloc_not_node {m : Mem} {b f : Int} {bl : List Block} {ns : List Int}
    (h : WellFormed ⟨m, b, f⟩ bl ns) {P : Block} (hP : P ∈ bl) (hPa : P.free = false) :
    P.addr ∉ ns := by
  intro hx
  obtain ⟨X, hX, hXf, hXa⟩ := h.node hx
  have ht : Tiles m (b + 16) bl (b + 1648) := h.2.2.2.2.2.1
  have h1 := ht.mem hX
  have h2 := ht.mem hP
  rcases ht.apart hX hP with e | e | e
  · rw [e, hPa] at hXf
    cases hXf
  · omega
  · omega

/-- Facts about a block of a well-formed state. -/
theorem wf_block {m : Mem} {b f : Int} {bl : List Block} {ns : List Int}
    (h : WellFormed ⟨m, b, f⟩ bl ns) {P : Block} (hP : P ∈ bl) :
    b + 32 ≤ P.addr ∧ P.addr + P.size + 16 ≤ b + 1648 ∧ 16 ≤ P.size ∧ P.size % 16 = 0 ∧
    rd8 m (P.addr - 16) = tagByte P.free ∧ rdLE m 4 (P.addr - 16 + 12) = P.size ∧
    rd8 m (P.addr + P.size) = tagByte P.free ∧ rdLE m 4 (P.addr + P.size + 12) = P.size := by
  have ht : Tiles m (b + 16) bl (b + 1648) := h.2.2.2.2.2.1
  have := ht.mem hP
  exact ⟨by omega, by omega, this.2.2.1, this.2.2.2.1, this.2.2.2.2.1.1, this.2.2.2.2.1.2,
    this.2.2.2.2.2.1, this.2.2.2.2.2.2⟩

/-- The memory left by case 1 of `release_mem`: the tags of the block, the four link
fields written, and the link fields that keep their value. -/
theorem release_case1_mem (m : Mem) (p s f F : Int)
    (hs : 16 ≤ s) (hpf : p + s + 16 ≤ f)
    (hF : F = f ∨ ((F + 16 ≤ p - 16 ∨ p + s + 16 ≤ F) ∧ F + 16 ≤ f))
    (hp0 : 0 ≤ p - 16) (hf64 : f < 18446744073709551616) (hF0 : 0 ≤ F) :
    rd8 (wrLE (wrLE (wrLE (wrLE (wr8 (wr8 m (p - 16) 0) (p + s) 0) 8 (f + 8) p) 8 p f)
      8 (p + 8) F) 8 F p) (p - 16) = 0 ∧
    rdLE (wrLE (wrLE (wrLE (wrLE (wr8 (wr8 m (p - 16) 0) (p + s) 0) 8 (f + 8) p) 8 p f)
      8 (p + 8) F) 8 F p) 4 (p - 16 + 12) = rdLE m 4 (p - 16 + 12) ∧
    rd8 (wrLE (wrLE (wrLE (wrLE (wr8 (wr8 m (p - 16) 0) (p + s) 0) 8 (f + 8) p) 8 p f)
      8 (p + 8) F) 8 F p) (p + s) = 0 ∧
    rdLE (wrLE (wrLE (wrLE (wrLE (wr8 (wr8 m (p - 16) 0) (p + s) 0) 8 (f + 8) p) 8 p f)
      8 (p + 8) F) 8 F p) 4 (p + s + 12) = rdLE m 4 (p + s + 12) ∧
    rdLE (wrLE (wrLE (wrLE (wrLE (wr8 (wr8 m (p - 16) 0) (p + s) 0) 8 (f + 8) p) 8 p f)
      8 (p + 8) F) 8 F p) 8 (f + 8) = p ∧
    rdLE (wrLE (wrLE (wrLE (wrLE (wr8 (wr8 m (p - 16) 0) (p + s) 0) 8 (f + 8) p) 8 p f)
      8 (p + 8) F) 8 F p) 8 p = f ∧
    rdLE (wrLE (wrLE (wrLE (wrLE (wr8 (wr8 m (p - 16) 0) (p + s) 0) 8 (f + 8) p) 8 p f)
      8 (p + 8) F) 8 F p) 8 (p + 8) = F ∧
    rdLE (wrLE (wrLE (wrLE (wrLE (wr8 (wr8 m (p - 16) 0) (p + s) 0) 8 (f + 8) p) 8 p f)
      8 (p + 8) F) 8 F p) 8 F = p ∧
    ∀ u, (u + 16 ≤ p - 16 ∨ p + s + 16 ≤ u) → (u = F ∨ u + 16 ≤ F ∨ F + 16 ≤ u) →
      (u = f ∨ u + 16 ≤ f) →
      (u ≠ f → rdLE (wrLE (wrLE (wrLE (wrLE (wr8 (wr8 m (p - 16) 0) (p + s) 0) 8 (f + 8) p)
        8 p f) 8 (p + 8) F) 8 F p) 8 (u + 8) = rdLE m 8 (u + 8)) ∧
      (u ≠ F → rdLE (wrLE (wrLE (wrLE (wrLE (wr8 (wr8 m (p - 16) 0) (p + s) 0) 8 (f + 8) p)
        8 p f) 8 (p + 8) F) 8 F p) 8 u = rdLE m 8 u) := by
  have e64p : p % 18446744073709551616 = p := by omega
  have e64f : f % 18446744073709551616 = f := by omega
  have e64F : F % 18446744073709551616 = F := by omega
  refine ⟨?_, ?_, ?_, ?_, ?_, ?_, ?_, ?_, ?_⟩
  · rw [rd8_wrLE _ _ _ _ _ (by omega), rd8_wrLE _ _ _ _ _ (by omega),
      rd8_wrLE _ _ _ _ _ (by omega), rd8_wrLE _ _ _ _ _ (by omega),
      rd8_wr8_ne _ _ _ _ (by omega), rd8_wr8_same]
    rfl
  · rw [rdLE_wrLE _ _ _ _ _ _ (by omega), rdLE_wrLE _ _ _ _ _ _ (by omega),
      rdLE_wrLE _ _ _ _ _ _ (by omega), rdLE_wrLE _ _ _ _ _ _ (by omega),
      rdLE_wr8 _ _ _ _ _ (by omega), rdLE_wr8 _ _ _ _ _ (by omega)]
  · rw [rd8_wrLE _ _ _ _ _ (by omega), rd8_wrLE _ _ _ _ _ (by omega),
      rd8_wrLE _ _ _ _ _ (by omega), rd8_wrLE _ _ _ _ _ (by omega), rd8_wr8_same]
    rfl
  · rw [rdLE_wrLE _ _ _ _ _ _ (by omega), rdLE_wrLE _ _ _ _ _ _ (by omega),
      rdLE_wrLE _ _ _ _ _ _ (by omega), rdLE_wrLE _ _ _ _ _ _ (by omega),
      rdLE_wr8 _ _ _ _ _ (by omega), rdLE_wr8 _ _ _ _ _ (by omega)]
  · rw [rdLE_wrLE _ _ _ _ _ _ (by omega), rdLE_wrLE _ _ _ _ _ _ (by omega),
      rdLE_wrLE _ _ _ _ _ _ (by omega), rdLE8_wrLE8_same, e64p]
  · rw [rdLE_wrLE _ _ _ _ _ _ (by omega), rdLE_wrLE _ _ _ _ _ _ (by omega),
      rdLE8_wrLE8_same, e64f]
  · rw [rdLE_wrLE _ _ _ _ _ _ (by omega), rdLE8_wrLE8_same, e64F]
  · rw [rdLE8_wrLE8_same, e64p]
  · intro u h1 h2 h3
    constructor
    · intro hne
      rw [rdLE_wrLE _ _ _ _ _ _ (by omega), rdLE_wrLE _ _ _ _ _ _ (by omega),
        rdLE_wrLE _ _ _ _ _ _ (by omega), rdLE_wrLE _ _ _ _ _ _ (by omega),
        rdLE_wr8 _ _ _ _ _ (by omega), rdLE_wr8 _ _ _ _ _ (by omega)]
    · intro hne
      rw [rdLE_wrLE _ _ _ _ _ _ (by omega), rdLE_wrLE _ _ _ _ _ _ (by omega),
        rdLE_wrLE _ _ _ _ _ _ (by omega), rdLE_wrLE _ _ _ _ _ _ (by omega),
        rdLE_wr8 _ _ _ _ _ (by omega), rdLE_wr8 _ _ _ _ _ (by omega)]

/-- In a well-formed state the header and the nodes lie outside the extent of an
allocated block, and below or at the header. -/
theorem wf_link_vs_alloc {m : Mem} {b f : Int} {bl : List Block} {ns : List Int} {P : Block}
    (hwf : WellFormed ⟨m, b, f⟩ bl ns) (hP : P ∈ bl) (hPa : P.free = false)
    {x : Int} (hx : x ∈ f :: ns) :
    (x + 16 ≤ P.addr - 16 ∨ P.addr + P.size + 16 ≤ x) ∧ (x = f ∨ x + 32 ≤ b + 1648) ∧
      b ≤ x := by
  have hpn := wf_alloc_not_node hwf hP hPa
  have p := wf_block hwf hP
  have hfl : f = b + 1664 := hwf.2.2.1
  have hxp : x ≠ P.addr := by
    intro e'
    rcases List.mem_cons.1 hx with e2 | e2
    · have := p.2.1
      omega
    · exact hpn (by rw [← e']; exact e2)
  refine ⟨wf_link_vs_block hwf hx hP hxp, ?_, ?_⟩
  · rcases List.mem_cons.1 hx with e | e
    · exact Or.inl e
    · obtain ⟨_, -, -, -, h1, h2, h3, -, -⟩ := wf_node_block hwf e
      right; omega
  · rcases List.mem_cons.1 hx with e | e
    · omega
    · obtain ⟨_, -, -, -, h1, h2, h3, -, -⟩ := wf_node_block hwf e
      omega

/-- C5 (release case 1): in a well-formed state, releasing an allocated block `P` whose
two physical neighbour tags (at `P.addr - 32` and just above its end tag) both show
allocated returns 0, turns both tags of `P` to free with the size unchanged, and makes the
free list `P.addr :: ns`: the block is the header's successor and the old nodes follow
in their old order with consistent forward and backward links. -/
theorem release_mem_case1 (s : State) (bl : List Block) (ns : List Int) (P : Block)
    (hwf : WellFormed s bl ns) (hP : P ∈ bl) (hPa : P.free = false)
    (hlo : rd8 s.mem (P.addr - 32) = 1) (hhi : rd8 s.mem (P.addr + P.size + 16) = 1) :
    ∃ s', release_mem s P.addr = some (s', 0) ∧
      TagIs s'.mem (P.addr - 16) true P.size ∧
      TagIs s'.mem (P.addr + P.size) true P.size ∧
      FreeList s' (P.addr :: ns) := by
  obtain ⟨m, b, f⟩ := s
  dsimp only at hlo hhi
  have hfl : f = b + 1664 := hwf.2.2.1
  have hb0 : 0 < b := hwf.1
  have hb1 : b + 1680 ≤ 18446744073709551616 := hwf.2.1
  have hseg : Seg m f ns f := hwf.2.2.2.2.2.2.1
  obtain ⟨p1, p2, p3, p4, p5, p6, p7, p8⟩ := wf_block hwf hP
  rw [hPa] at p5 p7
  have hlo' : rd8 m (P.addr - 16 - 16) = 1 := by
    rw [show P.addr - 16 - 16 = P.addr - 32 by omega]; exact hlo
  have hd := release_mem_dispatch m b f P.addr P.size (by omega) (by omega) (by omega)
    (by omega) (by omega) p4 p5 p6 p7 (by rw [p8]; omega)
  have hFm : rdLE m 8 (f + 8) ∈ f :: ns := by
    rcases List.mem_append.1 hseg.fwd_mem with e | e
    · exact List.mem_cons_of_mem _ e
    · rw [List.mem_singleton.1 e]; exact List.mem_cons_self _ _
  have hFa := wf_link_vs_alloc hwf hP hPa hFm
  rw [if_pos ⟨by rw [hhi]; decide, by rw [hlo']; decide⟩,
    release_case1_core m b f P.addr P.size _ hb0 hb1 hfl p1 p2 p3 rfl (by omega)] at hd
  obtain ⟨r1, r2, r3, r4, r5, r6, r7, r8, r9⟩ :=
    release_case1_mem m P.addr P.size f (rdLE m 8 (f + 8)) p3 (by omega) (by omega)
      (by omega) (by omega) (by omega)
  refine ⟨_, hd, ⟨r1, r2.trans p6⟩, ⟨r3, r4.trans p8⟩, ?_⟩
  show Seg _ f (P.addr :: ns) f
  have hnd := wf_nodup_cons hwf
  refine Seg.insert_head hseg hwf.nodup (List.nodup_cons.1 hnd).1 r5 r6 r7 r8 ?_ ?_
  · intro u hu
    have hum : u ∈ f :: ns := List.mem_cons_of_mem _ hu
    have a1 := wf_link_vs_alloc hwf hP hPa hum
    have a2 := wf_link_apart hwf hum hFm
    have hne : u ≠ f := fun e => (List.nodup_cons.1 hnd).1 (by rw [← e]; exact hu)
    exact (r9 u a1.1 a2 (by omega)).1 hne
  · intro v hv hne
    have hvm : v ∈ f :: ns := by
      rcases List.mem_append.1 hv with e | e
      · exact List.mem_cons_of_mem _ e
      · rw [List.mem_singleton.1 e]; exact List.mem_cons_self _ _
    have a1 := wf_link_vs_alloc hwf hP hPa hvm
    have a2 := wf_link_apart hwf hvm hFm
    exact (r9 v a1.1 a2 (by omega)).2 hne

/-- The memory left by case 2 of `release_mem`: the two outer tags of the merged block
and the bytes that keep their value. -/
theorem release_case2_mem (m : Mem) (l p sz t : Int)
    (hp : p = l + t + 32) (ht : 16 ≤ t) (hs : 16 ≤ sz) (hlt : t + sz + 32 < 4294967296) :
    rd8 (wrLE (wrLE (wr8 (wr8 m (l - 16) 0) (p + sz) 0) 4 (l - 16 + 12) (t + sz + 32))
      4 (p + sz + 12) (t + sz + 32)) (l - 16) = 0 ∧
    rdLE (wrLE (wrLE (wr8 (wr8 m (l - 16) 0) (p + sz) 0) 4 (l - 16 + 12) (t + sz + 32))
      4 (p + sz + 12) (t + sz + 32)) 4 (l - 16 + 12) = t + sz + 32 ∧
    rd8 (wrLE (wrLE (wr8 (wr8 m (l - 16) 0) (p + sz) 0) 4 (l - 16 + 12) (t + sz + 32))
      4 (p + sz + 12) (t + sz + 32)) (p + sz) = 0 ∧
    rdLE (wrLE (wrLE (wr8 (wr8 m (l - 16) 0) (p + sz) 0) 4 (l - 16 + 12) (t + sz + 32))
      4 (p + sz + 12) (t + sz + 32)) 4 (p + sz + 12) = t + sz + 32 ∧
    ∀ x, (x + 8 ≤ l - 16 ∨ l ≤ x) → (x + 8 ≤ p + sz ∨ p + sz + 16 ≤ x) →
      rdLE (wrLE (wrLE (wr8 (wr8 m (l - 16) 0) (p + sz) 0) 4 (l - 16 + 12) (t + sz + 32))
        4 (p + sz + 12) (t + sz + 32)) 8 x = rdLE m 8 x := by
  have e32 : (t + sz + 32) % 4294967296 = t + sz + 32 := by omega
  refine ⟨?_, ?_, ?_, ?_, ?_⟩
  · rw [rd8_wrLE _ _ _ _ _ (by omega), rd8_wrLE _ _ _ _ _ (by omega),
      rd8_wr8_ne _ _ _ _ (by omega), rd8_wr8_same]
    rfl
  · rw [rdLE_wrLE _ _ _ _ _ _ (by omega), rdLE4_wrLE4_same, e32]
  · rw [rd8_wrLE _ _ _ _ _ (by omega), rd8_wrLE _ _ _ _ _ (by omega), rd8_wr8_same]
    rfl
  · rw [rdLE4_wrLE4_same, e32]
  · intro x h1 h2
    rw [rdLE_wrLE _ _ _ _ _ _ (by omega), rdLE_wrLE _ _ _ _ _ _ (by omega),
      rdLE_wr8 _ _ _ _ _ (by omega), rdLE_wr8 _ _ _ _ _ (by omega)]

/-- In a well-formed state the link fields of the header and of every node lie outside
the tags rewritten by case 2 (the start tag of `L` and the end tag of `P`). -/
theorem wf_case2_frame {m : Mem} {b f : Int} {bl : List Block} {ns : List Int} {L P : Block}
    (hwf : WellFormed ⟨m, b, f⟩ bl ns) (hL : L ∈ bl) (hP : P ∈ bl)
    (hadj : P.addr = L.addr + L.size + 32) (hPa : P.free = false)
    {x : Int} (hx : x ∈ f :: ns) :
    (x + 16 ≤ L.addr - 16 ∨ L.addr ≤ x) ∧
      (x + 16 ≤ P.addr + P.size ∨ P.addr + P.size + 16 ≤ x) := by
  have hpn := wf_alloc_not_node hwf hP hPa
  have p := wf_block hwf hP
  have l := wf_block hwf hL
  have hfl : f = b + 1664 := hwf.2.2.1
  by_cases e : x = L.addr
  · have h1 := l.2.2.1
    have h2 := p.2.2.1
    clear hpn p l hfl hwf
    omega
  · have a1 := wf_link_vs_block hwf hx hL e
    have hxp : x ≠ P.addr := by
      intro e'
      rcases List.mem_cons.1 hx with e2 | e2
      · have := p.2.1
        omega
      · exact hpn (by rw [← e']; exact e2)
    have a2 := wf_link_vs_block hwf hx hP hxp
    have h1 := l.2.2.1
    have h2 := p.2.2.1
    clear hpn p l hfl hwf e hxp
    omega

/-- C6 (release case 2): in a well-formed state, releasing an allocated block `P` whose
lower-address neighbour `L` is free and whose higher-address neighbour tag shows
allocated returns 0; afterwards the start tag of `L` and the old end tag of `P` are both
free and record `L.size + P.size + 32`, and the two link fields of the header and of
every free-list node are unchanged, so the free list is the same list `ns`. -/
theorem release_mem_case2 (s : State) (bl : List Block) (ns : List Int) (L P : Block)
    (hwf : WellFormed s bl ns) (hL : L ∈ bl) (hP : P ∈ bl)
    (hadj : P.addr = L.addr + L.size + 32)
    (hLf : L.free = true) (hPa : P.free = false)
    (hhi : rd8 s.mem (P.addr + P.size + 16) = 1) :
    ∃ s', release_mem s P.addr = some (s', 0) ∧
      TagIs s'.mem (L.addr - 16) true (L.size + P.size + 32) ∧
      TagIs s'.mem (P.addr + P.size) true (L.size + P.size + 32) ∧
      (∀ x ∈ s.free_list :: ns,
        rdLE s'.mem 8 x = rdLE s.mem 8 x ∧ rdLE s'.mem 8 (x + 8) = rdLE s.mem 8 (x + 8)) ∧
      FreeList s' ns := by
  obtain ⟨m, b, f⟩ := s
  dsimp only at hhi ⊢
  have hfl : f = b + 1664 := hwf.2.2.1
  have hb0 : 0 < b := hwf.1
  have hseg : Seg m f ns f := hwf.2.2.2.2.2.2.1
  obtain ⟨p1, p2, p3, p4, p5, p6, p7, p8⟩ := wf_block hwf hP
  obtain ⟨l1, l2, l3, l4, l5, l6, l7, l8⟩ := wf_block hwf hL
  rw [hPa] at p5 p7
  rw [hLf] at l5 l7
  have t3 : rd8 m (P.addr - 16 - 16) = 0 := by
    rw [show P.addr - 16 - 16 = L.addr + L.size by omega]; exact l7
  have t4 : rdLE m 4 (P.addr - 16 - 16 + 12) = L.size := by
    rw [show P.addr - 16 - 16 + 12 = L.addr + L.size + 12 by omega]; exact l8
  have hd := release_mem_dispatch m b f P.addr P.size (by omega) (by omega) (by omega)
    (by omega) (by omega) p4 p5 p6 p7 (by rw [p8]; omega)
  rw [if_neg (by rw [t3]; simp), if_pos ⟨by rw [hhi]; decide, t3⟩,
    release_case2_core m b f P.addr P.size L.addr L.size l1 hadj (by omega) l3 l4 p3 p6 t4 l6]
    at hd
  obtain ⟨r1, r2, r3, r4, r5⟩ :=
    release_case2_mem m L.addr P.addr P.size L.size hadj l3 p3 (by omega)
  have hlinks : ∀ x ∈ f :: ns,
      rdLE (wrLE (wrLE (wr8 (wr8 m (L.addr - 16) 0) (P.addr + P.size) 0) 4 (L.addr - 16 + 12)
        (L.size + P.size + 32)) 4 (P.addr + P.size + 12) (L.size + P.size + 32)) 8 x
        = rdLE m 8 x ∧
      rdLE (wrLE (wrLE (wr8 (wr8 m (L.addr - 16) 0) (P.addr + P.size) 0) 4 (L.addr - 16 + 12)
        (L.size + P.size + 32)) 4 (P.addr + P.size + 12) (L.size + P.size + 32)) 8 (x + 8)
        = rdLE m 8 (x + 8) := by
    intro x hx
    have := wf_case2_frame hwf hL hP hadj hPa hx
    exact ⟨r5 x (by omega) (by omega), r5 (x + 8) (by omega) (by omega)⟩
  refine ⟨_, hd, ⟨r1, r2⟩, ⟨r3, r4⟩, hlinks, ?_⟩
  show Seg _ f ns f
  refine hseg.congr ?_ ?_
  · intro u hu
    exact (hlinks u hu).2
  · intro v hv
    refine (hlinks v ?_).1
    rcases List.mem_append.1 hv with e | e
    · exact List.mem_cons_of_mem _ e
    · rw [List.mem_singleton.1 e]; exact List.mem_cons_self _ _

theorem rd8_wr8_eq (m : Mem) (a v a' : Int) (h : a' = a) : rd8 (wr8 m a v) a' = v % 256 := by
  rw [h, rd8_wr8_same]

theorem rdLE4_wrLE4_eq (m : Mem) (a v a' : Int) (h : a' = a) :
    rdLE (wrLE m 4 a v) 4 a' = v % 4294967296 := by
  rw [h, rdLE4_wrLE4_same]

theorem rdLE8_wrLE8_eq (m : Mem) (a v a' : Int) (h : a' = a) :
    rdLE (wrLE m 8 a v) 8 a' = v % 18446744073709551616 := by
  rw [h, rdLE8_wrLE8_same]

/-- The memory written by `init_region`. -/
theorem init_region_eq (m0 : Mem) (base : Int) (hb : base ≠ 0) :
    ∃ m, init_region m0 base = some ⟨m, base, base + 1664⟩ ∧
      rd8 m base = 1 ∧ rd8 m (base + 16) = 0 ∧ rdLE m 4 (base + 16 + 12) = 1600 ∧
      rd8 m (base + 1632) = 0 ∧ rdLE m 4 (base + 1632 + 12) = 1600 ∧
      rd8 m (base + 1648) = 1 ∧ rdLE m 4 (base + 1648 + 12) = 0 ∧
      rdLE m 4 (base + 12) = 0 ∧
      rdLE m 8 (base + 32) = (base + 1664) % 18446744073709551616 ∧
      rdLE m 8 (base + 32 + 8) = (base + 1664) % 18446744073709551616 ∧
      rdLE m 8 (base + 1664) = (base + 32) % 18446744073709551616 ∧
      rdLE m 8 (base + 1664 + 8) = (base + 32) % 18446744073709551616 := by
  refine ⟨_, by rw [init_region, if_neg hb], ?_⟩
  simp only [wrStr, sig_end_region, sig_top_region, sig_top_memblk, sig_end_memblk]
  refine ⟨?_, ?_, ?_, ?_, ?_, ?_, ?_, ?_, ?_, ?_, ?_, ?_⟩
  all_goals
    repeat (first
      | rw [rdLE8_wrLE8_eq _ _ _ _ (by omega)]
      | rw [rdLE4_wrLE4_eq _ _ _ _ (by omega)]
      | rw [rd8_wr8_eq _ _ _ _ (by omega)]
      | rw [rdLE_wrLE _ _ _ _ _ _ (by omega)]
      | rw [rdLE_wr8 _ _ _ _ _ (by omega)]
      | rw [rd8_wrLE _ _ _ _ _ (by omega)]
      | rw [rd8_wr8_ne _ _ _ _ (by omega)])
  all_goals rfl

/-- The state produced by `init_region` is well formed: one free block of 1600 bytes. -/
theorem init_region_wellFormed (m0 : Mem) (base : Int) (s0 : State)
    (hb : 0 < base) (hb2 : base + 1680 ≤ 18446744073709551616)
    (h : init_region m0 base = some s0) :
    WellFormed s0 [⟨base + 32, 1600, true⟩] [base + 32] ∧
      s0.region_base = base ∧ s0.free_list = base + 1664 := by
  obtain ⟨m, hm, i1, i2, i3, i4, i5, i6, i7, i8, i9, i10, i11, i12⟩ :=
    init_region_eq m0 base (by omega)
  rw [hm] at h
  cases h
  have e1 : (base + 1664) % 18446744073709551616 = base + 1664 := by omega
  have e2 : (base + 32) % 18446744073709551616 = base + 32 := by omega
  rw [e1] at i9 i10
  rw [e2] at i11 i12
  refine ⟨⟨hb, hb2, rfl, i1, i6, ?_, ?_, ?_⟩, rfl, rfl⟩
  · refine ⟨by ring, by norm_num, by norm_num, ⟨?_, ?_⟩, ⟨?_, ?_⟩, ?_⟩
    · exact i2
    · exact i3
    · show rd8 m (base + 32 + 1600) = 0
      rw [show base + 32 + 1600 = base + 1632 by omega]; exact i4
    · show rdLE m 4 (base + 32 + 1600 + 12) = 1600
      rw [show base + 32 + 1600 + 12 = base + 1632 + 12 by omega]; exact i5
    · show base + 32 + 1600 + 16 = base + 1648
      omega
  · exact ⟨i12, i9, i10, i11⟩
  · exact List.Perm.refl _

/-- Round trip from the initial layout when the request leaves room for a split:
`alloc_split` followed by case 2 of `release_mem`. -/
theorem round_trip_split (m : Mem) (base R : Int)
    (hb : 0 < base) (hb2 : base + 1680 ≤ 18446744073709551616)
    (hR : 16 ≤ R) (hR16 : R % 16 = 0) (hc : R + 48 ≤ 1600)
    (i3 : rdLE m 4 (base + 32 - 16 + 12) = 1600)
    (i6 : rd8 m (base + 1648) = 1)
    (i9 : rdLE m 8 (base + 32) = base + 1664)
    (i10 : rdLE m 8 (base + 32 + 8) = base + 1664)
    (i11 : rdLE m 8 (base + 1664) = base + 32)
    (i12 : rdLE m 8 (base + 1664 + 8) = base + 32) :
    ∃ m1 p m2, alloc_split ⟨m, base, base + 1664⟩ R (base + 32 - 16)
        = some (⟨m1, base, base + 1664⟩, p) ∧ p ≠ 0 ∧
      release_mem ⟨m1, base, base + 1664⟩ p = some (⟨m2, base, base + 1664⟩, 0) ∧
      Seg m2 (base + 1664) [base + 32] (base + 1664) ∧
      TagIs m2 (base + 16) true 1600 ∧ TagIs m2 (base + 1632) true 1600 := by
  obtain ⟨m1, a0, a1, a2, a3, a4, a5, a6, a7, a8, afr⟩ :=
    alloc_split_core m base (base + 1664) (base + 32) 1600 R
      (by omega) (by omega) (by norm_num) hR hR16 hc i3
  obtain ⟨p, hp⟩ : ∃ p, base + 32 + 1600 - R = p := ⟨_, rfl⟩
  rw [hp] at a0 a5 a6
  have b1 : rd8 m1 (p - 16) = 1 := a5
  have b2 : rdLE m1 4 (p - 16 + 12) = R := a6
  have b3 : rd8 m1 (p + R) = 1 := by
    rw [show p + R = base + 32 + 1600 by omega]; exact a7
  have b4 : rdLE m1 4 (p + R + 12) = R := by
    rw [show p + R + 12 = base + 32 + 1600 + 12 by omega]; exact a8
  have b5 : rd8 m1 (p + R + 16) = 1 := by
    rw [rd8_congr (afr _ (by omega) (by omega) (by omega)),
      show p + R + 16 = base + 1648 by omega]
    exact i6
  have b6 : rd8 m1 (p - 16 - 16) = 0 := by
    rw [show p - 16 - 16 = base + 32 + (1600 - R - 32) by omega]; exact a3
  have b7 : rdLE m1 4 (p - 16 - 16 + 12) = 1600 - R - 32 := by
    rw [show p - 16 - 16 + 12 = base + 32 + (1600 - R - 32) + 12 by omega]; exact a4
  have hrel : release_mem ⟨m1, base, base + 1664⟩ p = _ :=
    release_mem_dispatch m1 base (base + 1664) p R (by omega) (by omega) (by omega)
      (by omega) (by omega) hR16 b1 b2 b3 (by rw [b4]; omega)
  rw [if_neg (by rw [b6]; simp), if_pos ⟨by rw [b5]; decide, b6⟩,
    release_case2_core m1 base (base + 1664) p R (base + 32) (1600 - R - 32) (by omega)
      (by omega) (by omega) (by omega) (by omega) (by omega) b2 b7 a2] at hrel
  have e3 : (1600 - R - 32 + R + 32) % 4294967296 = 1600 := by omega
  have hp' : p + R = base + 1632 := by omega
  clear a1 a2 a3 a4 a5 a6 a7 a8 b1 b2 b3 b4 b5 b6 b7 i3 i6 hb2 hR16
  have lk : ∀ x, x = base + 32 ∨ x = base + 32 + 8 ∨ x = base + 1664 ∨ x = base + 1664 + 8 →
      rdLE (wrLE (wrLE (wr8 (wr8 m1 (base + 32 - 16) 0) (p + R) 0) 4 (base + 32 - 16 + 12)
        (1600 - R - 32 + R + 32)) 4 (p + R + 12) (1600 - R - 32 + R + 32)) 8 x
        = rdLE m 8 x := by
    intro x hx
    rw [rdLE_wrLE _ _ _ _ _ _ (by omega), rdLE_wrLE _ _ _ _ _ _ (by omega),
      rdLE_wr8 _ _ _ _ _ (by omega), rdLE_wr8 _ _ _ _ _ (by omega)]
    apply rdLE_congr
    intro i hi1 hi2
    exact afr i (by omega) (by omega) (by omega)
  refine ⟨_, _, _, a0, by omega, hrel, ⟨?_, ?_, ?_, ?_⟩, ⟨?_, ?_⟩, ⟨?_, ?_⟩⟩
  · rw [lk _ (by omega), i12]
  · rw [lk _ (by omega), i9]
  · rw [lk _ (by omega), i10]
  · rw [lk _ (by omega), i11]
  · show rd8 _ (base + 16) = 0
    rw [rd8_wrLE _ _ _ _ _ (by omega), rd8_wrLE _ _ _ _ _ (by omega),
      rd8_wr8_ne _ _ _ _ (by omega), rd8_wr8_eq _ _ _ _ (by omega)]
    rfl
  · show rdLE _ 4 (base + 16 + 12) = 1600
    rw [rdLE_wrLE _ _ _ _ _ _ (by omega), rdLE4_wrLE4_eq _ _ _ _ (by omega), e3]
  · show rd8 _ (base + 1632) = 0
    rw [rd8_wrLE _ _ _ _ _ (by omega), rd8_wrLE _ _ _ _ _ (by omega),
      rd8_wr8_eq _ _ _ _ (by omega)]
    rfl
  · show rdLE _ 4 (base + 1632 + 12) = 1600
    rw [rdLE4_wrLE4_eq _ _ _ _ (by omega), e3]

/-- Round trip from the initial layout when the whole block is handed out:
`alloc_whole` followed by case 1 of `release_mem`. -/
theorem round_trip_whole (m : Mem) (base : Int)
    (hb : 0 < base) (hb2 : base + 1680 ≤ 18446744073709551616)
    (i1 : rd8 m base = 1)
    (i3 : rdLE m 4 (base + 32 - 16 + 12) = 1600)
    (i6 : rd8 m (base + 1648) = 1)
    (i9 : rdLE m 8 (base + 32) = base + 1664)
    (i10 : rdLE m 8 (base + 32 + 8) = base + 1664) :
    ∃ m1 m2, alloc_whole ⟨m, base, base + 1664⟩ (base + 32) (base + 32 - 16) (base + 32)
        = some (⟨m1, base, base + 1664⟩, base + 32) ∧
      release_mem ⟨m1, base, base + 1664⟩ (base + 32) = some (⟨m2, base, base + 1664⟩, 0) ∧
      Seg m2 (base + 1664) [base + 32] (base + 1664) ∧
      TagIs m2 (base + 16) true 1600 ∧ TagIs m2 (base + 1632) true 1600 := by
  have a0 := alloc_whole_core m base (base + 1664) (base + 32) 1600 (base + 1664) (base + 1664)
    (by omega) (by omega) (by omega) (by norm_num) i3 i9 i10 (by omega) (by omega) (by omega)
  obtain ⟨m1, hm1⟩ : ∃ m1, m1 = wrLE (wrLE (wr8 (wrLE (wr8 m (base + 32 - 16) 1) 4
      (base + 32 + 1600 + 12) 1600) (base + 32 + 1600) 1) 8 (base + 1664 + 8) (base + 1664))
      8 (base + 1664) (base + 1664) := ⟨_, rfl⟩
  rw [← hm1] at a0
  have e64 : (base + 1664) % 18446744073709551616 = base + 1664 := by omega
  have e64' : (base + 32) % 18446744073709551616 = base + 32 := by omega
  have b1 : rd8 m1 (base + 32 - 16) = 1 := by
    rw [hm1, rd8_wrLE _ _ _ _ _ (by omega), rd8_wrLE _ _ _ _ _ (by omega),
      rd8_wr8_ne _ _ _ _ (by omega), rd8_wrLE _ _ _ _ _ (by omega), rd8_wr8_same]
    rfl
  have b2 : rdLE m1 4 (base + 32 - 16 + 12) = 1600 := by
    rw [hm1, rdLE_wrLE _ _ _ _ _ _ (by omega), rdLE_wrLE _ _ _ _ _ _ (by omega),
      rdLE_wr8 _ _ _ _ _ (by omega), rdLE_wrLE _ _ _ _ _ _ (by omega),
      rdLE_wr8 _ _ _ _ _ (by omega), i3]
  have b3 : rd8 m1 (base + 32 + 1600) = 1 := by
    rw [hm1, rd8_wrLE _ _ _ _ _ (by omega), rd8_wrLE _ _ _ _ _ (by omega), rd8_wr8_same]
    rfl
  have b4 : rdLE m1 4 (base + 32 + 1600 + 12) = 1600 := by
    rw [hm1, rdLE_wrLE _ _ _ _ _ _ (by omega), rdLE_wrLE _ _ _ _ _ _ (by omega),
      rdLE_wr8 _ _ _ _ _ (by omega), rdLE4_wrLE4_same]
    rfl
  have b5 : rd8 m1 (base + 32 + 1600 + 16) = 1 := by
    rw [hm1, rd8_wrLE _ _ _ _ _ (by omega), rd8_wrLE _ _ _ _ _ (by omega),
      rd8_wr8_ne _ _ _ _ (by omega), rd8_wrLE _ _ _ _ _ (by omega),
      rd8_wr8_ne _ _ _ _ (by omega), show base + 32 + 1600 + 16 = base + 1648 by omega]
    exact i6
  have b6 : rd8 m1 (base + 32 - 16 - 16) = 1 := by
    rw [hm1, rd8_wrLE _ _ _ _ _ (by omega), rd8_wrLE _ _ _ _ _ (by omega),
      rd8_wr8_ne _ _ _ _ (by omega), rd8_wrLE _ _ _ _ _ (by omega),
      rd8_wr8_ne _ _ _ _ (by omega), show base + 32 - 16 - 16 = base by omega]
    exact i1
  have b7 : rdLE m1 8 (base + 1664 + 8) = base + 1664 := by
    rw [hm1, rdLE_wrLE _ _ _ _ _ _ (by omega), rdLE8_wrLE8_same, e64]
  have hrel : release_mem ⟨m1, base, base + 1664⟩ (base + 32) = _ :=
    release_mem_dispatch m1 base (base + 1664) (base + 32) 1600 (by omega) (by omega)
      (by omega) (by omega) (by omega) (by norm_num) b1 b2 b3 (by rw [b4]; omega)
  rw [if_pos ⟨by rw [b5]; decide, by rw [b6]; decide⟩,
    release_case1_core m1 base (base + 1664) (base + 32) 1600 (base + 1664) hb hb2 rfl
      (by omega) (by omega) (by omega) b7 (Or.inl rfl)] at hrel
  clear b1 b3 b5 b6 b7 i1 i6 i9 i10 hm1
  refine ⟨_, _, a0, hrel, ⟨?_, ?_, ?_, ?_⟩, ⟨?_, ?_⟩, ⟨?_, ?_⟩⟩
  · rw [rdLE_wrLE _ _ _ _ _ _ (by omega), rdLE_wrLE _ _ _ _ _ _ (by omega),
      rdLE_wrLE _ _ _ _ _ _ (by omega), rdLE8_wrLE8_same, e64']
  · rw [rdLE_wrLE _ _ _ _ _ _ (by omega), rdLE_wrLE _ _ _ _ _ _ (by omega),
      rdLE8_wrLE8_same, e64]
  · rw [rdLE_wrLE _ _ _ _ _ _ (by omega), rdLE8_wrLE8_same, e64]
  · rw [rdLE8_wrLE8_same, e64']
  · show rd8 _ (base + 16) = 0
    rw [rd8_wrLE _ _ _ _ _ (by omega), rd8_wrLE _ _ _ _ _ (by omega),
      rd8_wrLE _ _ _ _ _ (by omega), rd8_wrLE _ _ _ _ _ (by omega),
      rd8_wr8_ne _ _ _ _ (by omega), rd8_wr8_eq _ _ _ _ (by omega)]
    rfl
  · show rdLE _ 4 (base + 16 + 12) = 1600
    rw [rdLE_wrLE _ _ _ _ _ _ (by omega), rdLE_wrLE _ _ _ _ _ _ (by omega),
      rdLE_wrLE _ _ _ _ _ _ (by omega), rdLE_wrLE _ _ _ _ _ _ (by omega),
      rdLE_wr8 _ _ _ _ _ (by omega), rdLE_wr8 _ _ _ _ _ (by omega),
      show base + 16 + 12 = base + 32 - 16 + 12 by omega, b2]
  · show rd8 _ (base + 1632) = 0
    rw [rd8_wrLE _ _ _ _ _ (by omega), rd8_wrLE _ _ _ _ _ (by omega),
      rd8_wrLE _ _ _ _ _ (by omega), rd8_wrLE _ _ _ _ _ (by omega),
      rd8_wr8_eq _ _ _ _ (by omega)]
    rfl
  · show rdLE _ 4 (base + 1632 + 12) = 1600
    rw [rdLE_wrLE _ _ _ _ _ _ (by omega), rdLE_wrLE _ _ _ _ _ _ (by omega),
      rdLE_wrLE _ _ _ _ _ _ (by omega), rdLE_wrLE _ _ _ _ _ _ (by omega),
      rdLE_wr8 _ _ _ _ _ (by omega), rdLE_wr8 _ _ _ _ _ (by omega),
      show base + 1632 + 12 = base + 32 + 1600 + 12 by omega, b4]

/-- C9 (round trip): from the state produced by `init_region`, for every amount between 1
and 1600, `alloc_mem` returns a non-NULL address, the immediately following
`release_mem` of it returns 0, and afterwards the free list is the single node at offset
32, linked with the header in both directions, whose start and end tags (offsets 16 and
1632) are free with size 1600. -/
theorem alloc_release_round_trip (m0 : Mem) (base amount : Int) (s0 : State)
    (hb : 0 < base) (hb2 : base + 1680 ≤ 18446744073709551616)
    (h : init_region m0 base = some s0)
    (h1 : 1 ≤ amount) (h2 : amount ≤ 1600) :
    ∃ s1 p s2, alloc_mem s0 amount = some (s1, p) ∧ p ≠ 0 ∧
      release_mem s1 p = some (s2, 0) ∧
      s2.free_list = base + 1664 ∧
      FreeList s2 [base + 32] ∧
      TagIs s2.mem (base + 16) true 1600 ∧ TagIs s2.mem (base + 1632) true 1600 := by
  obtain ⟨hwf, -, -⟩ := init_region_wellFormed m0 base s0 hb hb2 h
  obtain ⟨m, hm, i1, i2, i3, i4, i5, i6, i7, i8, i9, i10, i11, i12⟩ :=
    init_region_eq m0 base (by omega)
  rw [hm] at h
  cases h
  have e1 : (base + 1664) % 18446744073709551616 = base + 1664 := by omega
  have e2 : (base + 32) % 18446744073709551616 = base + 32 := by omega
  rw [e1] at i9 i10
  rw [e2] at i11 i12
  have hRs := roundUp16_spec amount
  have hS : rdLE m 4 (base + 32 - 16 + 12) = 1600 := by
    rw [show base + 32 - 16 + 12 = base + 16 + 12 by omega]; exact i3
  have hfound := alloc_mem_found m base (base + 1664) [⟨base + 32, 1600, true⟩] [] []
    (base + 32) amount 1600 hwf (by omega) (by omega) hS (by simp) (by omega)
  by_cases hc : roundUp16 amount + 48 ≤ 1600
  · rw [if_pos hc] at hfound
    obtain ⟨m1, p, m2, r1, r2, r3, r4, r5, r6⟩ := round_trip_split m base (roundUp16 amount)
      hb hb2 (by omega) hRs.1 hc hS i6 i9 i10 i11 i12
    exact ⟨_, _, _, hfound.trans r1, r2, r3, rfl, r4, r5, r6⟩
  · rw [if_neg hc] at hfound
    obtain ⟨m1, m2, r1, r3, r4, r5, r6⟩ := round_trip_whole m base hb hb2 i1 hS i6 i9 i10
    exact ⟨_, _, _, hfound.trans r1, by omega, r3, rfl, r4, r5, r6⟩

/-- Witness for C2: `alloc_mem(16)` on the initial state splits the 1600-byte block. -/
theorem alloc_mem_split_policy_witness :
    WellFormed state_init [⟨base0 + 32, 1600, true⟩] ([] ++ (base0 + 32) :: []) ∧
    ∃ s', alloc_mem state_init 16 = some (s', base0 + 1632 - 16) ∧
      TagIs s'.mem (base0 + 32 - 16) true (1600 - 16 - 32) ∧
      TagIs s'.mem (base0 + 32 + (1600 - 16 - 32)) true (1600 - 16 - 32) ∧
      TagIs s'.mem (base0 + 1632 - 16 - 16) false 16 ∧
      TagIs s'.mem (base0 + 1632) false 16 :=
  ⟨by decide!, alloc_mem_split_policy state_init [⟨base0 + 32, 1600, true⟩] [] []
    (base0 + 32) 16 16 1600 (base0 + 1632) (by decide!) (by decide) (by decide) (by decide)
    (by simp) (by decide!) (by decide) (by decide) (by decide)⟩

/-- Witness for C3: `alloc_mem(1600)` on the initial state hands out the whole block. -/
theorem alloc_mem_whole_block_policy_witness :
    WellFormed state_init [⟨base0 + 32, 1600, true⟩] ([] ++ (base0 + 32) :: []) ∧
    ∃ s', alloc_mem state_init 1600 = some (s', base0 + 32) ∧
      TagIs s'.mem (base0 + 32 - 16) false 1600 ∧ TagIs s'.mem (base0 + 32 + 1600) false 1600 ∧
      FreeList s' ([] ++ []) :=
  ⟨by decide!, alloc_mem_whole_block_policy state_init [⟨base0 + 32, 1600, true⟩] [] []
    (base0 + 32) 1600 1600 1600 (by decide!) (by decide) (by decide) (by decide)
    (by simp) (by decide!) (by decide) (by decide)⟩

/-- Witness for C4: with free list `[1616 (16 bytes), 32 (1504 bytes)]` a request of 100
bytes skips the first node and is served from the node at offset 32. -/
theorem alloc_mem_first_fit_witness :
    WellFormed (stateAfter calls_two)
      [⟨base0 + 32, 1504, true⟩, ⟨base0 + 1568, 16, false⟩, ⟨base0 + 1616, 16, true⟩]
      ([base0 + 1616] ++ (base0 + 32) :: []) ∧
    ∃ s' p, alloc_mem (stateAfter calls_two) 100 = some (s', p) ∧
      base0 + 32 ≤ p ∧ p < base0 + 32 + 1504 :=
  ⟨by decide!, alloc_mem_first_fit (stateAfter calls_two)
    [⟨base0 + 32, 1504, true⟩, ⟨base0 + 1568, 16, false⟩, ⟨base0 + 1616, 16, true⟩]
    [base0 + 1616] [] (base0 + 32) 100 1504 (by decide!) (by decide) (by decide)
    (by decide!) (by decide!) (by decide)⟩

/-- Witness for C5: releasing the single allocated block that fills the region. -/
theorem release_mem_case1_witness :
    WellFormed (stateAfter calls_full) [⟨base0 + 32, 1600, false⟩] [] ∧
    ∃ s', release_mem (stateAfter calls_full) (base0 + 32) = some (s', 0) ∧
      TagIs s'.mem (base0 + 32 - 16) true 1600 ∧
      TagIs s'.mem (base0 + 32 + 1600) true 1600 ∧
      FreeList s' [base0 + 32] :=
  ⟨by decide!, release_mem_case1 (stateAfter calls_full) [⟨base0 + 32, 1600, false⟩] []
    ⟨base0 + 32, 1600, false⟩ (by decide!) (by simp) rfl (by decide!) (by decide!)⟩

/-- Witness for C6: releasing the 16-byte block allocated above a free remainder. -/
theorem release_mem_case2_witness :
    WellFormed (stateAfter calls_one)
      [⟨base0 + 32, 1552, true⟩, ⟨base0 + 1616, 16, false⟩] [base0 + 32] ∧
    ∃ s', release_mem (stateAfter calls_one) (base0 + 1616) = some (s', 0) ∧
      TagIs s'.mem (base0 + 32 - 16) true (1552 + 16 + 32) ∧
      TagIs s'.mem (base0 + 1616 + 16) true (1552 + 16 + 32) ∧
      (∀ x ∈ (stateAfter calls_one).free_list :: [base0 + 32],
        rdLE s'.mem 8 x = rdLE (stateAfter calls_one).mem 8 x ∧
        rdLE s'.mem 8 (x + 8) = rdLE (stateAfter calls_one).mem 8 (x + 8)) ∧
      FreeList s' [base0 + 32] :=
  ⟨by decide!, release_mem_case2 (stateAfter calls_one)
    [⟨base0 + 32, 1552, true⟩, ⟨base0 + 1616, 16, false⟩] [base0 + 32]
    ⟨base0 + 32, 1552, true⟩ ⟨base0 + 1616, 16, false⟩ (by decide!) (by simp) (by simp)
    (by decide) rfl rfl (by decide!)⟩

/-- Witness for C9: the round trip for a request of 100 bytes. -/
theorem alloc_release_round_trip_witness :
    init_region zero_mem base0 = some state_init ∧
    ∃ s1 p s2, alloc_mem state_init 100 = some (s1, p) ∧ p ≠ 0 ∧
      release_mem s1 p = some (s2, 0) ∧
      s2.free_list = base0 + 1664 ∧
      FreeList s2 [base0 + 32] ∧
      TagIs s2.mem (base0 + 16) true 1600 ∧ TagIs s2.mem (base0 + 1632) true 1600 :=
  ⟨rfl, alloc_release_round_trip zero_mem base0 100 state_init (by decide) (by decide) rfl
    (by decide) (by decide)⟩

/-- C1 (conservation) fails on the code.  After `p1 = alloc_mem(16); p2 = alloc_mem(16);
release_mem(p1)` the books balance (`free_size()` is 1520, one block of 16 bytes is
outstanding, three blocks are live).  `release_mem(p2)` then returns 0 through case 4 and
`free_size()` becomes 3088, more than the 1600 bytes of capacity, with nothing
outstanding. -/
theorem conservation_broken_by_case4 :
    retsAfter (calls_two ++ [Call.release 1]) = [base0 + 1616, base0 + 1568, 0, 0] ∧
    free_size (stateAfter calls_two) = some 1520 ∧
    free_size (stateAfter (calls_two ++ [Call.release 1])) = some 3088 := by
  decide!

/-- C7 (release case 3) fails on the code, on the run of `main`.  Before
`release_mem(ptr[5])` the state is well formed, `ptr[5]` (offset 224, 256 bytes) has an
allocated lower neighbour (`ptr[6]`, offset 32, 160 bytes) and a free higher neighbour
(offset 512, 544 bytes).  The call returns 0, but the start tag of the released block
records 448 (not 256 + 544 + 32 = 832), the end tag of the higher neighbour still records
544, the start tag of the lower neighbour has been turned to free with size 448, and the
free list is the single node at offset 224: the node at offset 1376 is lost. -/
theorem release_case3_merges_wrong_neighbour :
    WellFormed (stateAfter calls_main)
      [⟨base0 + 32, 160, false⟩, ⟨base0 + 224, 256, false⟩, ⟨base0 + 512, 544, true⟩,
       ⟨base0 + 1088, 256, false⟩, ⟨base0 + 1376, 256, true⟩]
      [base0 + 512, base0 + 1376] ∧
    valueOf (release_mem (stateAfter calls_main) (base0 + 224)) = 0 ∧
    TagIs (stateOf (release_mem (stateAfter calls_main) (base0 + 224))).mem
      (base0 + 224 - 16) true 448 ∧
    TagIs (stateOf (release_mem (stateAfter calls_main) (base0 + 224))).mem
      (base0 + 512 + 544) true 544 ∧
    TagIs (stateOf (release_mem (stateAfter calls_main) (base0 + 224))).mem
      (base0 + 32 - 16) true 448 ∧
    FreeList (stateOf (release_mem (stateAfter calls_main) (base0 + 224))) [base0 + 224] := by
  decide!

/-- C8 (release case 4) fails on the code.  After `p1 = alloc_mem(16); p2 = alloc_mem(16);
release_mem(p1)` the state is well formed and `p2` (offset 1568, 16 bytes) lies between a
free block of 1504 bytes and a free block of 16 bytes.  `release_mem(p2)` returns 0, but
the start tag of the lower neighbour records 3072 (not 1504 + 16 + 16 + 64 = 1600), the
end tag of the higher neighbour still records 16, both tags of `p2` still show allocated,
and the free list still holds both nodes. -/
theorem release_case4_doubles_lower_size :
    WellFormed (stateAfter calls_two)
      [⟨base0 + 32, 1504, true⟩, ⟨base0 + 1568, 16, false⟩, ⟨base0 + 1616, 16, true⟩]
      [base0 + 1616, base0 + 32] ∧
    valueOf (release_mem (stateAfter calls_two) (base0 + 1568)) = 0 ∧
    TagIs (stateOf (release_mem (stateAfter calls_two) (base0 + 1568))).mem
      (base0 + 32 - 16) true 3072 ∧
    TagIs (stateOf (release_mem (stateAfter calls_two) (base0 + 1568))).mem
      (base0 + 1616 + 16) true 16 ∧
    TagIs (stateOf (release_mem (stateAfter calls_two) (base0 + 1568))).mem
      (base0 + 1568 - 16) false 16 ∧
    TagIs (stateOf (release_mem (stateAfter calls_two) (base0 + 1568))).mem
      (base0 + 1568 + 16) false 16 ∧
    FreeList (stateOf (release_mem (stateAfter calls_two) (base0 + 1568)))
      [base0 + 1616, base0 + 32] := by
  decide!

/-- C10 (double release) fails on the code for case 4.  In the state reached by
`p1 = alloc_mem(16); p2 = alloc_mem(16); release_mem(p1)`, `release_mem(p2)` returns 0
and an immediately following second `release_mem(p2)` returns 0 again and changes the
state: the size recorded for the free block at offset 32 goes from 3072 to 6208. -/
theorem double_release_accepted_in_case4 :
    retsAfter (calls_two ++ [Call.release 1, Call.release 1])
      = [base0 + 1616, base0 + 1568, 0, 0, 0] ∧
    recSize (stateAfter (calls_two ++ [Call.release 1])) (base0 + 32) = 3072 ∧
    recSize (stateAfter (calls_two ++ [Call.release 1, Call.release 1])) (base0 + 32) = 6208 := by
  decide!

/-- C13 (zero size): in every state `alloc_mem(0)` returns NULL and the state is the one
before the call. -/
theorem alloc_mem_zero (s : State) : alloc_mem s 0 = some (s, 0) := by
  unfold alloc_mem
  dsimp only
  rw [show toU32 0 = 0 from rfl, if_pos rfl]

/-- C19 (rounding) fails on the code for the largest requests.  For `amount = 4294967281`
(0xFFFFFFF1) the product `(amount / 16 + 1) * 16` is 2^32 and wraps to 0, so `req_amt` is 0:
not positive and below `amount`.  For `amount = 2147483633` (0x7FFFFFF1) the rounded value
2^31 does not fit in `int` and `req_amt` is negative.  The last amount that is rounded
correctly is 2147483632. -/
theorem req_amt_wraps_for_largest_requests :
    req_amt 4294967281 = 0 ∧ req_amt 2147483633 = -2147483648 ∧
    req_amt 2147483632 = 2147483632 ∧ req_amt 2147483617 = 2147483632 := by
  decide

/-- C14 (oversize) fails on the code.  In the initial state the only free-list node records
1600 bytes.  The request `amount = 4294967281` (0xFFFFFFF1) is greater than 1600, yet
`alloc_mem` does not return NULL: `req_amt` wraps to 0, the first node is taken and split,
the pointer to the old end tag at offset 1632 is returned, and the state has changed (the
free block now records 1568 bytes and offsets 1616 and 1632 hold allocated tags of
size 0). -/
theorem alloc_mem_oversize_wraps :
    WellFormed state_init [⟨base0 + 32, 1600, true⟩] [base0 + 32] ∧
    recSize state_init (base0 + 32) = 1600 ∧
    valueOf (alloc_mem state_init 4294967281) = base0 + 1632 ∧
    TagIs (stateOf (alloc_mem state_init 4294967281)).mem (base0 + 16) true 1568 ∧
    TagIs (stateOf (alloc_mem state_init 4294967281)).mem (base0 + 1616) false 0 ∧
    TagIs (stateOf (alloc_mem state_init 4294967281)).mem (base0 + 1632) false 0 := by
  decide!

/-- C15 (full coalescing) fails on the code.  After `p1 = alloc_mem(16); p2 = alloc_mem(16)`
both blocks are released once, `p1` first.  Both releases return 0, but the free list ends
with two nodes (offsets 1616 and 32), the start tag at offset 16 records 3072 instead of
1600 and the end tag at offset 1632 records 16. -/
theorem release_all_does_not_restore :
    retsAfter calls_release_all = [base0 + 1616, base0 + 1568, 0, 0] ∧
    FreeList (stateAfter calls_release_all) [base0 + 1616, base0 + 32] ∧
    ¬ FreeList (stateAfter calls_release_all) [base0 + 32] ∧
    TagIs (stateAfter calls_release_all).mem (base0 + 16) true 3072 ∧
    TagIs (stateAfter calls_release_all).mem (base0 + 1632) true 16 := by
  decide!

/-- C18 (circularity) fails on the code.  Four blocks of 16 bytes are allocated (offsets
1616, 1568, 1520, 1472), the first, third and second are released (the last of these
through case 4) and `alloc_mem(16)` is called once more.  Every call succeeds; the last
one returns offset 1600 and writes its tags over the link fields of the free-list node at
offset 1616.  Following forward links from the header then visits offsets 1520 and 1616
and next an address outside the region: the walk does not return to the header, and the
backward link of the node at 1616 is not its predecessor 1520. -/
theorem free_list_not_circular_after_case4 :
    retsAfter calls_overlap =
      [base0 + 1616, base0 + 1568, base0 + 1520, base0 + 1472, 0, 0, 0, base0 + 1600] ∧
    get_fwd (stateAfter calls_overlap) (stateAfter calls_overlap).free_list =
      some (base0 + 1520) ∧
    get_fwd (stateAfter calls_overlap) (base0 + 1520) = some (base0 + 1616) ∧
    get_fwd (stateAfter calls_overlap) (base0 + 1616) = some 68754596928 ∧
    get_fwd (stateAfter calls_overlap) 68754596928 = none ∧
    get_back (stateAfter calls_overlap) (base0 + 1616) = some (base0 + 1505) := by
  decide!

/-- C17 (initial layout): `init_region` on a region at `base` (inside the 64-bit address
space) gives sentinel tags at offsets 0 and 1648 that show allocated with size 0, free
tags at offsets 16 and 1632 that both record 1600, links at offset 32 that both point to
the header at offset 1664 and header links that both point to offset 32; the free list
is the single node at offset 32 and `free_size()` returns 1600. -/
theorem init_region_initial_layout (m0 : Mem) (base : Int)
    (hb : 0 < base) (hb2 : base + 1680 ≤ 18446744073709551616) :
    ∃ s, init_region m0 base = some s ∧
      s.region_base = base ∧ s.free_list = base + 1664 ∧
      TagIs s.mem base false 0 ∧ TagIs s.mem (base + 1648) false 0 ∧
      TagIs s.mem (base + 16) true 1600 ∧ TagIs s.mem (base + 1632) true 1600 ∧
      get_back s (base + 32) = some (base + 1664) ∧
      get_fwd s (base + 32) = some (base + 1664) ∧
      get_back s (base + 1664) = some (base + 32) ∧
      get_fwd s (base + 1664) = some (base + 32) ∧
      FreeList s [base + 32] ∧ free_size s = some 1600 := by
  obtain ⟨m, hm, i1, i2, i3, i4, i5, i6, i7, i8, i9, i10, i11, i12⟩ :=
    init_region_eq m0 base (by omega)
  have e1 : (base + 1664) % 18446744073709551616 = base + 1664 := by omega
  have e2 : (base + 32) % 18446744073709551616 = base + 32 := by omega
  rw [e1] at i9 i10
  rw [e2] at i11 i12
  have i3' : rdLE m 4 (base + 32 - 16 + 12) = 1600 := by
    rw [show base + 32 - 16 + 12 = base + 16 + 12 by omega]; exact i3
  refine ⟨⟨m, base, base + 1664⟩, hm, rfl, rfl, ⟨i1, i8⟩, ⟨i6, i7⟩, ⟨i2, i3⟩, ⟨i4, i5⟩,
    ?_, ?_, ?_, ?_, ⟨i12, i9, i10, i11⟩, ?_⟩
  · rw [get_back_mk (by omega), i9]
  · rw [get_fwd_mk (by omega), i10]
  · rw [get_back_mk (by omega), i11]
  · rw [get_fwd_mk (by omega), i12]
  · unfold free_size
    dsimp only
    rw [if_neg (by omega), get_fwd_mk (by omega), bindOpt_some, i12, if_neg (by omega),
      bindOpt_some, get_size_mk (by omega), bindOpt_some, get_fwd_mk (by omega), bindOpt_some,
      i10, i3', free_size_loop, if_neg (by simp)]
    rfl

/-- Witness for C17: the region of the expected output of `main`, zero-filled. -/
theorem init_region_initial_layout_witness :
    (0 : Int) < base0 ∧ base0 + 1680 ≤ 18446744073709551616 ∧
    ∃ s, init_region zero_mem base0 = some s ∧
      s.region_base = base0 ∧ s.free_list = base0 + 1664 ∧
      TagIs s.mem base0 false 0 ∧ TagIs s.mem (base0 + 1648) false 0 ∧
      TagIs s.mem (base0 + 16) true 1600 ∧ TagIs s.mem (base0 + 1632) true 1600 ∧
      get_back s (base0 + 32) = some (base0 + 1664) ∧
      get_fwd s (base0 + 32) = some (base0 + 1664) ∧
      get_back s (base0 + 1664) = some (base0 + 32) ∧
      get_fwd s (base0 + 1664) = some (base0 + 32) ∧
      FreeList s [base0 + 32] ∧ free_size s = some 1600 :=
  ⟨by decide, by decide, init_region_initial_layout zero_mem base0 (by decide) (by decide)⟩

/-- A sequenced step that completed had a first part that completed. -/
theorem bindOpt_eq_some {α β : Type} {x : Option α} {k : α → Option β} {y : β}
    (h : bindOpt x k = some y) : ∃ a, x = some a ∧ k a = some y := by
  cases x with
  | none => cases h
  | some a => exact ⟨a, rfl, h⟩

/-- A tag load that completed read inside the region. -/
theorem get_tag_eq_some {s : State} {a v : Int} (h : get_tag s a = some v) :
    v = rd8 s.mem a ∧ s.inRegion a 1 := by
  unfold get_tag load8 at h
  by_cases c : s.inRegion a 1
  · rw [if_pos c] at h; cases h; exact ⟨rfl, c⟩
  · rw [if_neg c] at h; cases h

/-- A size load that completed read inside the region. -/
theorem get_size_eq_some {s : State} {a v : Int} (h : get_size s a = some v) :
    v = rdLE s.mem 4 (a + 12) ∧ s.inRegion (a + 12) 4 := by
  unfold get_size load32 at h
  by_cases c : s.inRegion (a + 12) 4
  · rw [if_pos c] at h; cases h; exact ⟨rfl, c⟩
  · rw [if_neg c] at h; cases h

/-- What a completed call of `release_mem` tells: either it returned 1 through one of
the early returns and the state is the one before the call, or it returned 0 after all
validity checks passed. -/
theorem release_mem_inv {s s' : State} {p r : Int} (h : release_mem s p = some (s', r)) :
    (r = 1 ∧ s' = s) ∨
    (r = 0 ∧ p ≠ 0 ∧ p - 16 ≠ s.free_list ∧
      rd8 s.mem (p - 16) = 1 ∧ recSize s p ≠ 0 ∧
      rd8 s.mem (p - 16 + 16 + 16 * (recSize s p / 16)) = 1 ∧
      rdLE s.mem 4 (p - 16 + 16 + 16 * (recSize s p / 16) + 12) ≠ 0) := by
  unfold release_mem at h
  by_cases hp : p = 0
  · rw [if_pos hp] at h; cases h; exact Or.inl ⟨rfl, rfl⟩
  rw [if_neg hp] at h
  obtain ⟨sz0, h0, h⟩ := bindOpt_eq_some h
  obtain ⟨rfl, -⟩ := get_size_eq_some h0
  dsimp only at h
  by_cases hf : p - 16 = s.free_list
  · rw [if_pos hf] at h; cases h; exact Or.inl ⟨rfl, rfl⟩
  rw [if_neg hf] at h
  obtain ⟨t1, ht1, h⟩ := bindOpt_eq_some h
  obtain ⟨rfl, -⟩ := get_tag_eq_some ht1
  by_cases c1 : rd8 s.mem (p - 16) = 1
  swap
  · rw [if_pos c1] at h; cases h; exact Or.inl ⟨rfl, rfl⟩
  rw [if_neg (not_not.2 c1)] at h
  obtain ⟨t2, ht2, h⟩ := bindOpt_eq_some h
  obtain ⟨rfl, -⟩ := get_tag_eq_some ht2
  by_cases c2 : rd8 s.mem (p - 16 + 16 + 16 * (rdLE s.mem 4 (p - 16 + 12) / 16)) = 1
  swap
  · rw [if_pos c2] at h; cases h; exact Or.inl ⟨rfl, rfl⟩
  rw [if_neg (not_not.2 c2)] at h
  obtain ⟨z1, hz1, h⟩ := bindOpt_eq_some h
  obtain ⟨rfl, -⟩ := get_size_eq_some hz1
  by_cases c3 : rdLE s.mem 4 (p - 16 + 12) = 0
  · rw [if_pos c3] at h; cases h; exact Or.inl ⟨rfl, rfl⟩
  rw [if_neg c3] at h
  obtain ⟨z2, hz2, h⟩ := bindOpt_eq_some h
  obtain ⟨rfl, -⟩ := get_size_eq_some hz2
  by_cases c4 : rdLE s.mem 4 (p - 16 + 16 + 16 * (rdLE s.mem 4 (p - 16 + 12) / 16) + 12) = 0
  · rw [if_pos c4] at h; cases h; exact Or.inl ⟨rfl, rfl⟩
  rw [if_neg c4] at h
  obtain ⟨tl, -, h⟩ := bindOpt_eq_some h
  obtain ⟨tu, -, h⟩ := bindOpt_eq_some h
  have hr : r = 0 := by
    split_ifs at h <;>
    · obtain ⟨x, -, hx⟩ := Option.map_eq_some'.1 h
      cases hx
      rfl
  exact Or.inr ⟨hr, hp, hf, c1, c3, c2, c4⟩

/-- The early returns of `release_mem`: a NULL pointer, or a start tag or end tag inside
the region that does not show allocated or records size 0, gives the result 1 and no
change of state. -/
theorem release_mem_rejects (m : Mem) (b f p : Int)
    (h : p = 0 ∨ ((b ≤ p - 16 ∧ p ≤ b + 1680) ∧ (rd8 m (p - 16) ≠ 1 ∨
      ((b ≤ p - 16 + 16 + 16 * (rdLE m 4 (p - 16 + 12) / 16) ∧
        p - 16 + 16 + 16 * (rdLE m 4 (p - 16 + 12) / 16) + 16 ≤ b + 1680) ∧
       (rdLE m 4 (p - 16 + 12) = 0 ∨
        rd8 m (p - 16 + 16 + 16 * (rdLE m 4 (p - 16 + 12) / 16)) ≠ 1 ∨
        rdLE m 4 (p - 16 + 16 + 16 * (rdLE m 4 (p - 16 + 12) / 16) + 12) = 0))))) :
    release_mem ⟨m, b, f⟩ p = some (⟨m, b, f⟩, 1) := by
  unfold release_mem
  by_cases hp : p = 0
  · rw [if_pos hp]
  rw [if_neg hp]
  rcases h with h | ⟨hin, h⟩
  · exact absurd h hp
  dsimp only
  rw [get_size_mk (by omega), bindOpt_some]
  by_cases hf : p - 16 = f
  · rw [if_pos hf]
  rw [if_neg hf, get_tag_mk (by omega), bindOpt_some]
  by_cases c1 : rd8 m (p - 16) = 1
  swap
  · rw [if_pos c1]
  rw [if_neg (not_not.2 c1)]
  rcases h with h | ⟨hE, h⟩
  · exact absurd c1 h
  rw [get_tag_mk (by omega), bindOpt_some]
  by_cases c2 : rd8 m (p - 16 + 16 + 16 * (rdLE m 4 (p - 16 + 12) / 16)) = 1
  swap
  · rw [if_pos c2]
  rw [if_neg (not_not.2 c2), bindOpt_some]
  by_cases c3 : rdLE m 4 (p - 16 + 12) = 0
  · rw [if_pos c3]
  rw [if_neg c3, get_size_mk (by omega), bindOpt_some]
  by_cases c4 : rdLE m 4 (p - 16 + 16 + 16 * (rdLE m 4 (p - 16 + 12) / 16) + 12) = 0
  · rw [if_pos c4]
  rcases h with h | h | h
  · exact absurd h c3
  · exact absurd c2 h
  · exact absurd h c4

/-- A call that returned `v` ran to completion, on the state `stateOf` gives. -/
theorem eq_some_of_valueOf {r : Option (State × Int)} {v : Int} (hv : v ≠ -1)
    (h : valueOf r = v) : r = some (stateOf r, v) := by
  cases r with
  | none => exact absurd h.symm hv
  | some x => cases h; rfl

/-- C12 (release is atomic on failure).  First part: if `p` is NULL, or the tag at
`p - 16` (inside the region) does not show allocated, or the end tag located via the
recorded size (inside the region) does not show allocated, or one of the two records
size 0, then `release_mem(p)` returns 1 and the state is the one before the call.
Second part: whenever `release_mem` returns a nonzero value, the state is the one before
the call. -/
theorem release_mem_atomic_on_failure (s : State) (p : Int) :
    ((p = 0 ∨ (s.inRegion (p - 16) 16 ∧ (rd8 s.mem (p - 16) ≠ 1 ∨
        (s.inRegion (endTagOf s p) 16 ∧
          (recSize s p = 0 ∨ rd8 s.mem (endTagOf s p) ≠ 1 ∨
            rdLE s.mem 4 (endTagOf s p + 12) = 0))))) →
      release_mem s p = some (s, 1)) ∧
    (∀ s' r, release_mem s p = some (s', r) → r ≠ 0 → s' = s) := by
  constructor
  · intro h
    obtain ⟨m, b, f⟩ := s
    apply release_mem_rejects
    simp only [endTagOf, recSize, State.inRegion] at h
    rcases h with h | ⟨h1, h⟩
    · exact Or.inl h
    · refine Or.inr ⟨⟨h1.1, by omega⟩, ?_⟩
      rcases h with h | ⟨h2, h⟩
      · exact Or.inl h
      · exact Or.inr ⟨h2, h⟩
  · intro s' r h hr
    rcases release_mem_inv h with ⟨-, e⟩ | ⟨e, -⟩
    · exact e
    · exact absurd e hr

/-- Witness for C12: in the initial state the block at offset 32 is free, so its release
is rejected. -/
theorem release_mem_atomic_on_failure_witness :
    (state_init.inRegion (base0 + 32 - 16) 16 ∧ rd8 state_init.mem (base0 + 32 - 16) ≠ 1) ∧
    release_mem state_init (base0 + 32) = some (state_init, 1) ∧
    ((1 : Int) ≠ 0 → state_init = state_init) :=
  ⟨by decide!,
   (release_mem_atomic_on_failure state_init (base0 + 32)).1
     (Or.inr ⟨by decide!, Or.inl (by decide!)⟩),
   (release_mem_atomic_on_failure state_init (base0 + 32)).2 state_init 1
     ((release_mem_atomic_on_failure state_init (base0 + 32)).1
       (Or.inr ⟨by decide!, Or.inl (by decide!)⟩))⟩

/-- C11, where the code departs from the claim: a pointer that was released is accepted
again.  After `p = alloc_mem(16); release_mem(p); q = alloc_mem(1600)` the state is well
formed with the single allocated block `q` at offset 32, and `p` (offset 1616) is not the
start of an allocated block: it lies inside the payload of `q`.  The tag before `p` is the
stale start tag of the released block; it still shows allocated with size 16, and the end
tag located through that size, at offset 1632, is the end tag of `q`, which shows
allocated with size 1600.  The two sizes differ, yet `release_mem(p)` returns 0 and turns
the start tag of `q` to free with size 1648.  The comment of `release_mem` asks for such a
dangling pointer to fail a signature check and to return 1 with no other action; the code
compares neither signatures nor sizes. -/
theorem release_mem_accepts_mismatched_sizes :
    retsAfter calls_stale = [base0 + 1616, 0, base0 + 32] ∧
    WellFormed (stateAfter calls_stale) [⟨base0 + 32, 1600, false⟩] [] ∧
    TagIs (stateAfter calls_stale).mem (base0 + 1616 - 16) false 16 ∧
    endTagOf (stateAfter calls_stale) (base0 + 1616) = base0 + 1632 ∧
    TagIs (stateAfter calls_stale).mem (base0 + 1632) false 1600 ∧
    valueOf (release_mem (stateAfter calls_stale) (base0 + 1616)) = 0 ∧
    TagIs (stateOf (release_mem (stateAfter calls_stale) (base0 + 1616))).mem
      (base0 + 16) true 1648 := by
  decide!

/-- The guards of `release_mem`, read backwards: in every state, `release_mem(p)` returns
0 only if `p` is not NULL, `p - 16` is not the free-list header, and the tag at `p - 16`
and the end tag located via the size recorded there both show allocated and both record a
nonzero size. -/
theorem release_mem_accepts_only_validated (s s' : State) (p : Int)
    (h : release_mem s p = some (s', 0)) :
    p ≠ 0 ∧ p - 16 ≠ s.free_list ∧
    rd8 s.mem (p - 16) = 1 ∧ recSize s p ≠ 0 ∧
    rd8 s.mem (endTagOf s p) = 1 ∧ rdLE s.mem 4 (endTagOf s p + 12) ≠ 0 := by
  rcases release_mem_inv h with ⟨e, -⟩ | ⟨-, h⟩
  · exact absurd e (by decide)
  · exact h

/-- The guards of `release_mem` on the release of the block that fills the region. -/
theorem release_mem_accepts_only_validated_witness :
    release_mem (stateAfter calls_full) (base0 + 32) =
      some (stateOf (release_mem (stateAfter calls_full) (base0 + 32)), 0) ∧
    (base0 + 32 ≠ 0 ∧ base0 + 32 - 16 ≠ (stateAfter calls_full).free_list ∧
      rd8 (stateAfter calls_full).mem (base0 + 32 - 16) = 1 ∧
      recSize (stateAfter calls_full) (base0 + 32) ≠ 0 ∧
      rd8 (stateAfter calls_full).mem (endTagOf (stateAfter calls_full) (base0 + 32)) = 1 ∧
      rdLE (stateAfter calls_full).mem 4
        (endTagOf (stateAfter calls_full) (base0 + 32) + 12) ≠ 0) :=
  ⟨eq_some_of_valueOf (by decide) (by decide!),
   release_mem_accepts_only_validated _ _ _ (eq_some_of_valueOf (by decide) (by decide!))⟩

/-- A read that stays clear of the three areas the split branch writes (the start tag
of the block, the new pair of tags in its middle, its end tag) sees the old bytes. -/
theorem split_frame_read {m m' : Mem} {n S R : Int} (k : Nat) (a : Int)
    (hfr : ∀ i, (i < n - 16 ∨ n ≤ i) → (i < n + (S - R - 32) ∨ n + S - R ≤ i) →
      (i < n + S ∨ n + S + 16 ≤ i) → m' i = m i)
    (h1 : a + k ≤ n - 16 ∨ n ≤ a) (h2 : a + k ≤ n + (S - R - 32) ∨ n + S - R ≤ a)
    (h3 : a + k ≤ n + S ∨ n + S + 16 ≤ a) : rdLE m' k a = rdLE m k a := by
  apply rdLE_congr
  intro i hi1 hi2
  exact hfr i (by omega) (by omega) (by omega)

/-- C20 (split leaves the list untouched): in a well-formed state whose free list is
`pre ++ n :: post`, when `alloc_mem` takes the split branch on node `n` (the nodes of
`pre` are too small, `n` records `S` with `S - R - 32 ≥ 16` for the rounded request `R`),
the header pointer, both links of the header and of every free-list node, `n` included,
are the same before and after the call, so the free list is the same list; the size
recorded for every node other than `n` is unchanged and `n` records `S - R - 32`. -/
theorem alloc_mem_split_keeps_list (s : State) (bl : List Block) (pre post : List Int)
    (n amount R S : Int)
    (hwf : WellFormed s bl (pre ++ n :: post))
    (hamt : 0 < amount) (hamt2 : amount < 4294967296)
    (hR : R = roundUp16 amount)
    (hpre : ∀ x ∈ pre, recSize s x < R)
    (hS : recSize s n = S) (hfit : R ≤ S)
    (hslack : 16 ≤ S - R - 32) :
    ∃ s' p, alloc_mem s amount = some (s', p) ∧ p ≠ 0 ∧
      s'.free_list = s.free_list ∧
      (∀ x ∈ s.free_list :: (pre ++ n :: post),
        rdLE s'.mem 8 x = rdLE s.mem 8 x ∧ rdLE s'.mem 8 (x + 8) = rdLE s.mem 8 (x + 8)) ∧
      FreeList s' (pre ++ n :: post) ∧
      (∀ x ∈ pre ++ n :: post, x ≠ n → recSize s' x = recSize s x) ∧
      recSize s' n = S - R - 32 := by
  obtain ⟨m, b, f⟩ := s
  subst hR
  simp only [recSize] at hpre hS
  have hnmem : n ∈ pre ++ n :: post := by simp
  obtain ⟨B, hB, hBf, hBa, hn1, hn2, hn3, hn4, hn5⟩ := wf_node_block hwf hnmem
  have hSB : S = B.size := by rw [← hS, hn5]
  have hRs := roundUp16_spec amount
  have hb0 : 0 < b := hwf.1
  rw [alloc_mem_found m b f bl pre post n amount S hwf hamt hamt2 hS hpre hfit,
    if_pos (by omega)]
  obtain ⟨m', h0, -, h2, -, -, -, -, -, -, hfr⟩ :=
    alloc_split_core m b f n S (roundUp16 amount) hn1 (by omega) (by omega) (by omega)
      hRs.1 (by omega) hS
  have hpos : ∀ x ∈ f :: (pre ++ n :: post),
      x = n ∨ x + 16 ≤ n - 16 ∨ n + S + 16 ≤ x := by
    intro x hx
    by_cases e : x = n
    · exact Or.inl e
    · have := wf_link_vs_block hwf hx hB (by rw [hBa]; exact e)
      rw [hBa, ← hSB] at this
      exact Or.inr this
  have hlinks : ∀ x ∈ f :: (pre ++ n :: post),
      rdLE m' 8 x = rdLE m 8 x ∧ rdLE m' 8 (x + 8) = rdLE m 8 (x + 8) := by
    intro x hx
    have := hpos x hx
    constructor
    · exact split_frame_read 8 x hfr (by omega) (by omega) (by omega)
    · exact split_frame_read 8 (x + 8) hfr (by omega) (by omega) (by omega)
  refine ⟨⟨m', b, f⟩, _, h0, by omega, rfl, hlinks, ?_, ?_, h2⟩
  · have hseg : Seg m f (pre ++ n :: post) f := hwf.2.2.2.2.2.2.1
    refine hseg.congr (fun u hu => (hlinks u hu).2) (fun v hv => (hlinks v ?_).1)
    rcases List.mem_append.1 hv with hv | hv
    · exact List.mem_cons_of_mem _ hv
    · rw [List.mem_singleton.1 hv]; exact List.mem_cons_self _ _
  · intro x hx hxn
    have := wf_node_vs_block hwf hx hB (by rw [hBa]; exact hxn)
    rw [hBa, ← hSB] at this
    exact split_frame_read 4 (x - 16 + 12) hfr (by omega) (by omega) (by omega)

/-- Witness for C20: with free list `[1616 (16 bytes), 32 (1504 bytes)]` a request of 100
bytes passes the first node and splits the node at offset 32. -/
theorem alloc_mem_split_keeps_list_witness :
    WellFormed (stateAfter calls_two)
      [⟨base0 + 32, 1504, true⟩, ⟨base0 + 1568, 16, false⟩, ⟨base0 + 1616, 16, true⟩]
      ([base0 + 1616] ++ (base0 + 32) :: []) ∧
    ∃ s' p, alloc_mem (stateAfter calls_two) 100 = some (s', p) ∧ p ≠ 0 ∧
      s'.free_list = (stateAfter calls_two).free_list ∧
      (∀ x ∈ (stateAfter calls_two).free_list :: ([base0 + 1616] ++ (base0 + 32) :: []),
        rdLE s'.mem 8 x = rdLE (stateAfter calls_two).mem 8 x ∧
        rdLE s'.mem 8 (x + 8) = rdLE (stateAfter calls_two).mem 8 (x + 8)) ∧
      FreeList s' ([base0 + 1616] ++ (base0 + 32) :: []) ∧
      (∀ x ∈ [base0 + 1616] ++ (base0 + 32) :: [], x ≠ base0 + 32 →
        recSize s' x = recSize (stateAfter calls_two) x) ∧
      recSize s' (base0 + 32) = 1504 - 112 - 32 :=
  ⟨by decide!, alloc_mem_split_keeps_list (stateAfter calls_two)
    [⟨base0 + 32, 1504, true⟩, ⟨base0 + 1568, 16, false⟩, ⟨base0 + 1616, 16, true⟩]
    [base0 + 1616] [] (base0 + 32) 100 112 1504 (by decide!) (by decide) (by decide)
    (by decide) (by decide!) (by decide!) (by decide) (by decide)⟩

/-- The part of a forward segment after one of its nodes. -/
theorem FwdSeg.suffix {m : Mem} {c x : Int} {l2 : List Int} :
    ∀ {l1 : List Int} {a : Int}, FwdSeg m a (l1 ++ x :: l2) c → FwdSeg m x l2 c := by
  intro l1
  induction l1 with
  | nil => intro a h; exact h.2
  | cons y ys ih => intro a h; exact ih h.2

/-- Two forward segments from the same start to the same end, neither passing through
the end, are equal. -/
theorem FwdSeg.unique {m : Mem} {c : Int} :
    ∀ {xs ys : List Int} {a : Int}, FwdSeg m a xs c → FwdSeg m a ys c →
      c ∉ xs → c ∉ ys → xs = ys := by
  intro xs
  induction xs with
  | nil =>
    intro ys a h1 h2 _ hy
    cases ys with
    | nil => rfl
    | cons y ys =>
      have e1 : rdLE m 8 (a + 8) = c := h1
      have e2 : rdLE m 8 (a + 8) = y := h2.1
      exact absurd (by rw [← e1, e2]; exact List.mem_cons_self _ _) hy
  | cons x xs ih =>
    intro ys a h1 h2 hx hy
    cases ys with
    | nil =>
      have e1 : rdLE m 8 (a + 8) = x := h1.1
      have e2 : rdLE m 8 (a + 8) = c := h2
      exact absurd (by rw [← e2, e1]; exact List.mem_cons_self _ _) hx
    | cons y ys =>
      have e : x = y := by rw [← h1.1, h2.1]
      subst e
      rw [ih h1.2 h2.2 (fun h => hx (List.mem_cons_of_mem _ h))
        (fun h => hy (List.mem_cons_of_mem _ h))]

/-- A forward segment that does not pass through its end visits no node twice. -/
theorem FwdSeg.distinct {m : Mem} {c : Int} :
    ∀ {xs : List Int} {a : Int}, FwdSeg m a xs c → c ∉ xs → xs.Nodup := by
  intro xs
  induction xs with
  | nil => intro a _ _; exact List.nodup_nil
  | cons x xs ih =>
    intro a h hc
    have hc' : c ∉ xs := fun h => hc (List.mem_cons_of_mem _ h)
    refine List.nodup_cons.2 ⟨?_, ih h.2 hc'⟩
    intro hx
    obtain ⟨l1, l2, e⟩ := List.append_of_mem hx
    have h2 : FwdSeg m x (l1 ++ x :: l2) c := by rw [← e]; exact h.2
    have h3 : FwdSeg m x l2 c := h2.suffix
    have hc2 : c ∉ l2 := by
      intro hh
      apply hc'
      rw [e]
      exact List.mem_append_right _ (List.mem_cons_of_mem _ hh)
    have := FwdSeg.unique h3 h2 hc2 (by rw [← e]; exact hc')
    have hl := congrArg List.length this
    simp only [List.length_append, List.length_cons] at hl
    omega

/-- Distinct addresses in a window of `N` bytes are at most `N`. -/
theorem length_le_of_nodup_range {xs : List Int} (h : xs.Nodup) (lo : Int) (N : Nat)
    (hr : ∀ x ∈ xs, lo ≤ x ∧ x < lo + N) : xs.length ≤ N := by
  have h1 : xs.toFinset ⊆ Finset.Ico lo (lo + N) := by
    intro x hx
    have := hr x (List.mem_toFinset.1 hx)
    exact Finset.mem_Ico.2 this
  have h2 := Finset.card_le_card h1
  rw [List.toFinset_card_of_nodup h, Int.card_Ico] at h2
  simpa using h2

/-- The loop of `free_size` over the rest of the list: started with the running total
`acc` at the successor of `a`, it adds the recorded sizes of the nodes up to the header,
in 32-bit arithmetic. -/
theorem free_size_loop_spec (m : Mem) (b f : Int) :
    ∀ (xs : List Int) (a acc : Int) (k : Nat), FwdSeg m a xs f →
      (∀ x ∈ xs, x ≠ 0 ∧ x ≠ f ∧ b ≤ x - 16 ∧ x + 16 ≤ b + 1680) →
      -2147483648 ≤ acc → acc < 2147483648 →
      free_size_loop ⟨m, b, f⟩ (xs.length + k + 1) (rdLE m 8 (a + 8)) acc =
        some (toI32 (acc + sumSizes ⟨m, b, f⟩ xs)) := by
  intro xs
  induction xs with
  | nil =>
    intro a acc k h _ h1 h2
    have e : rdLE m 8 (a + 8) = f := h
    rw [e, free_size_loop, if_neg (by simp)]
    simp only [sumSizes, List.map_nil, List.sum_nil, add_zero]
    rw [toI32_eq _ h1 h2]
  | cons x xs ih =>
    intro a acc k h hx h1 h2
    obtain ⟨hx0, hxf, hxl, hxh⟩ := hx x (List.mem_cons_self _ _)
    rw [h.1, show (x :: xs).length + k + 1 = (xs.length + k + 1) + 1 by
      simp only [List.length_cons]; omega]
    rw [free_size_loop, if_pos ⟨hx0, hxf⟩, get_size_mk (by omega), bindOpt_some,
      get_fwd_mk (by omega), bindOpt_some]
    rw [ih x _ k h.2 (fun y hy => hx y (List.mem_cons_of_mem _ hy))
      (by unfold toI32; omega) (by unfold toI32; omega)]
    simp only [sumSizes, List.map_cons, List.sum_cons, recSize]
    congr 1
    unfold toI32 toU32
    omega

/-- Recorded sizes are unsigned, so their sum is not negative. -/
theorem sumSizes_nonneg (s : State) (ns : List Int) : 0 ≤ sumSizes s ns := by
  unfold sumSizes
  apply List.sum_nonneg
  intro x hx
  obtain ⟨y, -, rfl⟩ := List.mem_map.1 hx
  exact rdLE4_nonneg _ _

/-- The function `free_size` on an explicit state whose forward links run from the header
through `ns` back to the header. -/
theorem free_size_core (m : Mem) (b f : Int) (ns : List Int)
    (hb : 0 < b) (hh : b ≤ f ∧ f + 16 ≤ b + 1680)
    (hseg : FwdSeg m f ns f)
    (hns : ∀ x ∈ ns, x ≠ f ∧ b ≤ x - 16 ∧ x - 16 + 32 ≤ b + 1680) :
    free_size ⟨m, b, f⟩ = some (toI32 (sumSizes ⟨m, b, f⟩ ns)) := by
  have hnd : ns.Nodup := hseg.distinct (fun h => (hns f h).1 rfl)
  have hlen : ns.length ≤ 1680 :=
    length_le_of_nodup_range hnd b 1680 (fun x hx => by have := hns x hx; omega)
  unfold free_size
  dsimp only
  rw [if_neg (by omega), get_fwd_mk (by omega), bindOpt_some]
  cases ns with
  | nil =>
    have e : rdLE m 8 (f + 8) = f := hseg
    rw [e, if_pos rfl]
    rfl
  | cons x xs =>
    obtain ⟨hxf, hxl, hxh⟩ := hns x (List.mem_cons_self _ _)
    rw [hseg.1, if_neg (fun h => hxf h.symm), bindOpt_some, get_size_mk (by omega),
      bindOpt_some, get_fwd_mk (by omega), bindOpt_some]
    simp only [List.length_cons] at hlen
    rw [show 1680 = xs.length + (1679 - xs.length) + 1 by omega]
    rw [free_size_loop_spec m b f xs x _ _ hseg.2
      (fun y hy => by have := hns y (List.mem_cons_of_mem _ hy); exact ⟨by omega, this.1, by omega, by omega⟩)
      (by unfold toI32; omega) (by unfold toI32; omega)]
    simp only [sumSizes, List.map_cons, List.sum_cons, recSize]
    congr 1
    unfold toI32
    omega

/-- C16 as amended (free-size accounting): in a state whose forward links run from the
header through the nodes `ns` back to the header, header, nodes and their start tags
lying inside the region, `free_size()` returns the sum of the sizes recorded in the start
tags of the nodes reduced to a 32-bit signed integer; this is the sum itself whenever the
sum is below 2^31.  It returns 0 when the forward link of the header is the header.  The
function only reads: its model has no state to return. -/
theorem free_size_sums_recorded_sizes (s : State) (ns : List Int)
    (hb : 0 < s.region_base) (hh : s.inRegion s.free_list 16)
    (hseg : FwdSeg s.mem s.free_list ns s.free_list)
    (hns : ∀ x ∈ ns, x ≠ s.free_list ∧ s.inRegion (x - 16) 32) :
    free_size s = some (toI32 (sumSizes s ns)) ∧
    (sumSizes s ns < 2147483648 → free_size s = some (sumSizes s ns)) ∧
    (rdLE s.mem 8 (s.free_list + 8) = s.free_list → free_size s = some 0) := by
  obtain ⟨m, b, f⟩ := s
  have key := free_size_core m b f ns hb hh hseg hns
  refine ⟨key, ?_, ?_⟩
  · intro hlt
    rw [key, toI32_eq _ (by have := sumSizes_nonneg ⟨m, b, f⟩ ns; omega) hlt]
  · intro h0
    have hh' : b ≤ f ∧ f + 16 ≤ b + 1680 := hh
    have hb' : 0 < b := hb
    unfold free_size
    dsimp only at h0 ⊢
    rw [if_neg (by omega), get_fwd_mk (by omega), bindOpt_some, h0, if_pos rfl]

/-- Witness for C16 as amended: after `p1 = alloc_mem(16); p2 = alloc_mem(16);
release_mem(p1)` the list holds the nodes at offsets 1616 and 32, recording 16 and 1504
bytes. -/
theorem free_size_sums_recorded_sizes_witness :
    (0 < (stateAfter calls_two).region_base ∧
      (stateAfter calls_two).inRegion (stateAfter calls_two).free_list 16 ∧
      FwdSeg (stateAfter calls_two).mem (stateAfter calls_two).free_list
        [base0 + 1616, base0 + 32] (stateAfter calls_two).free_list ∧
      sumSizes (stateAfter calls_two) [base0 + 1616, base0 + 32] = 1520) ∧
    (free_size (stateAfter calls_two) =
        some (toI32 (sumSizes (stateAfter calls_two) [base0 + 1616, base0 + 32])) ∧
      (sumSizes (stateAfter calls_two) [base0 + 1616, base0 + 32] < 2147483648 →
        free_size (stateAfter calls_two) =
          some (sumSizes (stateAfter calls_two) [base0 + 1616, base0 + 32])) ∧
      (rdLE (stateAfter calls_two).mem 8 ((stateAfter calls_two).free_list + 8) =
          (stateAfter calls_two).free_list → free_size (stateAfter calls_two) = some 0)) :=
  ⟨by decide!, free_size_sums_recorded_sizes (stateAfter calls_two)
    [base0 + 1616, base0 + 32] (by decide!) (by decide!) (by decide!) (by decide!)⟩

/-- C16 as stated fails on the code.  In `state_big` the free list is circular with the
single node at offset 32, whose start tag records 2147483648 (2^31).  `free_size()`
accumulates in an `int` and returns -2147483648, not the recorded size. -/
theorem free_size_overflows_int :
    FreeList state_big [base0 + 32] ∧
    FwdSeg state_big.mem state_big.free_list [base0 + 32] state_big.free_list ∧
    sumSizes state_big [base0 + 32] = 2147483648 ∧
    free_size state_big = some (-2147483648) := by
  decide!

/-- Oversize requests below the wrap-around: in a well-formed state, a request of at most
4294967280 (0xFFFFFFF0) bytes that is greater than the size recorded by every free-list
node returns NULL and the state is the one before the call. -/
theorem alloc_mem_oversize_below_wrap (s : State) (bl : List Block) (ns : List Int)
    (amount : Int) (hwf : WellFormed s bl ns)
    (hamt : 0 < amount) (hamt2 : amount ≤ 4294967280)
    (hbig : ∀ x ∈ ns, recSize s x < amount) :
    alloc_mem s amount = some (s, 0) := by
  obtain ⟨m, b, f⟩ := s
  have hfl : f = b + 1664 := hwf.2.2.1
  have hseg : Seg m f ns f := hwf.2.2.2.2.2.2.1
  have hlen := hwf.length_le
  have hb0 : 0 < b := hwf.1
  have e0 : toU32 amount = amount := toU32_eq _ (by omega) (by omega)
  have e1 : amount ≤ toU32 (req_amt amount) := by
    unfold req_amt toI32 toU32
    split_ifs <;> omega
  unfold alloc_mem
  simp only []
  rw [e0, if_neg (by omega), get_fwd_mk (by omega), bindOpt_some]
  rw [show 1680 = ns.length + ((1679 - ns.length) + 1) by omega,
    alloc_search_skip m b f _ f ns f hseg ?_ _, alloc_search_header, bindOpt_some]
  · dsimp only
    rw [if_pos (Or.inr rfl)]
  · intro x hx
    obtain ⟨X, -, -, -, hx1, hx2, hx3, -, -⟩ := wf_node_block hwf hx
    have := hbig x hx
    simp only [recSize] at this
    exact ⟨by omega, by omega, by omega, by omega, by omega⟩

/-- C21 (signatures after a split) fails on the code.  In the initial state the start tag
at offset 16 carries "top_memblk" and the end tag at offset 1632 carries "end_memblk".
After `alloc_mem(16)` the new end tag of the remaining free block (offset 1584) carries
"top_memblk" and the new start tag of the allocated block (offset 1600) carries
"end_memblk"; `prt_free_block` on the remaining free block passes `TOPSIGCHK` and fails
`ENDSIGCHK`. -/
theorem split_copies_wrong_signatures :
    rdBytes state_init.mem (base0 + 16 + 1) 11 = sig_top_memblk ++ [0] ∧
    rdBytes state_init.mem (base0 + 1632 + 1) 11 = sig_end_memblk ++ [0] ∧
    valueOf (alloc_mem state_init 16) = base0 + 1616 ∧
    TagIs (stateOf (alloc_mem state_init 16)).mem (base0 + 1584) true 1552 ∧
    TagIs (stateOf (alloc_mem state_init 16)).mem (base0 + 1600) false 16 ∧
    rdBytes (stateOf (alloc_mem state_init 16)).mem (base0 + 1584 + 1) 11
      = sig_top_memblk ++ [0] ∧
    rdBytes (stateOf (alloc_mem state_init 16)).mem (base0 + 1600 + 1) 11
      = sig_end_memblk ++ [0] ∧
    prt_free_block (stateOf (alloc_mem state_init 16)) (base0 + 32) = some (false, true) := by
  decide!

/-- C22 (stale-tag marking) fails on the code.  After `p1 = alloc_mem(16);
p2 = alloc_mem(16)` the start tag of `p2` (offset 1552) carries "top_memblk".
`release_mem(p2)` returns 0 and merges `p2` with the free block below it: the tags at
offsets 16 and 1584 record 1552.  The old start tag of `p2`, now inside the merged block,
still carries "top_memblk", and `TOPSIGCHK` on it passes. -/
theorem release_leaves_stale_signature :
    retsAfter calls_lower_merge = [base0 + 1616, base0 + 1568, 0] ∧
    TagIs (stateAfter calls_lower_merge).mem (base0 + 16) true 1552 ∧
    TagIs (stateAfter calls_lower_merge).mem (base0 + 1584) true 1552 ∧
    rdBytes (stateAfter (calls_lower_merge.take 2)).mem (base0 + 1552 + 1) 11
      = sig_top_memblk ++ [0] ∧
    rdBytes (stateAfter calls_lower_merge).mem (base0 + 1552 + 1) 11
      = sig_top_memblk ++ [0] ∧
    TOPSIGCHK (stateAfter calls_lower_merge) (base0 + 1552) = some false := by
  decide!

/-- C27 (release stays inside the region) fails on the code.  After `p1 = alloc_mem(16);
p2 = alloc_mem(1552); release_mem(p1)` the state is well formed; `p2` (offset 32) is the
allocated block at the lowest address and its higher neighbour is free.
`release_mem(p2)` takes case 3, reads size 0 from the sentinel tag at offset 0 and
stores the tag byte of `bottom_tag` at offset -16: the access is outside the region and
the run ends there. -/
theorem release_case3_leaves_region :
    retsAfter calls_low = [base0 + 1616, base0 + 32, 0] ∧
    WellFormed (stateAfter calls_low)
      [⟨base0 + 32, 1552, false⟩, ⟨base0 + 1616, 16, true⟩] [base0 + 1616] ∧
    get_size (stateAfter calls_low) (base0 + 32 - 16 - 16) = some 0 ∧
    (set_tag (stateAfter calls_low) (base0 + 32 - 16 - 16 - 16 * (0 / 16) - 16) 0).isNone
      = true ∧
    (release_case3 (stateAfter calls_low) (base0 + 32) (base0 + 32 - 16)).isNone = true ∧
    (release_mem (stateAfter calls_low) (base0 + 32)).isNone = true := by
  decide!

/-- C25 (`alloc_mem` preserves well-formedness) fails on the code for the largest
requests.  The initial state is well formed; after `alloc_mem(4294967281)` (0xFFFFFFF1),
which returns offset 1632, no list of blocks tiles the region: the block that follows
the free block of 1568 bytes has tags that record size 0. -/
theorem alloc_mem_wrap_breaks_tiling :
    WellFormed state_init [⟨base0 + 32, 1600, true⟩] [base0 + 32] ∧
    valueOf (alloc_mem state_init 4294967281) = base0 + 1632 ∧
    ¬ ∃ bl ns, WellFormed (stateOf (alloc_mem state_init 4294967281)) bl ns := by
  refine ⟨by decide!, by decide!, ?_⟩
  rintro ⟨bl, ns, h⟩
  have hb : (stateOf (alloc_mem state_init 4294967281)).region_base = base0 := by decide!
  have ht := h.2.2.2.2.2.1
  rw [hb] at ht
  have e1 : rdLE (stateOf (alloc_mem state_init 4294967281)).mem 4 (base0 + 16 + 12) = 1568 := by
    decide!
  have e2 : rdLE (stateOf (alloc_mem state_init 4294967281)).mem 4 (base0 + 1616 + 12) = 0 := by
    decide!
  cases bl with
  | nil => exact absurd ht (by decide)
  | cons B rest =>
    obtain ⟨a1, -, -, a4, -, a6⟩ := ht
    have hs : B.size = 1568 := by rw [← a4.2]; exact e1
    rw [a1, hs] at a6
    cases rest with
    | nil => exact absurd a6 (by decide)
    | cons C rest2 =>
      obtain ⟨c1, c2, -, c4, -, -⟩ := a6
      have : C.size = 0 := by
        rw [← c4.2, show base0 + 16 + 16 + 1568 + 16 + 12 = base0 + 1616 + 12 by decide]
        exact e2
      omega

/-- A byte store leaves the two globals as they are. -/
theorem store8_globals {s s' : State} {a v : Int} (h : store8 s a v = some s') :
    s'.region_base = s.region_base ∧ s'.free_list = s.free_list := by
  unfold store8 at h
  split_ifs at h
  cases h
  exact ⟨rfl, rfl⟩

/-- A store of an `unsigned int` leaves the two globals as they are. -/
theorem store32_globals {s s' : State} {a v : Int} (h : store32 s a v = some s') :
    s'.region_base = s.region_base ∧ s'.free_list = s.free_list := by
  unfold store32 at h
  split_ifs at h
  cases h
  exact ⟨rfl, rfl⟩

/-- A pointer store leaves the two globals as they are. -/
theorem storePtr_globals {s s' : State} {a v : Int} (h : storePtr s a v = some s') :
    s'.region_base = s.region_base ∧ s'.free_list = s.free_list := by
  unfold storePtr at h
  split_ifs at h
  cases h
  exact ⟨rfl, rfl⟩

/-- The library call `strcpy` leaves the two globals as they are. -/
theorem strcpy_globals {s' : State} : ∀ (fuel : Nat) (s : State) (d a : Int),
    strcpy s fuel d a = some s' →
    s'.region_base = s.region_base ∧ s'.free_list = s.free_list := by
  intro fuel
  induction fuel with
  | zero => intro s d a h; cases h
  | succ n ih =>
    intro s d a h
    unfold strcpy at h
    obtain ⟨c, -, h⟩ := bindOpt_eq_some h
    obtain ⟨s1, h1, h⟩ := bindOpt_eq_some h
    have g1 := store8_globals h1
    split_ifs at h
    · cases h; exact g1
    · have g2 := ih _ _ _ h
      exact ⟨g2.1.trans g1.1, g2.2.trans g1.2⟩

/-- The split branch leaves the two globals as they are. -/
theorem alloc_split_globals {s s' : State} {req t p : Int}
    (h : alloc_split s req t = some (s', p)) :
    s'.region_base = s.region_base ∧ s'.free_list = s.free_list := by
  unfold alloc_split at h
  repeat
    have hb := bindOpt_eq_some h
    clear h
    obtain ⟨_, hx, h⟩ := hb
    first
      | (unfold set_tag at hx; have g := store8_globals hx; obtain ⟨_, _⟩ := g)
      | (unfold set_size at hx; have g := store32_globals hx; obtain ⟨_, _⟩ := g)
      | (have g := strcpy_globals _ _ _ _ hx; obtain ⟨_, _⟩ := g)
      | skip
    try dsimp only at h
  cases h
  constructor <;> omega

/-- The whole-block branch leaves the two globals as they are. -/
theorem alloc_whole_globals {s s' : State} {ptr t mp p : Int}
    (h : alloc_whole s ptr t mp = some (s', p)) :
    s'.region_base = s.region_base ∧ s'.free_list = s.free_list := by
  unfold alloc_whole at h
  repeat
    have hb := bindOpt_eq_some h
    clear h
    obtain ⟨_, hx, h⟩ := hb
    first
      | (unfold set_tag at hx; have g := store8_globals hx; obtain ⟨_, _⟩ := g)
      | (unfold set_size at hx; have g := store32_globals hx; obtain ⟨_, _⟩ := g)
      | (unfold set_back at hx; have g := storePtr_globals hx; obtain ⟨_, _⟩ := g)
      | (unfold set_fwd at hx; have g := storePtr_globals hx; obtain ⟨_, _⟩ := g)
      | skip
    try dsimp only at h
  cases h
  constructor <;> omega

/-- The function `alloc_mem` leaves the two globals as they are. -/
theorem alloc_mem_globals {s s' : State} {amount p : Int}
    (h : alloc_mem s amount = some (s', p)) :
    s'.region_base = s.region_base ∧ s'.free_list = s.free_list := by
  unfold alloc_mem at h
  dsimp only at h
  split_ifs at h with c1
  · cases h; exact ⟨rfl, rfl⟩
  obtain ⟨p0, -, h⟩ := bindOpt_eq_some h
  obtain ⟨r, -, h⟩ := bindOpt_eq_some h
  split_ifs at h with c2
  · cases h; exact ⟨rfl, rfl⟩
  obtain ⟨sz, -, h⟩ := bindOpt_eq_some h
  split_ifs at h with c3
  · exact alloc_split_globals h
  · exact alloc_whole_globals h

/-- Case 1 of `release_mem` leaves the two globals as they are. -/
theorem release_case1_globals {s s' : State} {fp t e : Int}
    (h : release_case1 s fp t e = some s') :
    s'.region_base = s.region_base ∧ s'.free_list = s.free_list := by
  unfold release_case1 at h
  try dsimp only at h
  repeat
    have hb := bindOpt_eq_some h
    clear h
    obtain ⟨_, hx, h⟩ := hb
    first
      | (unfold set_tag at hx; have g := store8_globals hx; obtain ⟨_, _⟩ := g)
      | (unfold set_back at hx; have g := storePtr_globals hx; obtain ⟨_, _⟩ := g)
      | (unfold set_fwd at hx; have g := storePtr_globals hx; obtain ⟨_, _⟩ := g)
      | skip
    try dsimp only at h
  unfold set_back at h
  have g := storePtr_globals h
  obtain ⟨_, _⟩ := g
  constructor <;> omega

/-- Case 2 of `release_mem` leaves the two globals as they are. -/
theorem release_case2_globals {s s' : State} {t e : Int}
    (h : release_case2 s t e = some s') :
    s'.region_base = s.region_base ∧ s'.free_list = s.free_list := by
  unfold release_case2 at h
  try dsimp only at h
  repeat
    have hb := bindOpt_eq_some h
    clear h
    obtain ⟨_, hx, h⟩ := hb
    first
      | (unfold set_tag at hx; have g := store8_globals hx; obtain ⟨_, _⟩ := g)
      | (unfold set_size at hx; have g := store32_globals hx; obtain ⟨_, _⟩ := g)
      | skip
    try dsimp only at h
  unfold set_size at h
  have g := store32_globals h
  obtain ⟨_, _⟩ := g
  constructor <;> omega

/-- Case 3 of `release_mem` leaves the two globals as they are. -/
theorem release_case3_globals {s s' : State} {fp t : Int}
    (h : release_case3 s fp t = some s') :
    s'.region_base = s.region_base ∧ s'.free_list = s.free_list := by
  unfold release_case3 at h
  try dsimp only at h
  repeat
    have hb := bindOpt_eq_some h
    clear h
    obtain ⟨_, hx, h⟩ := hb
    first
      | (unfold set_tag at hx; have g := store8_globals hx; obtain ⟨_, _⟩ := g)
      | (unfold set_size at hx; have g := store32_globals hx; obtain ⟨_, _⟩ := g)
      | (unfold set_back at hx; have g := storePtr_globals hx; obtain ⟨_, _⟩ := g)
      | (unfold set_fwd at hx; have g := storePtr_globals hx; obtain ⟨_, _⟩ := g)
      | skip
    try dsimp only at h
  unfold set_fwd at h
  have g := storePtr_globals h
  obtain ⟨_, _⟩ := g
  constructor <;> omega

/-- Case 4 of `release_mem` leaves the two globals as they are. -/
theorem release_case4_globals {s s' : State} {t : Int}
    (h : release_case4 s t = some s') :
    s'.region_base = s.region_base ∧ s'.free_list = s.free_list := by
  unfold release_case4 at h
  try dsimp only at h
  repeat
    have hb := bindOpt_eq_some h
    clear h
    obtain ⟨_, hx, h⟩ := hb
    first
      | (unfold set_size at hx; have g := store32_globals hx; obtain ⟨_, _⟩ := g)
      | (unfold set_fwd at hx; have g := storePtr_globals hx; obtain ⟨_, _⟩ := g)
      | skip
    try dsimp only at h
  unfold set_back at h
  have g := storePtr_globals h
  obtain ⟨_, _⟩ := g
  constructor <;> omega

/-- The function `release_mem` leaves the two globals as they are. -/
theorem release_mem_globals {s s' : State} {ptr r : Int}
    (h : release_mem s ptr = some (s', r)) :
    s'.region_base = s.region_base ∧ s'.free_list = s.free_list := by
  rcases release_mem_inv h with ⟨-, e⟩ | ⟨-, hp, hf, c1, c3, c2, c4⟩
  · rw [e]; exact ⟨rfl, rfl⟩
  unfold release_mem at h
  rw [if_neg hp] at h
  obtain ⟨sz0, -, h⟩ := bindOpt_eq_some h
  dsimp only at h
  rw [if_neg hf] at h
  obtain ⟨t1, -, h⟩ := bindOpt_eq_some h
  split_ifs at h
  · cases h; exact ⟨rfl, rfl⟩
  obtain ⟨t2, -, h⟩ := bindOpt_eq_some h
  split_ifs at h
  · cases h; exact ⟨rfl, rfl⟩
  obtain ⟨z1, -, h⟩ := bindOpt_eq_some h
  split_ifs at h
  · cases h; exact ⟨rfl, rfl⟩
  obtain ⟨z2, -, h⟩ := bindOpt_eq_some h
  split_ifs at h
  · cases h; exact ⟨rfl, rfl⟩
  obtain ⟨tl, -, h⟩ := bindOpt_eq_some h
  obtain ⟨tu, -, h⟩ := bindOpt_eq_some h
  split_ifs at h
  · obtain ⟨x, hx, e⟩ := Option.map_eq_some'.1 h
    cases e
    exact release_case1_globals hx
  · obtain ⟨x, hx, e⟩ := Option.map_eq_some'.1 h
    cases e
    exact release_case2_globals hx
  · obtain ⟨x, hx, e⟩ := Option.map_eq_some'.1 h
    cases e
    exact release_case3_globals hx
  · obtain ⟨x, hx, e⟩ := Option.map_eq_some'.1 h
    cases e
    exact release_case4_globals hx

/-- In every reachable state the header is at offset 1664 of the region. -/
theorem Reachable.header {s : State} (h : Reachable s) :
    s.free_list = s.region_base + 1664 := by
  induction h with
  | init m0 base s h =>
    unfold init_region at h
    split_ifs at h
    cases h
    rfl
  | alloc s amount s' p _ h ih =>
    have g := alloc_mem_globals h
    omega
  | release s ptr s' r _ h ih =>
    have g := release_mem_globals h
    omega

/-- A run of calls from a reachable state ends in a reachable state. -/
theorem runCalls_reachable : ∀ (cs : List Call) (s : State) (rets : List Int)
    (r : State × List Int), Reachable s → runCalls s rets cs = some r → Reachable r.1 := by
  intro cs
  induction cs with
  | nil => intro s rets r hs h; cases h; exact hs
  | cons c cs ih =>
    intro s rets r hs h
    cases c with
    | alloc amount =>
      obtain ⟨x, hx, h⟩ := bindOpt_eq_some h
      exact ih _ _ _ (Reachable.alloc s amount x.1 x.2 hs hx) h
    | release i =>
      obtain ⟨x, hx, h⟩ := bindOpt_eq_some h
      exact ih _ _ _ (Reachable.release s _ x.1 x.2 hs hx) h

/-- The state after a completed run of calls from `init_region()` is reachable. -/
theorem stateAfter_reachable (cs : List Call)
    (h : (runCalls state_init [] cs).isSome = true) : Reachable (stateAfter cs) := by
  have h0 : Reachable state_init := Reachable.init zero_mem base0 state_init rfl
  unfold stateAfter
  cases hr : runCalls state_init [] cs with
  | none => rw [hr] at h; cases h
  | some r => exact runCalls_reachable cs _ _ r h0 hr

/-- C23 (the header is never releasable): in every reachable state in which the sentinel
tag at offset 1648 records size 0, `release_mem` applied to the address of the free-list
header returns 1 and the state is the one before the call. -/
theorem release_mem_header_rejected (s : State) (hr : Reachable s)
    (hz : rdLE s.mem 4 (s.region_base + 1648 + 12) = 0) :
    release_mem s s.free_list = some (s, 1) := by
  have hf := hr.header
  obtain ⟨m, b, f⟩ := s
  dsimp only at hf hz ⊢
  subst hf
  have e : rdLE m 4 (b + 1664 - 16 + 12) = 0 := by
    rw [show b + 1664 - 16 + 12 = b + 1648 + 12 by omega]; exact hz
  apply release_mem_rejects
  refine Or.inr ⟨by omega, Or.inr ⟨?_, Or.inl e⟩⟩
  rw [e]
  omega

/-- Witness for C23: the state after `p1 = alloc_mem(16); p2 = alloc_mem(16);
release_mem(p1)`. -/
theorem release_mem_header_rejected_witness :
    rdLE (stateAfter calls_two).mem 4 ((stateAfter calls_two).region_base + 1648 + 12) = 0 ∧
    release_mem (stateAfter calls_two) (stateAfter calls_two).free_list =
      some (stateAfter calls_two, 1) :=
  ⟨by decide!, release_mem_header_rejected (stateAfter calls_two)
    (stateAfter_reachable calls_two (by decide!)) (by decide!)⟩

/-- The search loop of `alloc_mem` on a forward segment of `k` nodes ending at the
header: `k + 1` evaluations of the loop condition are enough, and more fuel gives the
same result. -/
theorem alloc_search_steps (m : Mem) (b f req : Int) :
    ∀ (xs : List Int) (a : Int), FwdSeg m a xs f →
      (∀ x ∈ xs, x ≠ 0 ∧ x ≠ f ∧ b ≤ x - 16 ∧ x + 16 ≤ b + 1680) →
      ∃ r, ∀ j, alloc_search ⟨m, b, f⟩ req (xs.length + 1 + j) (rdLE m 8 (a + 8)) 0 = some r := by
  intro xs
  induction xs with
  | nil =>
    intro a h _
    have e : rdLE m 8 (a + 8) = f := h
    refine ⟨(f, 0), fun j => ?_⟩
    rw [e, show ([] : List Int).length + 1 + j = j + 1 by simp only [List.length_nil]; omega]
    exact alloc_search_header m b f req j
  | cons x xs ih =>
    intro a h hx
    obtain ⟨hx0, hxf, hxl, hxh⟩ := hx x (List.mem_cons_self _ _)
    obtain ⟨r, hr⟩ := ih x h.2 (fun y hy => hx y (List.mem_cons_of_mem _ hy))
    by_cases c : toU32 req ≤ rdLE m 4 (x - 16 + 12)
    · refine ⟨(x, x), fun j => ?_⟩
      rw [h.1, show (x :: xs).length + 1 + j = (xs.length + j) + 2 by
        simp only [List.length_cons]; omega]
      exact alloc_search_found m b f req x _ hx0 hxf (by omega) (by omega) c
    · refine ⟨r, fun j => ?_⟩
      rw [h.1, show (x :: xs).length + 1 + j = (xs.length + 1 + j) + 1 by
        simp only [List.length_cons]; omega]
      rw [alloc_search, if_pos ⟨hx0, hxf, rfl⟩, get_size_mk (by omega), bindOpt_some,
        if_neg c, get_fwd_mk (by omega), bindOpt_some]
      exact hr j

/-- The loop of `free_size` on a forward segment of `k` nodes ending at the header runs its
body exactly `k` times: `k` evaluations of the loop condition are not enough, `k + 1`
are. -/
theorem free_size_loop_steps (m : Mem) (b f : Int) :
    ∀ (xs : List Int) (a acc : Int), FwdSeg m a xs f →
      (∀ x ∈ xs, x ≠ 0 ∧ x ≠ f ∧ b ≤ x - 16 ∧ x + 16 ≤ b + 1680) →
      free_size_loop ⟨m, b, f⟩ xs.length (rdLE m 8 (a + 8)) acc = none ∧
      ∀ j, ∃ v, free_size_loop ⟨m, b, f⟩ (xs.length + 1 + j) (rdLE m 8 (a + 8)) acc = some v := by
  intro xs
  induction xs with
  | nil =>
    intro a acc h _
    have e : rdLE m 8 (a + 8) = f := h
    refine ⟨rfl, fun j => ⟨acc, ?_⟩⟩
    rw [e, show ([] : List Int).length + 1 + j = j + 1 by simp only [List.length_nil]; omega,
      free_size_loop, if_neg (by simp)]
  | cons x xs ih =>
    intro a acc h hx
    obtain ⟨hx0, hxf, hxl, hxh⟩ := hx x (List.mem_cons_self _ _)
    have hi := ih x (toI32 (toU32 acc + rdLE m 4 (x - 16 + 12))) h.2
      (fun y hy => hx y (List.mem_cons_of_mem _ hy))
    constructor
    · rw [h.1, List.length_cons, free_size_loop, if_pos ⟨hx0, hxf⟩, get_size_mk (by omega),
        bindOpt_some, get_fwd_mk (by omega), bindOpt_some]
      exact hi.1
    · intro j
      obtain ⟨v, hv⟩ := hi.2 j
      refine ⟨v, ?_⟩
      rw [h.1, show (x :: xs).length + 1 + j = (xs.length + 1 + j) + 1 by
        simp only [List.length_cons]; omega]
      rw [free_size_loop, if_pos ⟨hx0, hxf⟩, get_size_mk (by omega), bindOpt_some,
        get_fwd_mk (by omega), bindOpt_some]
      exact hv

/-- C24 (termination): in a state whose forward links run from the header through the
`k` nodes `ns` back to the header (header, nodes and their start tags inside the region),
the search loop of `alloc_mem` ends within `k + 1` evaluations of its condition, that is
after inspecting at most `k` nodes, and so within the 1680 steps the model allows; the
loop of `free_size`, entered after the first node has been read, runs its body exactly
`k - 1` times, so that exactly `k` nodes are visited, and `free_size` returns. -/
theorem loops_terminate (s : State) (ns : List Int) (req : Int)
    (hb : 0 < s.region_base) (hh : s.inRegion s.free_list 16)
    (hseg : FwdSeg s.mem s.free_list ns s.free_list)
    (hns : ∀ x ∈ ns, x ≠ s.free_list ∧ s.inRegion (x - 16) 32) :
    (∃ r, ∀ j, alloc_search s req (ns.length + 1 + j)
      (rdLE s.mem 8 (s.free_list + 8)) 0 = some r) ∧
    (∃ r, alloc_search s req 1680 (rdLE s.mem 8 (s.free_list + 8)) 0 = some r) ∧
    (∀ x xs, ns = x :: xs → ∀ acc,
      free_size_loop s xs.length (rdLE s.mem 8 (x + 8)) acc = none ∧
      ∀ j, ∃ v, free_size_loop s (xs.length + 1 + j) (rdLE s.mem 8 (x + 8)) acc = some v) ∧
    (∃ v, free_size s = some v) := by
  obtain ⟨m, b, f⟩ := s
  have hb' : 0 < b := hb
  have hh' : b ≤ f ∧ f + 16 ≤ b + 1680 := hh
  have hns' : ∀ x ∈ ns, x ≠ 0 ∧ x ≠ f ∧ b ≤ x - 16 ∧ x + 16 ≤ b + 1680 := by
    intro x hx
    obtain ⟨h1, h2, h3⟩ : x ≠ f ∧ b ≤ x - 16 ∧ x - 16 + 32 ≤ b + 1680 := hns x hx
    exact ⟨by omega, h1, h2, by omega⟩
  have hnd : ns.Nodup := hseg.distinct (fun h => (hns f h).1 rfl)
  have hlen : ns.length ≤ 1679 :=
    length_le_of_nodup_range hnd b 1679 (fun x hx => by have := hns' x hx; omega)
  obtain ⟨r, hr⟩ := alloc_search_steps m b f req ns f hseg hns'
  refine ⟨⟨r, hr⟩, ⟨r, ?_⟩, ?_, ⟨_, free_size_core m b f ns hb hh hseg hns⟩⟩
  · have := hr (1679 - ns.length)
    rw [show ns.length + 1 + (1679 - ns.length) = 1680 by omega] at this
    exact this
  · intro x xs e acc
    subst e
    exact free_size_loop_steps m b f xs x acc hseg.2
      (fun y hy => hns' y (List.mem_cons_of_mem _ hy))

/-- Witness for C24: the free list `[1616, 32]` reached by `p1 = alloc_mem(16);
p2 = alloc_mem(16); release_mem(p1)`, searched for 112 bytes. -/
theorem loops_terminate_witness :
    (0 < (stateAfter calls_two).region_base ∧
      (stateAfter calls_two).inRegion (stateAfter calls_two).free_list 16 ∧
      FwdSeg (stateAfter calls_two).mem (stateAfter calls_two).free_list
        [base0 + 1616, base0 + 32] (stateAfter calls_two).free_list) ∧
    ((∃ r, ∀ j, alloc_search (stateAfter calls_two) 112 ([base0 + 1616, base0 + 32].length + 1 + j)
      (rdLE (stateAfter calls_two).mem 8 ((stateAfter calls_two).free_list + 8)) 0 = some r) ∧
    (∃ r, alloc_search (stateAfter calls_two) 112 1680
      (rdLE (stateAfter calls_two).mem 8 ((stateAfter calls_two).free_list + 8)) 0 = some r) ∧
    (∀ x xs, [base0 + 1616, base0 + 32] = x :: xs → ∀ acc,
      free_size_loop (stateAfter calls_two) xs.length
        (rdLE (stateAfter calls_two).mem 8 (x + 8)) acc = none ∧
      ∀ j, ∃ v, free_size_loop (stateAfter calls_two) (xs.length + 1 + j)
        (rdLE (stateAfter calls_two).mem 8 (x + 8)) acc = some v) ∧
    (∃ v, free_size (stateAfter calls_two) = some v)) :=
  ⟨by decide!, loops_terminate (stateAfter calls_two) [base0 + 1616, base0 + 32] 112
    (by decide!) (by decide!) (by decide!) (by decide!)⟩

/-- The payload addresses of a tiling are 16-byte aligned relative to its start. -/
theorem Tiles.aligned {m : Mem} {lo hi : Int} {bl : List Block} (h : Tiles m lo bl hi)
    {B : Block} (hB : B ∈ bl) : (B.addr - lo) % 16 = 0 := by
  induction bl generalizing lo with
  | nil => cases hB
  | cons c cs ih =>
    obtain ⟨h1, h2, h3, -, -, h6⟩ := h
    rcases List.mem_cons.1 hB with e | e
    · subst e; omega
    · have := ih h6 e
      omega

/-- A list either has no element with the property `P` or splits at the first such
element. -/
theorem first_fit_split (P : Int → Prop) (ns : List Int) :
    (∀ x ∈ ns, ¬ P x) ∨
    ∃ pre n post, ns = pre ++ n :: post ∧ (∀ x ∈ pre, ¬ P x) ∧ P n := by
  induction ns with
  | nil => exact Or.inl (fun x hx => absurd hx (List.not_mem_nil x))
  | cons y ys ih =>
    by_cases hy : P y
    · exact Or.inr ⟨[], y, ys, rfl, fun x hx => absurd hx (List.not_mem_nil x), hy⟩
    · rcases ih with h | ⟨pre, n, post, e, hpre, hn⟩
      · left
        intro x hx
        rcases List.mem_cons.1 hx with e | e
        · rw [e]; exact hy
        · exact h x e
      · right
        refine ⟨y :: pre, n, post, by rw [e]; rfl, ?_, hn⟩
        intro x hx
        rcases List.mem_cons.1 hx with e | e
        · rw [e]; exact hy
        · exact hpre x e

/-- C26 (size of the block handed out): in a well-formed state, for every amount from 1
to 1600, `alloc_mem` returns, and if the returned address `p` is not NULL then `p - base`
is a multiple of 16, the tag at `p - 16` shows allocated and its recorded size `s` is a
multiple of 16 with `amount ≤ s < amount + 48`; `s` is at least the rounded request and
exceeds it by at most 32. -/
theorem alloc_mem_block_size (s : State) (bl : List Block) (ns : List Int) (amount : Int)
    (hwf : WellFormed s bl ns) (h1 : 1 ≤ amount) (h2 : amount ≤ 1600) :
    ∃ s' p, alloc_mem s amount = some (s', p) ∧
      (p ≠ 0 → (p - s.region_base) % 16 = 0 ∧ rd8 s'.mem (p - 16) = 1 ∧
        recSize s' p % 16 = 0 ∧ amount ≤ recSize s' p ∧ recSize s' p < amount + 48 ∧
        roundUp16 amount ≤ recSize s' p ∧ recSize s' p ≤ roundUp16 amount + 32) := by
  obtain ⟨m, b, f⟩ := s
  have hR := roundUp16_spec amount
  rcases first_fit_split (fun x => roundUp16 amount ≤ rdLE m 4 (x - 16 + 12)) ns with
    hall | ⟨pre, n, post, rfl, hpre, hn⟩
  · refine ⟨⟨m, b, f⟩, 0, ?_, fun h => absurd rfl h⟩
    apply alloc_mem_oversize_below_wrap _ bl ns amount hwf (by omega) (by omega)
    intro x hx
    obtain ⟨X, -, -, -, -, -, hx3, hx4, hx5⟩ := wf_node_block hwf hx
    have := hall x hx
    simp only [recSize]
    rw [hx5] at this ⊢
    unfold roundUp16 at this
    omega
  · have hnmem : n ∈ pre ++ n :: post := by simp
    obtain ⟨B, hB, hBf, hBa, hn1, hn2, hn3, hn4, hn5⟩ := wf_node_block hwf hnmem
    have hal := (hwf.2.2.2.2.2.1).aligned hB
    rw [hBa] at hal
    dsimp only at hal
    have hfound := alloc_mem_found m b f bl pre post n amount (rdLE m 4 (n - 16 + 12)) hwf
      (by omega) (by omega) rfl (fun x hx => not_le.1 (hpre x hx)) hn
    rw [hn5] at hfound hn
    by_cases c : roundUp16 amount + 48 ≤ B.size
    · rw [if_pos c] at hfound
      obtain ⟨m', h0, -, -, -, -, h5, h6, -, -, -⟩ :=
        alloc_split_core m b f n B.size (roundUp16 amount) hn1 (by omega) hn4 (by omega)
          hR.1 c hn5
      refine ⟨⟨m', b, f⟩, _, hfound.trans h0, fun _ => ⟨?_, h5, ?_⟩⟩
      · dsimp only; omega
      · simp only [recSize]
        rw [h6]
        omega
    · rw [if_neg c] at hfound
      obtain ⟨m', h0, ht, -, -⟩ := alloc_whole_wf m b f bl pre post n B.size hwf hn5
      refine ⟨⟨m', b, f⟩, _, hfound.trans h0, fun _ => ⟨?_, ht.1, ?_⟩⟩
      · dsimp only; omega
      · simp only [recSize]
        rw [ht.2]
        omega

/-- Witness for C26: a request of 100 bytes in the state reached by
`p1 = alloc_mem(16); p2 = alloc_mem(16); release_mem(p1)`. -/
theorem alloc_mem_block_size_witness :
    WellFormed (stateAfter calls_two)
      [⟨base0 + 32, 1504, true⟩, ⟨base0 + 1568, 16, false⟩, ⟨base0 + 1616, 16, true⟩]
      [base0 + 1616, base0 + 32] ∧
    ∃ s' p, alloc_mem (stateAfter calls_two) 100 = some (s', p) ∧
      (p ≠ 0 → (p - (stateAfter calls_two).region_base) % 16 = 0 ∧ rd8 s'.mem (p - 16) = 1 ∧
        recSize s' p % 16 = 0 ∧ 100 ≤ recSize s' p ∧ recSize s' p < 100 + 48 ∧
        roundUp16 100 ≤ recSize s' p ∧ recSize s' p ≤ roundUp16 100 + 32) :=
  ⟨by decide!, alloc_mem_block_size (stateAfter calls_two)
    [⟨base0 + 32, 1504, true⟩, ⟨base0 + 1568, 16, false⟩, ⟨base0 + 1616, 16, true⟩]
    [base0 + 1616, base0 + 32] 100 (by decide!) (by decide) (by decide)⟩

/-- A load inside the array. -/
theorem areaLoad_eq {a : Mem} {i : Int} (h : 0 ≤ i ∧ i < 256) : areaLoad a i = some (rd8 a i) := by
  unfold areaLoad; rw [if_pos h]

/-- A store inside the array. -/
theorem areaStore_eq {a : Mem} {i : Int} (v : Int) (h : 0 ≤ i ∧ i < 256) :
    areaStore a i v = some (wr8 a i v) := by
  unfold areaStore; rw [if_pos h]

/-- A store outside the array faults. -/
theorem areaStore_out {a : Mem} {i : Int} (v : Int) (h : ¬ (0 ≤ i ∧ i < 256)) :
    areaStore a i v = none := by
  unfold areaStore; rw [if_neg h]

/-- A load that completed was inside the array. -/
theorem areaLoad_eq_some {a : Mem} {i v : Int} (h : areaLoad a i = some v) :
    (0 ≤ i ∧ i < 256) ∧ v = rd8 a i := by
  unfold areaLoad at h
  by_cases c : 0 ≤ i ∧ i < 256
  · rw [if_pos c] at h; cases h; exact ⟨c, rfl⟩
  · rw [if_neg c] at h; cases h

/-- A sequence whose second part always faults faults. -/
theorem bindOpt_none_right {α β : Type} (x : Option α) {k : α → Option β}
    (h : ∀ v, k v = none) : bindOpt x k = none := by
  cases x with
  | none => rfl
  | some v => exact h v

/-- The two versions of the whole-block branch agree. -/
theorem take_whole_agree (a : Mem) (bp : Int) :
    SimpleMacros.take_whole a bp = SimpleAlloc.take_whole a bp := by
  unfold SimpleMacros.take_whole SimpleAlloc.take_whole SimpleMacros.set_TOP_STATUS
    SimpleMacros.set_BOTTOM_STATUS SimpleMacros.TOP_SIZE
  cases h : areaStore a bp 1 with
  | none => rfl
  | some a1 =>
    rw [bindOpt_some, bindOpt_some]
    cases h2 : areaLoad a1 (bp + 1) with
    | none => rfl
    | some sz =>
      rw [bindOpt_some, bindOpt_some, Int.add_assoc]

/-- A load outside the array faults. -/
theorem areaLoad_out {a : Mem} {i : Int} (h : ¬ (0 ≤ i ∧ i < 256)) : areaLoad a i = none := by
  unfold areaLoad; rw [if_neg h]

/-- The two versions of the split branch agree on a free block at `bp` whose payload
leaves at least `MIN_BLOCK_SIZE` bytes after the request: they store the same values at
the same seven places, in a different order. -/
theorem take_split_agree (a : Mem) (bp req : Int) (hbp : 0 ≤ bp ∧ bp < 256) (hreq : 0 ≤ req)
    (hrem : 6 ≤ rd8 a (bp + 1) - req) :
    SimpleMacros.take_split a bp req = SimpleAlloc.take_split a bp req := by
  have hs0 := rd8_nonneg a (bp + 1)
  have hs1 := rd8_lt a (bp + 1)
  unfold SimpleMacros.take_split SimpleAlloc.take_split SimpleMacros.set_BOTTOM_SIZE
    SimpleMacros.set_TOP_STATUS SimpleMacros.set_TOP_SIZE SimpleMacros.set_BOTTOM_STATUS
    SimpleMacros.set_TOP_STATUS_OF_NEXT_BLOCK SimpleMacros.set_TOP_SIZE_OF_NEXT_BLOCK
    SimpleMacros.TOP_SIZE
  by_cases h1 : bp + 1 < 256
  swap
  · rw [areaLoad_out (by omega)]
    rfl
  rw [areaLoad_eq (by omega)]
  simp only [bindOpt_some]
  by_cases h2 : bp + rd8 a (bp + 1) + 2 < 256
  swap
  · rw [areaStore_out _ (by omega)]
    symm
    refine bindOpt_none_right _ fun a1 => bindOpt_none_right _ fun a2 =>
      bindOpt_none_right _ fun a3 => bindOpt_none_right _ fun a4 =>
      bindOpt_none_right _ fun a5 => bindOpt_none_right _ fun a6 => ?_
    rw [areaStore_out _ (by omega)]
    rfl
  have hq : req % 256 = req := Int.emod_eq_of_lt hreq (by omega)
  rw [areaStore_eq _ (by omega), bindOpt_some, areaStore_eq _ (by omega), bindOpt_some,
    areaStore_eq _ (by omega), bindOpt_some, areaLoad_eq (by omega), bindOpt_some,
    rd8_wr8_same, hq, areaStore_eq _ (by omega), bindOpt_some, areaLoad_eq (by omega),
    bindOpt_some, rd8_wr8_ne _ _ _ _ (by omega), rd8_wr8_same, hq,
    areaStore_eq _ (by omega), bindOpt_some, areaLoad_eq (by omega), bindOpt_some,
    rd8_wr8_ne _ _ _ _ (by omega), rd8_wr8_ne _ _ _ _ (by omega), rd8_wr8_same, hq,
    areaStore_eq _ (by omega), bindOpt_some, areaLoad_eq (by omega), bindOpt_some,
    rd8_wr8_ne _ _ _ _ (by omega), rd8_wr8_ne _ _ _ _ (by omega),
    rd8_wr8_ne _ _ _ _ (by omega), rd8_wr8_same, hq,
    areaStore_eq _ (by omega)]
  repeat (first | rw [bindOpt_some] | rw [areaStore_eq _ (by omega)])
  congr 2
  funext i
  simp only [wr8_apply]
  split_ifs <;> first | rfl | omega

/-- The two versions of the search loop agree, for every request that is a value of
`unsigned int`. -/
theorem search_agree (req : Int) (hreq : 0 ≤ req) : ∀ (fuel : Nat) (a : Mem) (bp : Int),
    SimpleMacros.search req fuel a bp = SimpleAlloc.search req fuel a bp := by
  intro fuel
  induction fuel with
  | zero => intro a bp; rfl
  | succ n ih =>
    intro a bp
    rw [SimpleMacros.search, SimpleAlloc.search]
    unfold SimpleMacros.TOP_SIZE
    by_cases c1 : bp < 256
    swap
    · rw [if_neg c1, if_neg c1]
    rw [if_pos c1, if_pos c1]
    cases h : areaLoad a bp with
    | none => rfl
    | some st =>
      obtain ⟨hbp, -⟩ := areaLoad_eq_some h
      rw [bindOpt_some, bindOpt_some]
      cases h2 : areaLoad a (bp + 1) with
      | none => rfl
      | some sz =>
        obtain ⟨-, rfl⟩ := areaLoad_eq_some h2
        have hs1 := rd8_lt a (bp + 1)
        simp only [bindOpt_some]
        by_cases c2 : st = 0
        swap
        · rw [if_neg c2, if_neg c2]; exact ih _ _
        rw [if_pos c2, if_pos c2]
        by_cases c3 : req ≤ rd8 a (bp + 1)
        swap
        · rw [if_neg c3, if_neg c3]; exact ih _ _
        rw [if_pos c3, if_pos c3]
        by_cases c4 : toU32 (rd8 a (bp + 1) - req) < 6
        · rw [if_pos c4, if_pos c4]; exact take_whole_agree a bp
        · rw [if_neg c4, if_neg c4]
          exact take_split_agree a bp req hbp hreq (by unfold toU32 at c4; omega)

/-- C28 (the macro version is a refactoring): for every content of `area`, every request
and every address, `simple_allocate`, `simple_release` and `simple_init` of
`simple_macros.c` give the same result as those of `simple_alloc.c`: the same returned
pointer (or NULL), the same content of `area` afterwards, and a fault in the one exactly
when there is a fault in the other. -/
theorem macros_version_agrees (a : Mem) (req_size usr_ptr : Int) :
    SimpleMacros.simple_allocate a req_size = SimpleAlloc.simple_allocate a req_size ∧
    SimpleMacros.simple_release a usr_ptr = SimpleAlloc.simple_release a usr_ptr ∧
    SimpleMacros.simple_init a = SimpleAlloc.simple_init a := by
  refine ⟨?_, ?_, rfl⟩
  · unfold SimpleMacros.simple_allocate SimpleAlloc.simple_allocate
    dsimp only
    rw [search_agree (toU32 req_size) (by unfold toU32; omega)]
  · unfold SimpleMacros.simple_release SimpleAlloc.simple_release SimpleMacros.set_TOP_STATUS
      SimpleMacros.set_BOTTOM_STATUS SimpleMacros.TOP_SIZE
    dsimp only
    cases h : areaStore a (usr_ptr - 2) 0 with
    | none => rfl
    | some a1 =>
      rw [bindOpt_some, bindOpt_some, show usr_ptr - 2 + 1 = usr_ptr - 1 by omega]
      cases h2 : areaLoad a1 (usr_ptr - 1) with
      | none => rfl
      | some sz =>
        rw [bindOpt_some, bindOpt_some, show usr_ptr - 2 + sz + 3 = usr_ptr + sz + 1 by omega]

/-- Every block of a tiling takes at least four bytes. -/
theorem stiles_le {a : Mem} {lo hi : Int} {bl : List SBlock} (h : STiles a lo bl hi) :
    lo + 4 * bl.length ≤ hi := by
  induction bl generalizing lo with
  | nil => simp only [STiles] at h; simp [h]
  | cons B bs ih =>
    obtain ⟨-, -, h3, -, -, h6⟩ := h
    have := ih h6
    have := rd8_nonneg a (lo + 1)
    simp only [List.length_cons]
    push_cast
    omega

/-- A tiling by a concatenation is a tiling by the first list up to some offset followed
by a tiling by the second list. -/
theorem stiles_append {a : Mem} {hi : Int} {ys : List SBlock} :
    ∀ {xs : List SBlock} {lo : Int},
      STiles a lo (xs ++ ys) hi ↔ ∃ mid, STiles a lo xs mid ∧ STiles a mid ys hi := by
  intro xs
  induction xs with
  | nil =>
    intro lo
    constructor
    · intro h; exact ⟨lo, rfl, h⟩
    · rintro ⟨mid, e, h⟩
      have e' : lo = mid := e
      rw [e']; exact h
  | cons B bs ih =>
    intro lo
    rw [List.cons_append]
    constructor
    · rintro ⟨h1, h2, h3, h4, h5, h6⟩
      obtain ⟨mid, m1, m2⟩ := ih.1 h6
      exact ⟨mid, ⟨h1, h2, h3, h4, h5, m1⟩, m2⟩
    · rintro ⟨mid, ⟨h1, h2, h3, h4, h5, m1⟩, m2⟩
      exact ⟨h1, h2, h3, h4, h5, ih.2 ⟨mid, m1, m2⟩⟩

/-- A tiling only depends on the bytes it covers. -/
theorem stiles_congr {a a' : Mem} {hi : Int} :
    ∀ {bl : List SBlock} {lo : Int}, STiles a lo bl hi →
      (∀ i, lo ≤ i → i < hi → a' i = a i) → STiles a' lo bl hi := by
  intro bl
  induction bl with
  | nil => intro lo h _; exact h
  | cons B bs ih =>
    intro lo h hf
    have hl := stiles_le h.2.2.2.2.2
    have hn := rd8_nonneg a (lo + 1)
    obtain ⟨h1, h2, h3, h4, h5, h6⟩ := h
    have hB : 0 ≤ B.size := by rw [← h3]; exact hn
    simp only [List.length_cons] at hl
    refine ⟨h1, ?_, ?_, ?_, ?_, ih h6 (fun i hi1 hi2 => hf i (by omega) hi2)⟩
    · rw [rd8_congr (hf lo (by omega) (by omega))]; exact h2
    · rw [rd8_congr (hf (lo + 1) (by omega) (by omega))]; exact h3
    · rw [rd8_congr (hf (lo + B.size + 2) (by omega) (by omega))]; exact h4
    · rw [rd8_congr (hf (lo + B.size + 3) (by omega) (by omega))]; exact h5

/-- The search passes over the blocks that are allocated or too small. -/
theorem simple_search_skip (a : Mem) (req mid : Int) (hmid : mid ≤ 256) :
    ∀ (pre : List SBlock) (lo : Int), STiles a lo pre mid → 0 ≤ lo →
      (∀ X ∈ pre, X.unfit req) →
      ∀ k, SimpleAlloc.search req (pre.length + k) a lo = SimpleAlloc.search req k a mid := by
  intro pre
  induction pre with
  | nil =>
    intro lo h _ _ k
    have e : lo = mid := h
    simp only [List.length_nil, Nat.zero_add, e]
  | cons B bs ih =>
    intro lo h hlo hx k
    have hl := stiles_le h.2.2.2.2.2
    have hn := rd8_nonneg a (lo + 1)
    obtain ⟨h1, h2, h3, h4, h5, h6⟩ := h
    have hB : 0 ≤ B.size := by rw [← h3]; exact hn
    have hu : ¬ (B.status = 0 ∧ req ≤ B.size) := hx B (List.mem_cons_self _ _)
    have hrec := ih (lo + B.size + 4) h6 (by omega)
      (fun X hX => hx X (List.mem_cons_of_mem _ hX)) k
    rw [show (B :: bs).length + k = (bs.length + k) + 1 by simp only [List.length_cons]; omega]
    rw [SimpleAlloc.search, if_pos (by omega), areaLoad_eq (by omega), bindOpt_some,
      areaLoad_eq (by omega), h2, h3]
    simp only [bindOpt_some]
    rw [Int.add_assoc] at hrec
    by_cases c : B.status = 0
    · rw [if_pos c, if_neg (fun hc => hu ⟨c, hc⟩)]
      exact hrec
    · rw [if_neg c]
      exact hrec

/-- The search ends with NULL when it reaches the end of the array. -/
theorem simple_search_end (a : Mem) (req : Int) (k : Nat) :
    SimpleAlloc.search req (k + 1) a 256 = some (a, none) := by
  rw [SimpleAlloc.search, if_neg (by omega)]

/-- The search stops at a free block that is large enough and takes one of the two
branches. -/
theorem simple_search_hit (a : Mem) (req hi : Int) (hhi : hi ≤ 256) (B : SBlock)
    (post : List SBlock) (lo : Int) (h : STiles a lo (B :: post) hi) (hlo : 0 ≤ lo)
    (hs : B.status = 0) (hfit : req ≤ B.size) (k : Nat) :
    SimpleAlloc.search req (k + 1) a lo =
      if toU32 (B.size - req) < 6 then SimpleAlloc.take_whole a lo
      else SimpleAlloc.take_split a lo req := by
  have hl := stiles_le h.2.2.2.2.2
  have hn := rd8_nonneg a (lo + 1)
  obtain ⟨h1, h2, h3, h4, h5, h6⟩ := h
  have hB : 0 ≤ B.size := by rw [← h3]; exact hn
  rw [SimpleAlloc.search, if_pos (by omega), areaLoad_eq (by omega), bindOpt_some,
    areaLoad_eq (by omega), h2, h3]
  simp only [bindOpt_some]
  rw [if_pos hs, if_pos hfit]

/-- The whole-block branch on a free block `B` of a tiling: both status bytes of `B`
become 1 and nothing else changes. -/
theorem simple_take_whole (a : Mem) (pre : List SBlock) (B : SBlock) (post : List SBlock)
    (h : STiles a 0 (pre ++ B :: post) 256) :
    ∃ a', SimpleAlloc.take_whole a B.off = some (a', some (B.off + 2)) ∧
      STiles a' 0 (pre ++ ⟨B.off, B.size, 1⟩ :: post) 256 ∧
      (∀ i, i ≠ B.off → i ≠ B.off + B.size + 3 → a' i = a i) := by
  obtain ⟨lo, hp, hb⟩ := stiles_append.1 h
  have hl0 := stiles_le hp
  have hl := stiles_le hb.2.2.2.2.2
  have hn := rd8_nonneg a (lo + 1)
  obtain ⟨h1, h2, h3, h4, h5, h6⟩ := hb
  have hB : 0 ≤ B.size := by rw [← h3]; exact hn
  rw [h1]
  have hfr : ∀ i, i ≠ lo → i ≠ lo + B.size + 3 →
      wr8 (wr8 a lo 1) (lo + (B.size + 3)) 1 i = a i := by
    intro i i1 i2
    rw [wr8_apply, if_neg (by omega), wr8_apply, if_neg i1]
  refine ⟨wr8 (wr8 a lo 1) (lo + (B.size + 3)) 1, ?_, ?_, hfr⟩
  · unfold SimpleAlloc.take_whole
    rw [areaStore_eq _ (by omega), bindOpt_some, areaLoad_eq (by omega), bindOpt_some,
      rd8_wr8_ne _ _ _ _ (by omega), h3, areaStore_eq _ (by omega), bindOpt_some]
  · refine stiles_append.2 ⟨lo, stiles_congr hp (fun i _ i2 => hfr i (by omega) (by omega)),
      rfl, ?_, ?_, ?_, ?_, stiles_congr h6 (fun i i1 _ =>
        hfr i (by dsimp only at i1; omega) (by dsimp only at i1; omega))⟩
    · show rd8 _ lo = 1
      rw [rd8_wr8_ne _ _ _ _ (by omega), rd8_wr8_same]; rfl
    · show rd8 _ (lo + 1) = B.size
      rw [rd8_wr8_ne _ _ _ _ (by omega), rd8_wr8_ne _ _ _ _ (by omega), h3]
    · show rd8 _ (lo + B.size + 2) = B.size
      rw [rd8_wr8_ne _ _ _ _ (by omega), rd8_wr8_ne _ _ _ _ (by omega), h4]
    · show rd8 _ (lo + B.size + 3) = 1
      rw [rd8_wr8_eq _ _ _ _ (by omega)]; rfl

/-- The split branch on a free block `B` of a tiling, for a request `req` that leaves at
least 6 bytes: `B` becomes an allocated block of `req` bytes followed by a free block of
`B.size - req - 4` bytes, and nothing outside `B` changes. -/
theorem simple_take_split (a : Mem) (pre : List SBlock) (B : SBlock) (post : List SBlock)
    (req : Int) (h : STiles a 0 (pre ++ B :: post) 256) (hs : B.status = 0)
    (hreq : 0 ≤ req) (hrem : 6 ≤ B.size - req) :
    ∃ a', SimpleAlloc.take_split a B.off req = some (a', some (B.off + 2)) ∧
      STiles a' 0 (pre ++ ⟨B.off, req, 1⟩ ::
        ⟨B.off + req + 4, B.size - req - 4, 0⟩ :: post) 256 ∧
      (∀ i, (i < B.off ∨ B.off + B.size + 3 ≤ i) → a' i = a i) := by
  obtain ⟨lo, hp, hb⟩ := stiles_append.1 h
  have hl0 := stiles_le hp
  have hl := stiles_le hb.2.2.2.2.2
  have hn := rd8_nonneg a (lo + 1)
  have hn2 := rd8_lt a (lo + 1)
  obtain ⟨h1, h2, h3, h4, h5, h6⟩ := hb
  have hB : 0 ≤ B.size := by rw [← h3]; exact hn
  have hB2 : B.size < 256 := by rw [← h3]; exact hn2
  rw [h1]
  have hq : req % 256 = req := Int.emod_eq_of_lt hreq (by omega)
  have hr : toU32 (B.size - req - 4) % 256 = B.size - req - 4 := by unfold toU32; omega
  obtain ⟨a', ha'⟩ : ∃ a', a' = wr8 (wr8 (wr8 (wr8 (wr8 (wr8 (wr8 a lo 1) (lo + 1) req)
      (lo + req + 2) req) (lo + req + 3) 1) (lo + req + 4) 0)
      (lo + req + 5) (toU32 (B.size - req - 4)))
      (lo + B.size + 2) (toU32 (B.size - req - 4)) := ⟨_, rfl⟩
  have hfr : ∀ i, (i < lo ∨ lo + B.size + 3 ≤ i) → a' i = a i := by
    intro i hi
    rw [ha']
    simp only [wr8_apply]
    rw [if_neg (by omega), if_neg (by omega), if_neg (by omega), if_neg (by omega),
      if_neg (by omega), if_neg (by omega), if_neg (by omega)]
  have r1 : rd8 a' lo = 1 := by
    rw [ha', rd8_wr8_ne _ _ _ _ (by omega), rd8_wr8_ne _ _ _ _ (by omega),
      rd8_wr8_ne _ _ _ _ (by omega), rd8_wr8_ne _ _ _ _ (by omega),
      rd8_wr8_ne _ _ _ _ (by omega), rd8_wr8_ne _ _ _ _ (by omega), rd8_wr8_same]
    rfl
  have r2 : rd8 a' (lo + 1) = req := by
    rw [ha', rd8_wr8_ne _ _ _ _ (by omega), rd8_wr8_ne _ _ _ _ (by omega),
      rd8_wr8_ne _ _ _ _ (by omega), rd8_wr8_ne _ _ _ _ (by omega),
      rd8_wr8_ne _ _ _ _ (by omega), rd8_wr8_same, hq]
  have r3 : rd8 a' (lo + req + 2) = req := by
    rw [ha', rd8_wr8_ne _ _ _ _ (by omega), rd8_wr8_ne _ _ _ _ (by omega),
      rd8_wr8_ne _ _ _ _ (by omega), rd8_wr8_ne _ _ _ _ (by omega), rd8_wr8_same, hq]
  have r4 : rd8 a' (lo + req + 3) = 1 := by
    rw [ha', rd8_wr8_ne _ _ _ _ (by omega), rd8_wr8_ne _ _ _ _ (by omega),
      rd8_wr8_ne _ _ _ _ (by omega), rd8_wr8_same]
    rfl
  have r5 : rd8 a' (lo + req + 4) = 0 := by
    rw [ha', rd8_wr8_ne _ _ _ _ (by omega), rd8_wr8_ne _ _ _ _ (by omega), rd8_wr8_same]
    rfl
  have r6 : rd8 a' (lo + req + 5) = B.size - req - 4 := by
    rw [ha', rd8_wr8_ne _ _ _ _ (by omega), rd8_wr8_same, hr]
  have r7 : rd8 a' (lo + B.size + 2) = B.size - req - 4 := by
    rw [ha', rd8_wr8_same, hr]
  have r8 : rd8 a' (lo + B.size + 3) = 0 := by
    rw [rd8_congr (hfr _ (by omega)), h5, hs]
  refine ⟨a', ?_, ?_, hfr⟩
  · unfold SimpleAlloc.take_split
    rw [areaLoad_eq (by omega), bindOpt_some, bindOpt_some, h3]
    dsimp only
    rw [ha']
    repeat (first | rw [bindOpt_some] | rw [areaStore_eq _ (by omega)])
  · refine stiles_append.2 ⟨lo, stiles_congr hp (fun i _ i2 => hfr i (by omega)),
      rfl, r1, r2, r3, r4, rfl, ?_, ?_, ?_, ?_,
      stiles_congr ?_ (fun i i1 _ => hfr i (by dsimp only at i1; omega))⟩
    · exact r5
    · show rd8 a' (lo + req + 4 + 1) = B.size - req - 4
      rw [show lo + req + 4 + 1 = lo + req + 5 by omega]; exact r6
    · show rd8 a' (lo + req + 4 + (B.size - req - 4) + 2) = B.size - req - 4
      rw [show lo + req + 4 + (B.size - req - 4) + 2 = lo + B.size + 2 by omega]; exact r7
    · show rd8 a' (lo + req + 4 + (B.size - req - 4) + 3) = 0
      rw [show lo + req + 4 + (B.size - req - 4) + 3 = lo + B.size + 3 by omega]; exact r8
    · show STiles a (lo + req + 4 + (B.size - req - 4) + 4) post 256
      rw [show lo + req + 4 + (B.size - req - 4) + 4 = lo + B.size + 4 by omega]; exact h6

/-- A list either has no element with the property `P` or splits at its first element
with the property. -/
theorem list_first_split {α : Type} (P : α → Prop) (l : List α) :
    (∀ x ∈ l, ¬ P x) ∨
    ∃ pre n post, l = pre ++ n :: post ∧ (∀ x ∈ pre, ¬ P x) ∧ P n := by
  induction l with
  | nil => exact Or.inl (fun x hx => absurd hx (List.not_mem_nil x))
  | cons y ys ih =>
    by_cases hy : P y
    · exact Or.inr ⟨[], y, ys, rfl, fun x hx => absurd hx (List.not_mem_nil x), hy⟩
    · rcases ih with h | ⟨pre, n, post, e, hpre, hn⟩
      · left
        intro x hx
        rcases List.mem_cons.1 hx with e | e
        · rw [e]; exact hy
        · exact h x e
      · right
        refine ⟨y :: pre, n, post, by rw [e]; rfl, ?_, hn⟩
        intro x hx
        rcases List.mem_cons.1 hx with e | e
        · rw [e]; exact hy
        · exact hpre x e

/-- The argument of `simple_allocate` is an `unsigned int`. -/
theorem simple_allocate_toU32 (a : Mem) (req_size : Int) :
    SimpleAlloc.simple_allocate a req_size = SimpleAlloc.simple_allocate a (toU32 req_size) := by
  unfold SimpleAlloc.simple_allocate
  dsimp only
  rw [show toU32 (toU32 req_size) = toU32 req_size by unfold toU32; omega]

/-- A request above 252 bytes, or one that no block of the tiling satisfies, returns NULL
and leaves `area` as it is. -/
theorem simple_allocate_nofit (a : Mem) (bl : List SBlock) (req : Int)
    (ht : STiles a 0 bl 256) (h0 : 0 ≤ req) (h1 : req < 4294967296)
    (hn : 252 < req ∨ ∀ X ∈ bl, X.unfit req) :
    SimpleAlloc.simple_allocate a req = some (a, none) := by
  have hl := stiles_le ht
  unfold SimpleAlloc.simple_allocate
  dsimp only
  rw [toU32_eq _ h0 h1]
  by_cases c : req > 256 - 4
  · rw [if_pos c]
  rw [if_neg c]
  rcases hn with hn | hn
  · exact absurd hn (by omega)
  rw [show 65 = bl.length + ((64 - bl.length) + 1) by omega,
    simple_search_skip a req 256 (le_refl _) bl 0 ht (le_refl _) hn, simple_search_end]

/-- A request that the block `B` of the tiling is the first to satisfy is served from
`B`: the whole block when fewer than 6 bytes would remain, a split otherwise. -/
theorem simple_allocate_fit (a : Mem) (pre : List SBlock) (B : SBlock) (post : List SBlock)
    (req : Int) (ht : STiles a 0 (pre ++ B :: post) 256) (h0 : 0 ≤ req)
    (hpre : ∀ X ∈ pre, X.unfit req) (hs : B.status = 0) (hfit : req ≤ B.size) :
    ∃ a', SimpleAlloc.simple_allocate a req = some (a', some (B.off + 2)) ∧
      (B.size - req < 6 → STiles a' 0 (pre ++ ⟨B.off, B.size, 1⟩ :: post) 256 ∧
        ∀ i, i ≠ B.off → i ≠ B.off + B.size + 3 → a' i = a i) ∧
      (6 ≤ B.size - req → STiles a' 0 (pre ++ ⟨B.off, req, 1⟩ ::
          ⟨B.off + req + 4, B.size - req - 4, 0⟩ :: post) 256 ∧
        ∀ i, (i < B.off ∨ B.off + B.size + 3 ≤ i) → a' i = a i) := by
  have hlen := stiles_le ht
  obtain ⟨lo, hp, hb⟩ := stiles_append.1 ht
  have hl0 := stiles_le hp
  have hl := stiles_le hb.2.2.2.2.2
  have hoff : B.off = lo := hb.1
  simp only [List.length_append, List.length_cons] at hlen
  push_cast at hlen
  have hsearch : SimpleAlloc.simple_allocate a req =
      if toU32 (B.size - req) < 6 then SimpleAlloc.take_whole a lo
      else SimpleAlloc.take_split a lo req := by
    unfold SimpleAlloc.simple_allocate
    dsimp only
    rw [toU32_eq _ h0 (by omega), if_neg (by omega),
      show 65 = pre.length + ((64 - pre.length) + 1) by omega,
      simple_search_skip a req lo (by omega) pre 0 hp (le_refl _) hpre,
      simple_search_hit a req 256 (le_refl _) B post lo hb (by omega) hs hfit]
  have hu : toU32 (B.size - req) = B.size - req := toU32_eq _ (by omega) (by omega)
  rw [hu, ← hoff] at hsearch
  by_cases c : B.size - req < 6
  · rw [if_pos c] at hsearch
    obtain ⟨a', e1, e2, e3⟩ := simple_take_whole a pre B post ht
    exact ⟨a', hsearch.trans e1, fun _ => ⟨e2, e3⟩, fun h => absurd h (by omega)⟩
  · rw [if_neg c] at hsearch
    obtain ⟨a', e1, e2, e3⟩ := simple_take_split a pre B post req ht hs h0 (by omega)
    exact ⟨a', hsearch.trans e1, fun h => absurd h c, fun _ => ⟨e2, e3⟩⟩

/-- The function `simple_release` on the payload address of a block `B` of a tiling: both
status bytes of `B` become 0 and nothing else changes. -/
theorem simple_release_block (a : Mem) (pre : List SBlock) (B : SBlock) (post : List SBlock)
    (h : STiles a 0 (pre ++ B :: post) 256) :
    ∃ a', SimpleAlloc.simple_release a (B.off + 2) = some a' ∧
      STiles a' 0 (pre ++ ⟨B.off, B.size, 0⟩ :: post) 256 ∧
      (∀ i, i ≠ B.off → i ≠ B.off + B.size + 3 → a' i = a i) := by
  obtain ⟨lo, hp, hb⟩ := stiles_append.1 h
  have hl0 := stiles_le hp
  have hl := stiles_le hb.2.2.2.2.2
  have hn := rd8_nonneg a (lo + 1)
  obtain ⟨h1, h2, h3, h4, h5, h6⟩ := hb
  have hB : 0 ≤ B.size := by rw [← h3]; exact hn
  rw [h1]
  have hfr : ∀ i, i ≠ lo → i ≠ lo + B.size + 3 →
      wr8 (wr8 a lo 0) (lo + B.size + 3) 0 i = a i := by
    intro i i1 i2
    rw [wr8_apply, if_neg i2, wr8_apply, if_neg i1]
  refine ⟨wr8 (wr8 a lo 0) (lo + B.size + 3) 0, ?_, ?_, hfr⟩
  · unfold SimpleAlloc.simple_release
    rw [show lo + 2 - 2 = lo by omega, show lo + 2 - 1 = lo + 1 by omega,
      areaStore_eq _ (by omega), bindOpt_some, areaLoad_eq (by omega), bindOpt_some,
      rd8_wr8_ne _ _ _ _ (by omega), h3, show lo + 2 + B.size + 1 = lo + B.size + 3 by omega,
      areaStore_eq _ (by omega)]
  · refine stiles_append.2 ⟨lo, stiles_congr hp (fun i _ i2 => hfr i (by omega) (by omega)),
      rfl, ?_, ?_, ?_, ?_, stiles_congr h6 (fun i i1 _ =>
        hfr i (by dsimp only at i1; omega) (by dsimp only at i1; omega))⟩
    · show rd8 _ lo = 0
      rw [rd8_wr8_ne _ _ _ _ (by omega), rd8_wr8_same]; rfl
    · show rd8 _ (lo + 1) = B.size
      rw [rd8_wr8_ne _ _ _ _ (by omega), rd8_wr8_ne _ _ _ _ (by omega), h3]
    · show rd8 _ (lo + B.size + 2) = B.size
      rw [rd8_wr8_ne _ _ _ _ (by omega), rd8_wr8_ne _ _ _ _ (by omega), h4]
    · show rd8 _ (lo + B.size + 3) = 0
      rw [rd8_wr8_same]; rfl

/-- The function `simple_init` leaves one free block of 252 bytes. -/
theorem simple_init_tiles (a : Mem) : STiles (SimpleAlloc.simple_init a) 0 [⟨0, 252, 0⟩] 256 := by
  unfold SimpleAlloc.simple_init
  dsimp only
  refine ⟨rfl, ?_, ?_, ?_, ?_, rfl⟩
  · rw [rd8_wr8_ne _ _ _ _ (by omega), rd8_wr8_ne _ _ _ _ (by omega),
      rd8_wr8_ne _ _ _ _ (by omega), rd8_wr8_same]; rfl
  · rw [rd8_wr8_ne _ _ _ _ (by omega), rd8_wr8_ne _ _ _ _ (by omega),
      rd8_wr8_eq _ _ _ _ (by omega)]; rfl
  · show rd8 _ (0 + 252 + 2) = 252
    rw [rd8_wr8_ne _ _ _ _ (by omega), rd8_wr8_eq _ _ _ _ (by omega)]; rfl
  · show rd8 _ (0 + 252 + 3) = 0
    rw [rd8_wr8_eq _ _ _ _ (by omega)]; rfl

/-- On a tiled `area` the function `simple_allocate` returns, for every argument, and
leaves a tiled `area` in which every old block offset is still a block offset and the
returned address is the payload address of a block. -/
theorem simple_allocate_keeps_tiling (a : Mem) (bl : List SBlock) (req_size : Int)
    (ht : STiles a 0 bl 256) :
    ∃ a' r bl', SimpleAlloc.simple_allocate a req_size = some (a', r) ∧
      STiles a' 0 bl' 256 ∧ (r = none → a' = a) ∧
      (∀ X ∈ bl, ∃ Y ∈ bl', Y.off = X.off) ∧
      (∀ p, r = some p → ∃ Y ∈ bl', Y.off + 2 = p) := by
  have h0 : 0 ≤ toU32 req_size := by unfold toU32; omega
  have h1 : toU32 req_size < 4294967296 := by unfold toU32; omega
  rw [simple_allocate_toU32]
  rcases list_first_split (fun X : SBlock => X.status = 0 ∧ toU32 req_size ≤ X.size) bl with
    hn | ⟨pre, B, post, rfl, hpre, hB⟩
  · exact ⟨a, none, bl, simple_allocate_nofit a bl _ ht h0 h1 (Or.inr hn), ht, fun _ => rfl,
      fun X hX => ⟨X, hX, rfl⟩, fun p hp => by cases hp⟩
  · obtain ⟨a', e, hw, hsp⟩ := simple_allocate_fit a pre B post _ ht h0 hpre hB.1 hB.2
    by_cases c : B.size - toU32 req_size < 6
    · refine ⟨a', _, _, e, (hw c).1, (fun h => by cases h), ?_, ?_⟩
      · intro X hX
        rcases List.mem_append.1 hX with hX | hX
        · exact ⟨X, List.mem_append_left _ hX, rfl⟩
        · rcases List.mem_cons.1 hX with hX | hX
          · exact ⟨_, List.mem_append_right _ (List.mem_cons_self _ _), by rw [hX]⟩
          · exact ⟨X, List.mem_append_right _ (List.mem_cons_of_mem _ hX), rfl⟩
      · intro p hp
        cases hp
        exact ⟨_, List.mem_append_right _ (List.mem_cons_self _ _), rfl⟩
    · refine ⟨a', _, _, e, (hsp (by omega)).1, (fun h => by cases h), ?_, ?_⟩
      · intro X hX
        rcases List.mem_append.1 hX with hX | hX
        · exact ⟨X, List.mem_append_left _ hX, rfl⟩
        · rcases List.mem_cons.1 hX with hX | hX
          · exact ⟨_, List.mem_append_right _ (List.mem_cons_self _ _), by rw [hX]⟩
          · exact ⟨X, List.mem_append_right _
              (List.mem_cons_of_mem _ (List.mem_cons_of_mem _ hX)), rfl⟩
      · intro p hp
        cases hp
        exact ⟨_, List.mem_append_right _ (List.mem_cons_self _ _), rfl⟩

/-- In every reachable content of `area` the blocks tile the array and every address
returned so far is the payload address of a block. -/
theorem sreach_tiles {a : Mem} {ps : List Int} (h : SReach a ps) :
    ∃ bl, STiles a 0 bl 256 ∧ ∀ p ∈ ps, ∃ B ∈ bl, B.off + 2 = p := by
  induction h with
  | init a => exact ⟨_, simple_init_tiles a, fun p hp => absurd hp (List.not_mem_nil p)⟩
  | alloc a ps req_size a' p _ hc ih =>
    obtain ⟨bl, ht, hps⟩ := ih
    obtain ⟨a2, r, bl', e, ht', -, hold, hnew⟩ := simple_allocate_keeps_tiling a bl req_size ht
    rw [hc] at e
    cases e
    refine ⟨bl', ht', fun q hq => ?_⟩
    rcases List.mem_cons.1 hq with hq | hq
    · rw [hq]; exact hnew p rfl
    · obtain ⟨X, hX, e⟩ := hps q hq
      obtain ⟨Y, hY, e2⟩ := hold X hX
      exact ⟨Y, hY, by rw [e2]; exact e⟩
  | alloc_null a ps req_size a' _ hc ih =>
    obtain ⟨bl, ht, hps⟩ := ih
    obtain ⟨a2, r, bl', e, ht', -, hold, -⟩ := simple_allocate_keeps_tiling a bl req_size ht
    rw [hc] at e
    cases e
    refine ⟨bl', ht', fun q hq => ?_⟩
    obtain ⟨X, hX, e⟩ := hps q hq
    obtain ⟨Y, hY, e2⟩ := hold X hX
    exact ⟨Y, hY, by rw [e2]; exact e⟩
  | release a ps p a' _ hp hc ih =>
    obtain ⟨bl, ht, hps⟩ := ih
    obtain ⟨B, hB, e⟩ := hps p hp
    obtain ⟨pre, post, rfl⟩ := List.append_of_mem hB
    obtain ⟨a2, e1, e2, -⟩ := simple_release_block a pre B post ht
    rw [e, hc] at e1
    cases e1
    refine ⟨_, e2, fun q hq => ?_⟩
    obtain ⟨X, hX, e⟩ := hps q hq
    rcases List.mem_append.1 hX with hX | hX
    · exact ⟨X, List.mem_append_left _ hX, e⟩
    · rcases List.mem_cons.1 hX with hX | hX
      · exact ⟨_, List.mem_append_right _ (List.mem_cons_self _ _), by rw [← e, hX]⟩
      · exact ⟨X, List.mem_append_right _ (List.mem_cons_of_mem _ hX), e⟩

/-- C29 (simple allocator policy): for every tiled content of `area` and every request
(a value of `unsigned int`), `simple_allocate` returns NULL, leaving `area` as it is,
when the request exceeds 252 or no free block has a payload of at least the request;
otherwise it takes the first block `B` in address order that is free with
`B.size ≥ req_size` and returns `B.off + 2`: when `B.size - req_size < 6` the block is
marked allocated at both ends with its size unchanged, else it becomes an allocated
block of payload `req_size` followed by a free block of payload
`B.size - req_size - 4`.  The function always returns, and the result is NULL exactly in
the first case. -/
theorem simple_allocate_policy (a : Mem) (bl : List SBlock) (req_size : Int)
    (ht : STiles a 0 bl 256) (h0 : 0 ≤ req_size) (h1 : req_size < 4294967296) :
    ((252 < req_size ∨ ∀ X ∈ bl, ¬ (X.status = 0 ∧ req_size ≤ X.size)) →
      SimpleAlloc.simple_allocate a req_size = some (a, none)) ∧
    (∀ pre B post, bl = pre ++ B :: post →
      (∀ X ∈ pre, ¬ (X.status = 0 ∧ req_size ≤ X.size)) →
      B.status = 0 → req_size ≤ B.size →
      ∃ a', SimpleAlloc.simple_allocate a req_size = some (a', some (B.off + 2)) ∧
        (B.size - req_size < 6 →
          STiles a' 0 (pre ++ ⟨B.off, B.size, 1⟩ :: post) 256) ∧
        (6 ≤ B.size - req_size →
          STiles a' 0 (pre ++ ⟨B.off, req_size, 1⟩ ::
            ⟨B.off + req_size + 4, B.size - req_size - 4, 0⟩ :: post) 256)) ∧
    (∃ a' r, SimpleAlloc.simple_allocate a req_size = some (a', r) ∧
      (r = none ↔ (252 < req_size ∨ ∀ X ∈ bl, ¬ (X.status = 0 ∧ req_size ≤ X.size)))) := by
  refine ⟨fun hn => simple_allocate_nofit a bl req_size ht h0 h1 hn, ?_, ?_⟩
  · intro pre B post e hpre hs hfit
    subst e
    obtain ⟨a', e, hw, hsp⟩ := simple_allocate_fit a pre B post req_size ht h0 hpre hs hfit
    exact ⟨a', e, fun c => (hw c).1, fun c => (hsp c).1⟩
  · rcases list_first_split (fun X : SBlock => X.status = 0 ∧ req_size ≤ X.size) bl with
      hn | ⟨pre, B, post, rfl, hpre, hB⟩
    · exact ⟨a, none, simple_allocate_nofit a bl req_size ht h0 h1 (Or.inr hn),
        fun _ => Or.inr hn, fun _ => rfl⟩
    · obtain ⟨a', e, -, -⟩ := simple_allocate_fit a pre B post req_size ht h0 hpre hB.1 hB.2
      refine ⟨a', _, e, (fun h => by cases h), fun h => ?_⟩
      exfalso
      obtain ⟨lo, hp, hb⟩ := stiles_append.1 ht
      have hl0 := stiles_le hp
      have hl := stiles_le hb.2.2.2.2.2
      rcases h with h | h
      · have := hB.2
        omega
      · exact h B (List.mem_append_right _ (List.mem_cons_self _ _)) hB

/-- Witness for C29: a request of 12 bytes on the content left by `simple_init`. -/
theorem simple_allocate_policy_witness :
    STiles (SimpleAlloc.simple_init zero_mem) 0 [⟨0, 252, 0⟩] 256 ∧
    (((252 : Int) < 12 ∨ ∀ X ∈ [(⟨0, 252, 0⟩ : SBlock)], ¬ (X.status = 0 ∧ 12 ≤ X.size)) →
      SimpleAlloc.simple_allocate (SimpleAlloc.simple_init zero_mem) 12 =
        some (SimpleAlloc.simple_init zero_mem, none)) ∧
    (∀ pre B post, [(⟨0, 252, 0⟩ : SBlock)] = pre ++ B :: post →
      (∀ X ∈ pre, ¬ (X.status = 0 ∧ 12 ≤ X.size)) →
      B.status = 0 → 12 ≤ B.size →
      ∃ a', SimpleAlloc.simple_allocate (SimpleAlloc.simple_init zero_mem) 12 =
          some (a', some (B.off + 2)) ∧
        (B.size - 12 < 6 →
          STiles a' 0 (pre ++ ⟨B.off, B.size, 1⟩ :: post) 256) ∧
        (6 ≤ B.size - 12 →
          STiles a' 0 (pre ++ ⟨B.off, 12, 1⟩ ::
            ⟨B.off + 12 + 4, B.size - 12 - 4, 0⟩ :: post) 256)) ∧
    (∃ a' r, SimpleAlloc.simple_allocate (SimpleAlloc.simple_init zero_mem) 12 = some (a', r) ∧
      (r = none ↔ ((252 : Int) < 12 ∨
        ∀ X ∈ [(⟨0, 252, 0⟩ : SBlock)], ¬ (X.status = 0 ∧ 12 ≤ X.size)))) :=
  ⟨by decide!, simple_allocate_policy (SimpleAlloc.simple_init zero_mem) [⟨0, 252, 0⟩] 12
    (by decide!) (by decide) (by decide)⟩

/-- C30 (simple allocator tiling invariant): `simple_init` leaves one free block that
tiles the 256 bytes; on a tiled `area`, `simple_allocate` returns for every argument and
leaves a tiled `area`; `simple_release` on the payload address of a block changes only
the two status bytes of that block, so the same blocks with the same sizes tile the
array afterwards; and in every reachable content the array is tiled and every address
returned by `simple_allocate` so far is the payload address of a block, so that its
release is such a call. -/
theorem simple_tiling_invariant :
    (∀ a, STiles (SimpleAlloc.simple_init a) 0 [⟨0, 252, 0⟩] 256) ∧
    (∀ a bl req_size, STiles a 0 bl 256 →
      ∃ a' r bl', SimpleAlloc.simple_allocate a req_size = some (a', r) ∧
        STiles a' 0 bl' 256) ∧
    (∀ a pre B post, STiles a 0 (pre ++ B :: post) 256 →
      ∃ a', SimpleAlloc.simple_release a (B.off + 2) = some a' ∧
        STiles a' 0 (pre ++ ⟨B.off, B.size, 0⟩ :: post) 256 ∧
        (∀ i, i ≠ B.off → i ≠ B.off + B.size + 3 → a' i = a i)) ∧
    (∀ a ps, SReach a ps →
      ∃ bl, STiles a 0 bl 256 ∧ ∀ p ∈ ps, ∃ pre B post, bl = pre ++ B :: post ∧ B.off + 2 = p) := by
  refine ⟨simple_init_tiles, ?_, simple_release_block, ?_⟩
  · intro a bl req_size ht
    obtain ⟨a', r, bl', e, ht', -⟩ := simple_allocate_keeps_tiling a bl req_size ht
    exact ⟨a', r, bl', e, ht'⟩
  · intro a ps h
    obtain ⟨bl, ht, hps⟩ := sreach_tiles h
    refine ⟨bl, ht, fun p hp => ?_⟩
    obtain ⟨B, hB, e⟩ := hps p hp
    obtain ⟨pre, post, e2⟩ := List.append_of_mem hB
    exact ⟨pre, B, post, e2, e⟩

/-- Witness for C30: the content left by `simple_init` on a zero-filled array is
reachable and tiled, and a request of 12 bytes leaves a tiled array. -/
theorem simple_tiling_invariant_witness :
    (SReach (SimpleAlloc.simple_init zero_mem) [] ∧
      STiles (SimpleAlloc.simple_init zero_mem) 0 [⟨0, 252, 0⟩] 256) ∧
    (∃ a' r bl', SimpleAlloc.simple_allocate (SimpleAlloc.simple_init zero_mem) 12 = some (a', r) ∧
      STiles a' 0 bl' 256) ∧
    (∃ bl, STiles (SimpleAlloc.simple_init zero_mem) 0 bl 256 ∧
      ∀ p ∈ ([] : List Int), ∃ pre B post, bl = pre ++ B :: post ∧ B.off + 2 = p) :=
  ⟨⟨SReach.init zero_mem, by decide!⟩,
   simple_tiling_invariant.2.1 (SimpleAlloc.simple_init zero_mem) [⟨0, 252, 0⟩] 12 (by decide!),
   simple_tiling_invariant.2.2.2 (SimpleAlloc.simple_init zero_mem) [] (SReach.init zero_mem)⟩

/-- A tiling by a concatenation is a tiling by the first list up to some address followed
by a tiling by the second list. -/
theorem tiles_append {m : Mem} {hi : Int} {ys : List Block} :
    ∀ {xs : List Block} {lo : Int},
      Tiles m lo (xs ++ ys) hi ↔ ∃ mid, Tiles m lo xs mid ∧ Tiles m mid ys hi := by
  intro xs
  induction xs with
  | nil =>
    intro lo
    constructor
    · intro h; exact ⟨lo, rfl, h⟩
    · rintro ⟨mid, e, h⟩
      have e' : lo = mid := e
      rw [e']; exact h
  | cons B bs ih =>
    intro lo
    rw [List.cons_append]
    constructor
    · rintro ⟨h1, h2, h3, h4, h5, h6⟩
      obtain ⟨mid, m1, m2⟩ := ih.1 h6
      exact ⟨mid, ⟨h1, h2, h3, h4, h5, m1⟩, m2⟩
    · rintro ⟨mid, ⟨h1, h2, h3, h4, h5, m1⟩, m2⟩
      exact ⟨h1, h2, h3, h4, h5, ih.2 ⟨mid, m1, m2⟩⟩

/-- A tiling carries over to a memory in which the tags of its blocks read the same. -/
theorem tiles_of_tags {m m' : Mem} {hi : Int} :
    ∀ {bl : List Block} {lo : Int}, Tiles m lo bl hi →
      (∀ X ∈ bl, TagIs m' (X.addr - 16) X.free X.size ∧
        TagIs m' (X.addr + X.size) X.free X.size) →
      Tiles m' lo bl hi := by
  intro bl
  induction bl with
  | nil => intro lo h _; exact h
  | cons B bs ih =>
    intro lo h ht
    obtain ⟨h1, h2, h3, -, -, h6⟩ := h
    have hB := ht B (List.mem_cons_self _ _)
    refine ⟨h1, h2, h3, ?_, hB.2, ih h6 (fun X hX => ht X (List.mem_cons_of_mem _ hX))⟩
    have e : lo = B.addr - 16 := by omega
    rw [e]
    exact hB.1

/-- The free addresses of a concatenation. -/
theorem freeAddrs_append (xs ys : List Block) :
    freeAddrs (xs ++ ys) = freeAddrs xs ++ freeAddrs ys := by
  simp only [freeAddrs, List.filter_append, List.map_append]

/-- The free addresses of a list that starts with a free block. -/
theorem freeAddrs_cons_free (B : Block) (l : List Block) (h : B.free = true) :
    freeAddrs (B :: l) = B.addr :: freeAddrs l := by
  simp only [freeAddrs, List.filter_cons, h, if_true, List.map_cons]

/-- The free addresses of a list that starts with an allocated block. -/
theorem freeAddrs_cons_alloc (B : Block) (l : List Block) (h : B.free = false) :
    freeAddrs (B :: l) = freeAddrs l := by
  simp only [freeAddrs, List.filter_cons, h, Bool.false_eq_true, if_false]

/-- The link fields of the header and of a node lie outside the two tags of every
block. -/
theorem wf_link_vs_tags {m : Mem} {b f : Int} {bl : List Block} {ns : List Int}
    (h : WellFormed ⟨m, b, f⟩ bl ns) {u : Int} (hu : u ∈ f :: ns) {X : Block} (hX : X ∈ bl) :
    u + 16 ≤ X.addr - 16 ∨ X.addr + X.size + 16 ≤ u ∨
      (X.addr ≤ u ∧ u + 16 ≤ X.addr + X.size) := by
  by_cases e : u = X.addr
  · have := (wf_block h hX).2.2.1
    right; right; omega
  · rcases wf_link_vs_block h hu hX e with c | c
    · exact Or.inl c
    · exact Or.inr (Or.inl c)

/-- The split branch in a well-formed state leaves a well-formed state: the block at `n`
is replaced by a free block of `S - R - 32` bytes and an allocated block of `R` bytes,
and the free list is the same list. -/
theorem alloc_split_keeps_wf (m : Mem) (b f : Int) (bl : List Block) (ns : List Int)
    (n R S : Int) (hwf : WellFormed ⟨m, b, f⟩ bl ns) (hn : n ∈ ns)
    (hR : 16 ≤ R) (hR16 : R % 16 = 0) (hS : rdLE m 4 (n - 16 + 12) = S)
    (hfit : R + 48 ≤ S) :
    ∃ m' bl', alloc_split ⟨m, b, f⟩ R (n - 16) = some (⟨m', b, f⟩, n + S - R) ∧
      WellFormed ⟨m', b, f⟩ bl' ns := by
  obtain ⟨B, hB, hBf, hBa, hn1, hn2, hn3, hn4, hn5⟩ := wf_node_block hwf hn
  have hSB : S = B.size := by rw [← hS, hn5]
  obtain ⟨hb0, hb1, hfl, hs0, hs1, ht, hseg, hperm⟩ := hwf
  have hwf' : WellFormed ⟨m, b, f⟩ bl ns := ⟨hb0, hb1, hfl, hs0, hs1, ht, hseg, hperm⟩
  dsimp only at hb0 hb1 hfl hs0 hs1 ht
  have hseg' : Seg m f ns f := hseg
  obtain ⟨m', h0, g1, g2, g3, g4, g5, g6, g7, g8, hfr⟩ :=
    alloc_split_core m b f n S R hn1 (by omega) (by omega) hR hR16 hfit hS
  obtain ⟨l1, l2, rfl⟩ := List.append_of_mem hB
  obtain ⟨mid, t1, t2⟩ := tiles_append.1 ht
  obtain ⟨u1, u2, u3, u4, u5, u6⟩ := t2
  have hmid : mid = n - 16 := by omega
  refine ⟨m', l1 ++ ⟨n, S - R - 32, true⟩ :: ⟨n + S - R, R, false⟩ :: l2, h0,
    hb0, hb1, hfl, ?_, ?_, ?_, ?_, ?_⟩
  · show rd8 m' b = 1
    rw [rd8_congr (hfr b (by omega) (by omega) (by omega))]; exact hs0
  · show rd8 m' (b + 1648) = 1
    rw [rd8_congr (hfr (b + 1648) (by omega) (by omega) (by omega))]; exact hs1
  · show Tiles m' (b + 16) _ (b + 1648)
    have tl1 : Tiles m' (b + 16) l1 mid := by
      refine tiles_of_tags t1 (fun X hX => ?_)
      have a := t1.mem hX
      refine ⟨⟨?_, ?_⟩, ⟨?_, ?_⟩⟩
      · rw [rd8_congr (hfr _ (by omega) (by omega) (by omega))]; exact a.2.2.2.2.1.1
      · rw [split_frame_read 4 _ hfr (by omega) (by omega) (by omega)]; exact a.2.2.2.2.1.2
      · rw [rd8_congr (hfr _ (by omega) (by omega) (by omega))]; exact a.2.2.2.2.2.1
      · rw [split_frame_read 4 _ hfr (by omega) (by omega) (by omega)]; exact a.2.2.2.2.2.2
    have tl2 : Tiles m' (n + S - R + R + 16) l2 (b + 1648) := by
      have u6' : Tiles m (n + S - R + R + 16) l2 (b + 1648) := by
        rw [show n + S - R + R + 16 = B.addr + B.size + 16 by omega]; exact u6
      refine tiles_of_tags u6' (fun X hX => ?_)
      have a := u6.mem hX
      refine ⟨⟨?_, ?_⟩, ⟨?_, ?_⟩⟩
      · rw [rd8_congr (hfr _ (by omega) (by omega) (by omega))]; exact a.2.2.2.2.1.1
      · rw [split_frame_read 4 _ hfr (by omega) (by omega) (by omega)]; exact a.2.2.2.2.1.2
      · rw [rd8_congr (hfr _ (by omega) (by omega) (by omega))]; exact a.2.2.2.2.2.1
      · rw [split_frame_read 4 _ hfr (by omega) (by omega) (by omega)]; exact a.2.2.2.2.2.2
    have tB2 : Tiles m' (n + (S - R - 32) + 16) (⟨n + S - R, R, false⟩ :: l2) (b + 1648) := by
      refine ⟨?_, hR, hR16, ⟨?_, ?_⟩, ⟨?_, ?_⟩, tl2⟩
      · show n + S - R = n + (S - R - 32) + 16 + 16
        omega
      · show rd8 m' (n + (S - R - 32) + 16) = 1
        rw [show n + (S - R - 32) + 16 = n + S - R - 16 by omega]; exact g5
      · show rdLE m' 4 (n + (S - R - 32) + 16 + 12) = R
        rw [show n + (S - R - 32) + 16 + 12 = n + S - R - 16 + 12 by omega]; exact g6
      · show rd8 m' (n + S - R + R) = 1
        rw [show n + S - R + R = n + S by omega]; exact g7
      · show rdLE m' 4 (n + S - R + R + 12) = R
        rw [show n + S - R + R + 12 = n + S + 12 by omega]; exact g8
    refine tiles_append.2 ⟨mid, tl1, ?_, ?_, ?_, ⟨?_, ?_⟩, ⟨g3, g4⟩, tB2⟩
    · show n = mid + 16
      omega
    · show 16 ≤ S - R - 32
      omega
    · show (S - R - 32) % 16 = 0
      omega
    · show rd8 m' mid = 0
      rw [hmid]; exact g1
    · show rdLE m' 4 (mid + 12) = S - R - 32
      rw [hmid]; exact g2
  · show Seg m' f ns f
    have hpos : ∀ x ∈ f :: ns, x = n ∨ x + 16 ≤ n - 16 ∨ n + S + 16 ≤ x := by
      intro x hx
      by_cases e : x = n
      · exact Or.inl e
      · have := wf_link_vs_block hwf' hx hB (by rw [hBa]; exact e)
        rw [hBa, ← hSB] at this
        exact Or.inr this
    refine Seg.congr hseg' (fun u hu => ?_) (fun v hv => ?_)
    · have := hpos u hu
      exact split_frame_read 8 (u + 8) hfr (by omega) (by omega) (by omega)
    · have hv' : v ∈ f :: ns := by
        rcases List.mem_append.1 hv with hv | hv
        · exact List.mem_cons_of_mem _ hv
        · rw [List.mem_singleton.1 hv]; exact List.mem_cons_self _ _
      have := hpos v hv'
      exact split_frame_read 8 v hfr (by omega) (by omega) (by omega)
  · show ns.Perm _
    have e : freeAddrs (l1 ++ ⟨n, S - R - 32, true⟩ :: ⟨n + S - R, R, false⟩ :: l2) =
        freeAddrs (l1 ++ B :: l2) := by
      rw [freeAddrs_append, freeAddrs_append, freeAddrs_cons_free _ _ rfl,
        freeAddrs_cons_alloc _ _ rfl, freeAddrs_cons_free _ _ hBf, hBa]
    rw [e]
    exact hperm

/-- A tag that lies clear of the bytes written by the whole-block branch reads the same
afterwards. -/
theorem alloc_whole_tag (m : Mem) (n S P N t : Int) (hS : 0 ≤ S)
    (h1 : t + 16 ≤ n - 16 ∨ n + S + 16 ≤ t) (h3 : t + 16 ≤ P + 8 ∨ P + 16 ≤ t)
    (h4 : t + 16 ≤ N ∨ N + 8 ≤ t) :
    rd8 (wrLE (wrLE (wr8 (wrLE (wr8 m (n - 16) 1) 4 (n + S + 12) S) (n + S) 1)
      8 (P + 8) N) 8 N P) t = rd8 m t ∧
    rdLE (wrLE (wrLE (wr8 (wrLE (wr8 m (n - 16) 1) 4 (n + S + 12) S) (n + S) 1)
      8 (P + 8) N) 8 N P) 4 (t + 12) = rdLE m 4 (t + 12) := by
  constructor
  · rw [rd8_wrLE _ _ _ _ _ (by omega), rd8_wrLE _ _ _ _ _ (by omega),
      rd8_wr8_ne _ _ _ _ (by omega), rd8_wrLE _ _ _ _ _ (by omega),
      rd8_wr8_ne _ _ _ _ (by omega)]
  · rw [rdLE_wrLE _ _ _ _ _ _ (by omega), rdLE_wrLE _ _ _ _ _ _ (by omega),
      rdLE_wr8 _ _ _ _ _ (by omega), rdLE_wrLE _ _ _ _ _ _ (by omega),
      rdLE_wr8 _ _ _ _ _ (by omega)]

/-- Where the header and the nodes of a well-formed state lie. -/
theorem wf_link_range {m : Mem} {b f : Int} {bl : List Block} {ns : List Int}
    (h : WellFormed ⟨m, b, f⟩ bl ns) {u : Int} (hu : u ∈ f :: ns) :
    u = b + 1664 ∨ (b + 32 ≤ u ∧ u + 32 ≤ b + 1648) := by
  have hfl : f = b + 1664 := h.2.2.1
  rcases List.mem_cons.1 hu with e | e
  · left; omega
  · obtain ⟨_, -, -, -, h1, h2, h3, -, -⟩ := wf_node_block h e
    right; omega

/-- The two list neighbours of a node of a well-formed state are the header or other
nodes. -/
theorem wf_neighbours {m : Mem} {b f : Int} {bl : List Block} {pre post : List Int} {n : Int}
    (hwf : WellFormed ⟨m, b, f⟩ bl (pre ++ n :: post)) :
    rdLE m 8 n ∈ f :: (pre ++ n :: post) ∧ rdLE m 8 (n + 8) ∈ f :: (pre ++ n :: post) ∧
    rdLE m 8 n ≠ n ∧ rdLE m 8 (n + 8) ≠ n := by
  have hseg : Seg m f (pre ++ n :: post) f := hwf.2.2.2.2.2.2.1
  obtain ⟨hsegp, hsegn⟩ := Seg.append.1 hseg
  have hnd := wf_nodup_cons hwf
  have hnd' : (f :: pre ++ n :: post).Nodup := by simpa using hnd
  have hn_pre : n ∉ f :: pre := fun hc =>
    (List.nodup_append.1 hnd').2.2 hc (List.mem_cons_self _ _)
  have hn_post : n ∉ post := (List.nodup_cons.1 (List.nodup_append.1 hnd').2.1).1
  refine ⟨?_, ?_, ?_, ?_⟩
  · rcases List.mem_cons.1 hsegp.back_mem with e | e
    · rw [e]; exact List.mem_cons_self _ _
    · exact List.mem_cons_of_mem _ (List.mem_append_left _ e)
  · rcases List.mem_append.1 hsegn.fwd_mem with e | e
    · exact List.mem_cons_of_mem _ (List.mem_append_right _ (List.mem_cons_of_mem _ e))
    · rw [List.mem_singleton.1 e]; exact List.mem_cons_self _ _
  · intro e
    have := hsegp.back_mem
    rw [e] at this
    exact hn_pre this
  · intro e
    have := hsegn.fwd_mem
    rw [e] at this
    rcases List.mem_append.1 this with e | e
    · exact hn_post e
    · exact hn_pre (by rw [List.mem_singleton.1 e]; exact List.mem_cons_self _ _)

/-- The whole-block branch in a well-formed state leaves a well-formed state: the block
at `n` becomes allocated and its node leaves the free list. -/
theorem alloc_whole_keeps_wf (m : Mem) (b f : Int) (bl : List Block) (pre post : List Int)
    (n S : Int) (hwf : WellFormed ⟨m, b, f⟩ bl (pre ++ n :: post))
    (hS : rdLE m 4 (n - 16 + 12) = S) :
    ∃ m' bl', alloc_whole ⟨m, b, f⟩ n (n - 16) n = some (⟨m', b, f⟩, n) ∧
      WellFormed ⟨m', b, f⟩ bl' (pre ++ post) := by
  have hnmem : n ∈ pre ++ n :: post := by simp
  obtain ⟨B, hB, hBf, hBa, hn1, hn2, hn3, hn4, hn5⟩ := wf_node_block hwf hnmem
  have hSB : B.size = S := by rw [← hS, hn5]
  obtain ⟨hPm, hNm, hPne, hNne⟩ := wf_neighbours hwf
  have hPf := wf_link_facts hwf hB hPm (by rw [hBa]; exact hPne)
  have hNf := wf_link_facts hwf hB hNm (by rw [hBa]; exact hNne)
  rw [hBa, hSB] at hPf hNf
  have hrun := alloc_whole_core m b f n S _ _ hn1 (by omega) (by omega) (by omega) hS rfl rfl
    ⟨hPf.2.1, hPf.2.2⟩ ⟨hNf.2.1, hNf.2.2⟩ hPf.1
  obtain ⟨m1, e1, tg1, tg2, hsegnew⟩ := alloc_whole_wf m b f bl pre post n S hwf hS
  have hm : m1 = wrLE (wrLE (wr8 (wrLE (wr8 m (n - 16) 1) 4 (n + S + 12) S) (n + S) 1)
      8 (rdLE m 8 n + 8) (rdLE m 8 (n + 8))) 8 (rdLE m 8 (n + 8)) (rdLE m 8 n) := by
    have := e1.symm.trans hrun
    injection this with this
    injection this with this
    injection this
  have hPr := wf_link_range hwf hPm
  have hNr := wf_link_range hwf hNm
  have htag : ∀ X ∈ bl, (X.addr + X.size + 16 ≤ n - 16 ∨ n + S + 16 ≤ X.addr - 16) →
      TagIs m1 (X.addr - 16) X.free X.size ∧ TagIs m1 (X.addr + X.size) X.free X.size := by
    intro X hX hd
    have a := wf_block hwf hX
    have p := wf_link_vs_tags hwf hPm hX
    have q := wf_link_vs_tags hwf hNm hX
    have r1 := alloc_whole_tag m n S (rdLE m 8 n) (rdLE m 8 (n + 8)) (X.addr - 16)
      (by omega) (by omega) (by omega) (by omega)
    have r2 := alloc_whole_tag m n S (rdLE m 8 n) (rdLE m 8 (n + 8)) (X.addr + X.size)
      (by omega) (by omega) (by omega) (by omega)
    rw [hm]
    exact ⟨⟨r1.1.trans a.2.2.2.2.1, r1.2.trans a.2.2.2.2.2.1⟩,
      ⟨r2.1.trans a.2.2.2.2.2.2.1, r2.2.trans a.2.2.2.2.2.2.2⟩⟩
  obtain ⟨hb0, hb1, hfl, hs0, hs1, ht, hseg, hperm⟩ := hwf
  dsimp only at hb0 hb1 hfl hs0 hs1 ht
  obtain ⟨l1, l2, rfl⟩ := List.append_of_mem hB
  obtain ⟨mid, t1, t2⟩ := tiles_append.1 ht
  obtain ⟨u1, u2, u3, u4, u5, u6⟩ := t2
  have hmid : mid = n - 16 := by omega
  refine ⟨m1, l1 ++ ⟨n, S, false⟩ :: l2, e1, hb0, hb1, hfl, ?_, ?_, ?_, hsegnew, ?_⟩
  · show rd8 m1 b = 1
    rw [hm, (alloc_whole_tag m n S (rdLE m 8 n) (rdLE m 8 (n + 8)) b
      (by omega) (by omega) (by omega) (by omega)).1]
    exact hs0
  · show rd8 m1 (b + 1648) = 1
    rw [hm, (alloc_whole_tag m n S (rdLE m 8 n) (rdLE m 8 (n + 8)) (b + 1648)
      (by omega) (by omega) (by omega) (by omega)).1]
    exact hs1
  · show Tiles m1 (b + 16) _ (b + 1648)
    have tl1 : Tiles m1 (b + 16) l1 mid := by
      refine tiles_of_tags t1 (fun X hX => htag X (List.mem_append_left _ hX) ?_)
      have a := t1.mem hX
      left; omega
    have tl2 : Tiles m1 (n + S + 16) l2 (b + 1648) := by
      have u6' : Tiles m (n + S + 16) l2 (b + 1648) := by
        rw [show n + S + 16 = B.addr + B.size + 16 by omega]; exact u6
      refine tiles_of_tags u6' (fun X hX =>
        htag X (List.mem_append_right _ (List.mem_cons_of_mem _ hX)) ?_)
      have a := u6'.mem hX
      right; omega
    refine tiles_append.2 ⟨mid, tl1, ?_, ?_, ?_, ?_, tg2, tl2⟩
    · show n = mid + 16
      omega
    · show 16 ≤ S
      omega
    · show S % 16 = 0
      omega
    · show TagIs m1 mid false S
      rw [hmid]; exact tg1
  · show (pre ++ post).Perm _
    rw [freeAddrs_append, freeAddrs_cons_alloc _ _ rfl]
    rw [freeAddrs_append, freeAddrs_cons_free _ _ hBf, hBa] at hperm
    have h1 : (n :: (pre ++ post)).Perm (n :: (freeAddrs l1 ++ freeAddrs l2)) :=
      (List.perm_middle.symm.trans hperm).trans List.perm_middle
    exact h1.cons_inv

/-- Below the wrap-around of the rounding `alloc_mem` preserves well-formedness: in a
well-formed state, for every amount up to 4294967280 (0xFFFFFFF0), `alloc_mem` returns and
the state it leaves is well formed, whether the result is NULL or a block. -/
theorem alloc_mem_keeps_wellFormed (s : State) (bl : List Block) (ns : List Int)
    (amount : Int) (hwf : WellFormed s bl ns) (h0 : 0 ≤ amount) (h1 : amount ≤ 4294967280) :
    ∃ s' p bl' ns', alloc_mem s amount = some (s', p) ∧ WellFormed s' bl' ns' := by
  obtain ⟨m, b, f⟩ := s
  by_cases hz : amount = 0
  · exact ⟨⟨m, b, f⟩, 0, bl, ns, by rw [hz]; rfl, hwf⟩
  have hR := roundUp16_spec amount
  rcases first_fit_split (fun x => amount ≤ rdLE m 4 (x - 16 + 12)) ns with
    hall | ⟨pre, n, post, rfl, hpre, hn⟩
  · refine ⟨⟨m, b, f⟩, 0, bl, ns, ?_, hwf⟩
    exact alloc_mem_oversize_below_wrap _ bl ns amount hwf (by omega) h1
      (fun x hx => not_le.1 (hall x hx))
  · have hnmem : n ∈ pre ++ n :: post := by simp
    obtain ⟨B, hB, hBf, hBa, hn1, hn2, hn3, hn4, hn5⟩ := wf_node_block hwf hnmem
    have hb0 : 0 < b := hwf.1
    rw [hn5] at hn
    have hfound := alloc_mem_found m b f bl pre post n amount B.size hwf
      (by omega) (by omega) hn5 ?_ (by unfold roundUp16; omega)
    · by_cases c : roundUp16 amount + 48 ≤ B.size
      · rw [if_pos c] at hfound
        obtain ⟨m', bl', e, hw⟩ := alloc_split_keeps_wf m b f bl (pre ++ n :: post) n
          (roundUp16 amount) B.size hwf hnmem (by omega) hR.1 hn5 c
        exact ⟨_, _, bl', _, hfound.trans e, hw⟩
      · rw [if_neg c] at hfound
        obtain ⟨m', bl', e, hw⟩ := alloc_whole_keeps_wf m b f bl pre post n B.size hwf hn5
        exact ⟨_, _, bl', _, hfound.trans e, hw⟩
    · intro x hx
      have hxm : x ∈ pre ++ n :: post := List.mem_append_left _ hx
      obtain ⟨X, -, -, -, -, -, hx3, hx4, hx5⟩ := wf_node_block hwf hxm
      have := hpre x hx
      rw [hx5] at this ⊢
      unfold roundUp16
      omega

end Alloc
